import Mathlib

/-!
Verification of the natural-language specification of `passwordmaker-rs`
against a shallow embedding of its source code.

The embedding models:
* `src/lib.rs` — input validation (`PasswordMaker::validate_input`);
* `src/passwordmaker/mod.rs` — password-part generation, the key-derivative
  rule, byte shaping (`yeet_upper_bytes`), and password assembly
  (`combine_prefix_password_suffix`);
* `src/passwordmaker/hmac.rs` — the HMAC construction;
* `src/passwordmaker/leet.rs` — the leet replacement tables and `leetify`;
* `src/passwordmaker/base_conversion/*` — the MSB-first iterative base
  conversion, the LSB-first `Remainders` iterator, and the arbitrary
  precision limb arithmetic (`ArbitraryBytes`), including Knuth's
  Algorithm D division.

Machine integers are modelled as `Nat` with explicit `% 2^w` where the code
relies on wrapping; byte strings are `List Nat`; limb arrays (`[u32; N]`)
are `List Nat` in big-endian limb order with the limb bound `< 2^32`
carried as hypotheses. Unicode strings are Lean `String`s (Lean `Char` and
Rust `char` are both Unicode scalar values); where only grapheme-cluster
counts matter, strings are modelled at grapheme granularity as lists of
opaque grapheme tokens, mirroring the `Grapheme` wrapper of
`src/passwordmaker/grapheme.rs`.
-/

namespace PasswordMakerRs

/-! ## Input validation (`src/lib.rs`) -/

/-- Error type of `src/lib.rs` (`GenerationError`). -/
inductive GenerationError where
  | missingMasterPassword
  | missingTextToUse
  | insufficientCharset
  deriving DecidableEq, Repr

/-- `PasswordMaker::is_suitable_as_output_characters`
(`src/passwordmaker/mod.rs` lines 17-19):
`characters.graphemes(true).nth(1).is_some()`.
The argument is the grapheme-cluster decomposition of the `characters`
string (grapheme segmentation itself is out of scope of the core). -/
def isSuitableAsOutputCharacters (charGraphemes : List String) : Bool :=
  (charGraphemes.get? 1).isSome

/-- `PasswordMaker::validate_input` (`src/lib.rs` lines 117-155), restricted
to its error-selection behaviour.  In the source the `Ok` branch carries the
constructed `PasswordMaker`; the construction is modelled separately, so the
result type here is `Except GenerationError Unit`.  `data.len() == 0` and
`key.len() == 0` test UTF-8 byte length, which is zero exactly when the
string is empty. -/
def validateInput (data key : String) (charGraphemes : List String) :
    Except GenerationError Unit :=
  if data.length = 0 then .error .missingTextToUse
  else if key.length = 0 then .error .missingMasterPassword
  else if ¬ isSuitableAsOutputCharacters charGraphemes then .error .insufficientCharset
  else .ok ()

theorem string_length_eq_zero_iff (s : String) : s.length = 0 ↔ s = "" := by
  constructor
  · intro h
    cases s with
    | mk data =>
      cases data with
      | nil => rfl
      | cons a as => simp [String.length] at h
  · intro h
    subst h
    rfl

theorem isSuitable_iff (l : List String) :
    isSuitableAsOutputCharacters l = true ↔ 2 ≤ l.length := by
  unfold isSuitableAsOutputCharacters
  rw [Option.isSome_iff_ne_none, ne_eq, List.get?_eq_none]
  omega

/-- C2: `validate_input` (and hence `generate_password`) returns
`Err(MissingTextToUse)` iff `data` is empty; `Err(MissingMasterPassword)`
iff `data` is non-empty and `key` is empty; `Err(InsufficientCharset)` iff
`data` and `key` are non-empty and `characters` has fewer than 2 extended
grapheme clusters; and `Ok` in every other case. -/
theorem validateInput_spec (data key : String) (chars : List String) :
    (validateInput data key chars = .error .missingTextToUse ↔ data = "") ∧
    (validateInput data key chars = .error .missingMasterPassword ↔
      (data ≠ "" ∧ key = "")) ∧
    (validateInput data key chars = .error .insufficientCharset ↔
      (data ≠ "" ∧ key ≠ "" ∧ chars.length < 2)) ∧
    (validateInput data key chars = .ok () ↔
      (data ≠ "" ∧ key ≠ "" ∧ 2 ≤ chars.length)) := by
  have hd := string_length_eq_zero_iff data
  have hk := string_length_eq_zero_iff key
  have hs := isSuitable_iff chars
  unfold validateInput
  by_cases h1 : data.length = 0
  · simp only [h1, if_true]
    rw [hd] at h1
    simp [h1]
  · have hd' : ¬ data = "" := fun h => h1 (hd.mpr h)
    by_cases h2 : key.length = 0
    · simp only [h1, if_false, h2, if_true]
      rw [hk] at h2
      simp [hd', h2]
    · have hk' : ¬ key = "" := fun h => h2 (hk.mpr h)
      by_cases h3 : isSuitableAsOutputCharacters chars = true
      · have h3' : 2 ≤ chars.length := hs.mp h3
        simp [h1, h2, h3, hd', hk', h3'] <;> omega
      · have h3' : ¬ 2 ≤ chars.length := fun h => h3 (hs.mpr h)
        simp [h1, h2, h3, hd', hk', h3'] <;> omega

/-! ## The key-derivative rule (`src/passwordmaker/mod.rs` lines 21-34) -/

/-- Decimal digit character, `'0' + d`. -/
def decDigitChar (d : Nat) : Char := Char.ofNat (0x30 + d)

/-- Model of Rust's `usize::to_string()`: decimal digits, most significant
first, produced by repeated division by 10. -/
def rustUsizeToString (n : Nat) : String :=
  if h : n < 10 then String.mk [decDigitChar n]
  else rustUsizeToString (n / 10) ++ String.mk [decDigitChar (n % 10)]
  termination_by n
  decreasing_by
    exact Nat.div_lt_self (by omega) (by omega)

/-- The key derivative of `generate_password_verified_input`
(`src/passwordmaker/mod.rs` line 24):
`if i == 0 { key } else { key + "\n" + &i.to_string() }`. -/
def getModifiedKey (key : String) (i : Nat) : String :=
  if i = 0 then key else key ++ "\n" ++ rustUsizeToString i

/-- The base-10 decimal representation of `i`, written independently of the
embedded `to_string` model: the base-10 digit expansion of `i` (via
`Nat.digits`), most significant digit first, rendered with `'0' + d`. -/
def specDecimalString (i : Nat) : String :=
  String.mk (((Nat.digits 10 i).reverse).map decDigitChar)

theorem string_mk_append (a b : List Char) :
    String.mk (a ++ b) = String.mk a ++ String.mk b := rfl

theorem rustUsizeToString_eq_spec (n : Nat) (h : 1 ≤ n) :
    rustUsizeToString n = specDecimalString n := by
  induction n using Nat.strong_induction_on with
  | _ n ih =>
    rw [rustUsizeToString]
    by_cases hlt : n < 10
    · simp only [hlt, dif_pos]
      unfold specDecimalString
      rw [Nat.digits_def' (by omega : 1 < 10) (by omega : 0 < n)]
      have h10 : n / 10 = 0 := Nat.div_eq_of_lt hlt
      rw [h10]
      simp [Nat.mod_eq_of_lt hlt]
    · simp only [hlt, dif_neg]
      have hge : 10 ≤ n := by omega
      have hq : 1 ≤ n / 10 := (Nat.le_div_iff_mul_le (by omega)).mpr (by omega)
      rw [ih (n / 10) (Nat.div_lt_self (by omega) (by omega)) hq]
      unfold specDecimalString
      rw [Nat.digits_def' (by omega : 1 < 10) (by omega : 0 < n)]
      simp [string_mk_append]

/-- C7: the key derivative for part index `i` equals the key itself when
`i = 0`, and the key concatenated with a single line feed followed by the
base-10 decimal representation of `i` when `i ≥ 1`. -/
theorem getModifiedKey_spec (key : String) (i : Nat) (h : 1 ≤ i) :
    getModifiedKey key 0 = key ∧
    getModifiedKey key i = key ++ "\n" ++ specDecimalString i := by
  constructor
  · rfl
  · unfold getModifiedKey
    rw [if_neg (by omega)]
    rw [rustUsizeToString_eq_spec i h]

/-- Witness for C7 at `key = "secret"`, `i = 105`. -/
theorem getModifiedKey_spec_witness :
    1 ≤ 105 ∧
    (getModifiedKey "secret" 0 = "secret" ∧
     getModifiedKey "secret" 105 = "secret" ++ "\n" ++ specDecimalString 105) :=
  ⟨by decide, getModifiedKey_spec "secret" 105 (by decide)⟩

/-! ## HMAC (`src/passwordmaker/hmac.rs`) -/

/-- The HMAC construction of `src/passwordmaker/hmac.rs` lines 3-28, over an
abstract digest function `H` (the `Hasher` trait; byte slices are `List Nat`).
The source zips the 64 pad slots with `key.chain(iter::repeat(0))`; slot `i`
therefore receives `key[i]` when it exists and `0` otherwise, which is
`(effKey.get? i).getD 0` here. -/
def hmac (H : List Nat → List Nat) (key data : List Nat) : List Nat :=
  let effKey := if 64 < key.length then H key else key
  let keyAt : Nat → Nat := fun i => (effKey.get? i).getD 0
  let innerPad := (List.range 64).map (fun i => keyAt i ^^^ 0x36)
  let outerPad := (List.range 64).map (fun i => keyAt i ^^^ 0x5C)
  H (outerPad ++ H (innerPad ++ data))

/-- The RFC 2104 description of HMAC with block size 64, following the
spec's words: hash the key if longer than 64 bytes, right-pad with zero
bytes to exactly 64 bytes, XOR with `0x36`/`0x5C`, and nest the hashes. -/
def rfc2104Hmac (H : List Nat → List Nat) (key data : List Nat) : List Nat :=
  let k0 := if 64 < key.length then H key else key
  let padded := k0 ++ List.replicate (64 - k0.length) 0
  H ((padded.map (fun b => b ^^^ 0x5C)) ++ H ((padded.map (fun b => b ^^^ 0x36)) ++ data))

theorem range_map_get_eq_rpad (l : List Nat) (n : Nat) (h : l.length ≤ n) :
    (List.range n).map (fun i => (l.get? i).getD 0) =
      l ++ List.replicate (n - l.length) 0 := by
  induction l generalizing n with
  | nil =>
    have hf : (fun i => ((([] : List Nat).get? i).getD 0)) = fun _ => (0 : Nat) := by
      funext i; cases i <;> rfl
    rw [hf, List.map_const', List.length_range]
    rfl
  | cons a as ih =>
    cases n with
    | zero => simp at h
    | succ m =>
      rw [List.range_succ_eq_map]
      simp only [List.map_cons, List.map_map]
      have hf : ((fun i => (((a :: as).get? i).getD 0)) ∘ Nat.succ) =
          (fun i => ((as.get? i).getD 0)) := by
        funext i; rfl
      rw [hf, ih m (by simpa using h)]
      simp [Nat.succ_sub_succ]

theorem range_map_get_xor_eq_rpad (l : List Nat) (c : Nat) (h : l.length ≤ 64) :
    (List.range 64).map (fun i => ((l.get? i).getD 0) ^^^ c) =
      (l ++ List.replicate (64 - l.length) 0).map (fun b => b ^^^ c) := by
  rw [← range_map_get_eq_rpad l 64 h, List.map_map]
  rfl

/-- C8: for every digest function `H` (with 64-byte block size) and all key
and data byte sequences, `hmac` computes `H(opad ‖ H(ipad ‖ data))` where the
effective key is `H(key)` when `|key| > 64` and `key` otherwise, right-padded
with zeros to exactly 64 bytes, and `ipad`/`opad` are the padded key XORed
with `0x36`/`0x5C`.  The hypothesis states that the effective key fits in one
64-byte block, which holds for every real digest (output ≤ 64 bytes). -/
theorem hmac_spec (H : List Nat → List Nat) (key data : List Nat)
    (h : (if 64 < key.length then H key else key).length ≤ 64) :
    hmac H key data = rfc2104Hmac H key data := by
  unfold hmac rfc2104Hmac
  dsimp only []
  rw [range_map_get_xor_eq_rpad _ 0x36 h, range_map_get_xor_eq_rpad _ 0x5C h]

/-- Witness for C8 with the digest `H = fun l => [sum l % 256]` and a short
key. -/
theorem hmac_spec_witness :
    (if 64 < [1, 2, 3].length then (fun l : List Nat => [l.foldl (· + ·) 0 % 256]) [1, 2, 3]
     else [1, 2, 3]).length ≤ 64 ∧
    hmac (fun l => [l.foldl (· + ·) 0 % 256]) [1, 2, 3] [4, 5] =
      rfc2104Hmac (fun l => [l.foldl (· + ·) 0 % 256]) [1, 2, 3] [4, 5] :=
  ⟨by decide, hmac_spec (fun l => [l.foldl (· + ·) 0 % 256]) [1, 2, 3] [4, 5] (by decide)⟩

/-! ## Leet (`src/passwordmaker/leet.rs`) -/

/-- The nine leet levels (`LeetLevel` in `src/lib.rs`). -/
inductive LeetLevel where
  | one | two | three | four | five | six | seven | eight | nine
  deriving DecidableEq, Repr

/-- The hard-coded replacement tables of `LeetReplacementTable::get`
(`src/passwordmaker/leet.rs` lines 14-27), transliterated character for
character from the Rust string literals. -/
def leetLookupTable : LeetLevel → List String
  | .one => ["4", "b", "c", "d", "3", "f", "g", "h", "i", "j", "k", "1", "m",
             "n", "0", "p", "9", "r", "s", "7", "u", "v", "w", "x", "y", "z"]
  | .two => ["4", "b", "c", "d", "3", "f", "g", "h", "1", "j", "k", "1", "m",
             "n", "0", "p", "9", "r", "5", "7", "u", "v", "w", "x", "y", "2"]
  | .three => ["4", "8", "c", "d", "3", "f", "6", "h", "\x27", "j", "k", "1", "m",
               "n", "0", "p", "9", "r", "5", "7", "u", "v", "w", "x", "\x27/", "2"]
  | .four => ["@", "8", "c", "d", "3", "f", "6", "h", "\x27", "j", "k", "1", "m",
              "n", "0", "p", "9", "r", "5", "7", "u", "v", "w", "x", "\x27/", "2"]
  | .five => ["@", "|3", "c", "d", "3", "f", "6", "#", "!", "7", "|<", "1", "m",
              "n", "0", "|>", "9", "|2", "$", "7", "u", "\\/", "w", "x", "\x27/", "2"]
  | .six => ["@", "|3", "c", "|)", "&", "|=", "6", "#", "!", ",|", "|<", "1", "m",
             "n", "0", "|>", "9", "|2", "$", "7", "u", "\\/", "w", "x", "\x27/", "2"]
  | .seven => ["@", "|3", "[", "|)", "&", "|=", "6", "#", "!", ",|", "|<", "1", "^^",
               "^/", "0", "|*", "9", "|2", "5", "7", "(_)", "\\/", "\\/\\/", "><", "\x27/", "2"]
  | .eight => ["@", "8", "(", "|)", "&", "|=", "6", "|-|", "!", "_|", "|(", "1", "|\\/|",
               "|\\|", "()", "|>", "(,)", "|2", "$", "|", "|_|", "\\/", "\\^/", ")(", "\x27/", "\"/_"]
  | .nine => ["@", "8", "(", "|)", "&", "|=", "6", "|-|", "!", "_|", "|\x7b", "|_", "/\\/\\",
              "|\\|", "()", "|>", "(,)", "|2", "$", "|", "|_|", "\\/", "\\^/", ")(", "\x27/", "\"/_"]

/-- `LeetReplacementTable::conditionally_replace`
(`src/passwordmaker/leet.rs` lines 46-51):
`(character as usize).checked_sub(0x61).and_then(|index| table.get(index))`,
emitting the replacement on `Some` and the character itself on `None`.
The `CharOrSlice` distinction of the source only selects between `push` and
`push_str`; at the value level both append the text. -/
def conditionallyReplace (table : List String) (c : Char) : String :=
  match (if c.toNat < 0x61 then none else some (c.toNat - 0x61)).bind table.get? with
  | some s => s
  | none => String.mk [c]

/-- `LeetReplacementTable::leetify` (`src/passwordmaker/leet.rs` lines 31-44):
lowercase the whole input, then fold the per-character replacements into one
string.  Whole-string Unicode lowercasing (`str::to_lowercase`, with its
Final_Sigma handling) is Rust standard library behaviour, passed in here as
the parameter `toLower`; the claim quantifies over the lowercased text. -/
def leetify (table : List String) (toLower : String → String) (input : String) : String :=
  ((toLower input).data.map (conditionallyReplace table)).foldl (fun acc s => acc ++ s) ""

/-- The spec's description of `leetify`: over the code points `c` of the
lowercased input, emit the table entry at index `c - 0x61` when
`c ∈ U+0061..=U+007A` and `c` itself otherwise, concatenated in order. -/
def leetifySpec (table : List String) (toLower : String → String) (input : String) : String :=
  String.join ((toLower input).data.map (fun c =>
    if 0x61 ≤ c.toNat ∧ c.toNat ≤ 0x7A then table.getD (c.toNat - 0x61) ""
    else String.mk [c]))

theorem conditionallyReplace_eq (table : List String) (h26 : table.length = 26) (c : Char) :
    conditionallyReplace table c =
      if 0x61 ≤ c.toNat ∧ c.toNat ≤ 0x7A then table.getD (c.toNat - 0x61) ""
      else String.mk [c] := by
  unfold conditionallyReplace
  by_cases hlt : c.toNat < 0x61
  · rw [if_pos hlt, if_neg (by omega)]
    rfl
  · rw [if_neg hlt]
    simp only [Option.some_bind]
    by_cases hle : c.toNat ≤ 0x7A
    · have hidx : c.toNat - 0x61 < table.length := by omega
      rw [if_pos ⟨by omega, hle⟩]
      rw [List.get?_eq_getElem?, List.getElem?_eq_getElem hidx,
        List.getD_eq_getElem?_getD, List.getElem?_eq_getElem hidx]
      rfl
    · have hidx : table.length ≤ c.toNat - 0x61 := by omega
      rw [if_neg (by omega)]
      rw [List.get?_eq_getElem?, List.getElem?_eq_none hidx]

theorem foldl_append_eq_join (l : List String) :
    l.foldl (fun acc s => acc ++ s) "" = String.join l := rfl

/-- C9: `leetify` never fails (it is a total function), and for every leet
level, lowercasing function and input it returns the concatenation, over the
code points `c` of the whole-string-lowercased input, of the level's table
entry at index `c - 0x61` when `c` lies in `U+0061..=U+007A`, and of `c`
itself otherwise. -/
theorem leetify_spec (level : LeetLevel) (toLower : String → String) (input : String) :
    leetify (leetLookupTable level) toLower input =
      leetifySpec (leetLookupTable level) toLower input := by
  have h26 : (leetLookupTable level).length = 26 := by cases level <;> rfl
  unfold leetify leetifySpec
  rw [foldl_append_eq_join]
  congr 1
  apply List.map_congr_left
  intro c _
  exact conditionallyReplace_eq _ h26 c

/-! ## Byte shaping for the modern HMAC algorithms
(`src/passwordmaker/mod.rs`) -/

/-- The UTF-8 encoding of a Unicode scalar value (what Rust's
`str::as_bytes` yields per `char`). -/
def utf8Char (c : Nat) : List Nat :=
  if c < 0x80 then [c]
  else if c < 0x800 then [0xC0 + c / 0x40, 0x80 + c % 0x40]
  else if c < 0x10000 then [0xE0 + c / 0x1000, 0x80 + c / 0x40 % 0x40, 0x80 + c % 0x40]
  else [0xF0 + c / 0x40000, 0x80 + c / 0x1000 % 0x40, 0x80 + c / 0x40 % 0x40, 0x80 + c % 0x40]

/-- The raw UTF-8 bytes of a string. -/
def utf8Bytes (s : String) : List Nat := s.data.flatMap (fun c => utf8Char c.toNat)

/-- The UTF-16 code units of a Unicode scalar value (surrogate pair for
values above `U+FFFF`), as produced by Rust's `str::encode_utf16`. -/
def utf16Units (c : Nat) : List Nat :=
  if c < 0x10000 then [c]
  else [0xD800 + (c - 0x10000) / 0x400, 0xDC00 + (c - 0x10000) % 0x400]

/-- Rust's `str::encode_utf16` over a whole string. -/
def encodeUtf16 (s : String) : List Nat := s.data.flatMap (fun c => utf16Units c.toNat)

/-- `yeet_upper_bytes` (`src/passwordmaker/mod.rs` lines 349-351):
`input.encode_utf16().map(|wide_char| wide_char as u8)` — the `as u8` cast
keeps the low byte of each UTF-16 code unit. -/
def yeetUpperBytes (s : String) : List Nat := (encodeUtf16 s).map (fun u => u % 256)

/-- `pre_leet_level.as_ref().map(|l| l.leetify(..)).unwrap_or(..)` — apply
the optional pre-leet transformation (`src/passwordmaker/mod.rs`
lines 129-131). -/
def applyOptLeet (preLeet : Option (String → String)) (s : String) : String :=
  match preLeet with
  | none => s
  | some f => f s

/-- The pair of byte sequences handed to the HMAC construction by
`generate_password_part_modern_hmac` / `modern_hmac_to_grapheme_indices`
(`src/passwordmaker/mod.rs` lines 122-146 and 219-230): the pre-leeted key
and data are each passed through `yeet_upper_bytes` before `hmac::hmac` is
called.  This preparation is shared by all five modern HMAC algorithms
(HmacMd4, HmacMd5, HmacSha1, HmacSha256, HmacRipemd160) — the `match` on
the algorithm only selects the digest given to the same prepared bytes. -/
def modernHmacInputBytes (preLeet : Option (String → String)) (key data : String) :
    List Nat × List Nat :=
  (yeetUpperBytes (applyOptLeet preLeet key), yeetUpperBytes (applyOptLeet preLeet data))

/-- Counterexample to C1 as stated: with no pre-leet, key `"ä"` and data
`"€"`, the bytes handed to HMAC are the low bytes of the UTF-16 code units
(`[0xE4]` and `[0xAC]`), not the raw UTF-8 bytes (`[0xC3, 0xA4]` and
`[0xE2, 0x82, 0xAC]`). -/
theorem modernHmacInputBytes_ne_utf8 :
    modernHmacInputBytes none "ä" "€" ≠ (utf8Bytes "ä", utf8Bytes "€") := by
  decide

/-- `s` consists of ASCII characters only. -/
def isAsciiString (s : String) : Bool := s.data.all (fun c => c.toNat < 128)

theorem yeet_eq_utf8_chars (l : List Char) (h : ∀ c ∈ l, c.toNat < 128) :
    (l.flatMap (fun c => utf16Units c.toNat)).map (fun u => u % 256) =
      l.flatMap (fun c => utf8Char c.toNat) := by
  induction l with
  | nil => rfl
  | cons c cs ih =>
    rw [List.flatMap_cons, List.flatMap_cons, List.map_append]
    have hc : c.toNat < 128 := h c (List.mem_cons_self c cs)
    congr 1
    · unfold utf16Units utf8Char
      rw [if_pos (by omega), if_pos (by omega)]
      simp [Nat.mod_eq_of_lt (by omega : c.toNat < 256)]
    · exact ih (fun x hx => h x (List.mem_cons_of_mem c hx))

theorem yeet_eq_utf8_of_ascii (s : String) (h : isAsciiString s = true) :
    yeetUpperBytes s = utf8Bytes s := by
  unfold isAsciiString at h
  rw [List.all_eq_true] at h
  exact yeet_eq_utf8_chars s.data (fun c hc => by simpa using h c hc)

/-- C1 (amended): for every modern-family HMAC algorithm, key, data and
optional pre-leet level, the byte sequences handed to the HMAC construction
are the low bytes of the UTF-16 code units of the separately pre-leeted key
and data (`yeet_upper_bytes`); whenever the pre-leeted key and data consist
of ASCII characters only, these coincide with the raw UTF-8 bytes. -/
theorem modernHmacInputBytes_utf8_of_ascii (preLeet : Option (String → String))
    (key data : String)
    (hk : isAsciiString (applyOptLeet preLeet key) = true)
    (hd : isAsciiString (applyOptLeet preLeet data) = true) :
    modernHmacInputBytes preLeet key data =
      (utf8Bytes (applyOptLeet preLeet key), utf8Bytes (applyOptLeet preLeet data)) := by
  unfold modernHmacInputBytes
  rw [yeet_eq_utf8_of_ascii _ hk, yeet_eq_utf8_of_ascii _ hd]

/-- Witness for the amended C1 at ASCII inputs `key = "abc"`, `data = "xy"`. -/
theorem modernHmacInputBytes_utf8_of_ascii_witness :
    isAsciiString (applyOptLeet none "abc") = true ∧
    isAsciiString (applyOptLeet none "xy") = true ∧
    modernHmacInputBytes none "abc" "xy" =
      (utf8Bytes (applyOptLeet none "abc"), utf8Bytes (applyOptLeet none "xy")) :=
  ⟨by decide, by decide,
    modernHmacInputBytes_utf8_of_ascii none "abc" "xy" (by decide) (by decide)⟩

/-! ## Password assembly (`src/passwordmaker/mod.rs` lines 21-68, 174-201)

Assembly operates on streams of grapheme clusters (the `Grapheme` wrapper).
It is modelled here at grapheme granularity: a string is a list of grapheme
tokens of an arbitrary type `α`, `prefix_length`/`suffix_length` (computed
by `PasswordAssemblyParameters::from_public_parameters` as grapheme counts)
become list lengths, and the infinite part stream
`(0..).flat_map(|i| generate_password_part(...))` becomes a function
`parts : Nat → List α` together with a fuel bound on how many parts are
materialized — the Rust iterator is lazy and only ever consumes the first
`password_length` graphemes, so any sufficiently large fuel yields the same
result. -/

/-- `combine_prefix_password_suffix` (`src/passwordmaker/mod.rs`
lines 193-201): prefix graphemes, chained with the password stream, taken to
`password_length - suffix_length` (saturating), chained with the suffix
graphemes, taken to `password_length`. -/
def combinePrefixPasswordSuffix {α : Type} (password pre suf : List α)
    (passwordLength : Nat) : List α :=
  (((pre ++ password).take (passwordLength - suf.length)) ++ suf).take passwordLength

/-- The first `fuel` password parts, concatenated
(`(0..).flat_map(|i| generate_password_part(..))` truncated to `fuel`
parts). -/
def partsConcat {α : Type} (parts : Nat → List α) (fuel : Nat) : List α :=
  (List.range fuel).flatMap parts

/-- `generate_password_verified_no_post_leet`
(`src/passwordmaker/mod.rs` lines 36-39). -/
def generateNoPostLeet {α : Type} (parts : Nat → List α) (pre suf : List α)
    (pl fuel : Nat) : List α :=
  combinePrefixPasswordSuffix (partsConcat parts fuel) pre suf pl

/-- The `try_fold` accumulator `append_strings_till_needed_length` of
`generate_password_verified_with_post_leet` (`src/passwordmaker/mod.rs`
lines 50-65): materialize part `i`, leetify it, append it, and stop as soon
as the accumulated grapheme count reaches `needed`. -/
def buildPostLeetAcc {α : Type} (parts : Nat → List α) (postLeet : List α → List α)
    (needed : Nat) : Nat → Nat → List α → List α
  | 0, _, acc => acc
  | fuel + 1, i, acc =>
    let p := postLeet (parts i)
    let acc' := acc ++ p
    if needed ≤ acc'.length then acc'
    else buildPostLeetAcc parts postLeet needed fuel (i + 1) acc'

/-- `generate_password_verified_with_post_leet`
(`src/passwordmaker/mod.rs` lines 42-68):
`needed = password_length.saturating_sub(suffix_length).saturating_sub(prefix_length)`,
accumulate leetified parts until `needed` graphemes, then assemble. -/
def generateWithPostLeet {α : Type} (parts : Nat → List α) (postLeet : List α → List α)
    (pre suf : List α) (pl fuel : Nat) : List α :=
  combinePrefixPasswordSuffix
    (buildPostLeetAcc parts postLeet (pl - suf.length - pre.length) fuel 0 []) pre suf pl

/-- `generate_password_verified_input` (`src/passwordmaker/mod.rs`
lines 30-33): dispatch on the optional post-leet level. -/
def generatePasswordVerified {α : Type} (parts : Nat → List α)
    (postLeet : Option (List α → List α)) (pre suf : List α) (pl fuel : Nat) : List α :=
  match postLeet with
  | none => generateNoPostLeet parts pre suf pl fuel
  | some f => generateWithPostLeet parts f pre suf pl fuel

theorem partsConcat_length_ge {α : Type} (parts : Nat → List α)
    (hp : ∀ i, parts i ≠ []) (fuel : Nat) :
    fuel ≤ (partsConcat parts fuel).length := by
  induction fuel with
  | zero => simp [partsConcat]
  | succ n ih =>
    unfold partsConcat at *
    rw [List.range_succ, List.flatMap_append, List.length_append]
    have h1 : 1 ≤ (parts n).length := by
      have := hp n
      cases hpn : parts n with
      | nil => exact absurd hpn this
      | cons a as => simp
    have h2 : ([n].flatMap parts).length = (parts n).length := by
      simp
    omega

theorem buildPostLeetAcc_length_ge {α : Type} (parts : Nat → List α)
    (postLeet : List α → List α) (needed : Nat)
    (hp : ∀ i, postLeet (parts i) ≠ []) :
    ∀ (fuel i : Nat) (acc : List α), needed ≤ acc.length + fuel →
      needed ≤ (buildPostLeetAcc parts postLeet needed fuel i acc).length := by
  intro fuel
  induction fuel with
  | zero =>
    intro i acc h
    simpa [buildPostLeetAcc] using h
  | succ n ih =>
    intro i acc h
    unfold buildPostLeetAcc
    dsimp only []
    by_cases hc : needed ≤ (acc ++ postLeet (parts i)).length
    · rw [if_pos hc]
      exact hc
    · rw [if_neg hc]
      apply ih
      have h1 : 1 ≤ (postLeet (parts i)).length := by
        have := hp i
        cases hpn : postLeet (parts i) with
        | nil => exact absurd hpn this
        | cons a as => simp
      rw [List.length_append]
      omega

theorem combine_eq_decomposition {α : Type} (password pre suf : List α) (pl : Nat)
    (hps : pre.length + suf.length ≤ pl)
    (hpw : pl - suf.length - pre.length ≤ password.length) :
    combinePrefixPasswordSuffix password pre suf pl =
      pre ++ password.take (pl - suf.length - pre.length) ++ suf := by
  unfold combinePrefixPasswordSuffix
  have h1 : pre.take (pl - suf.length) = pre := List.take_all_of_le (by omega)
  have e1 : (pre ++ password).take (pl - suf.length) =
      pre ++ password.take (pl - suf.length - pre.length) := by
    rw [List.take_append_eq_append_take, h1]
  rw [e1]
  have hlen : ((pre ++ password.take (pl - suf.length - pre.length)) ++ suf).length ≤ pl := by
    simp only [List.length_append, List.length_take]
    omega
  rw [List.take_all_of_le hlen, List.append_assoc]

/-- C3: for every configuration with
`prefix_len + suffix_len ≤ password_length`, every part stream whose parts
are non-empty (a password part is empty only if the digest value is zero, in
which case the Rust iterator would never produce output), every (optional)
post-leet that maps non-empty parts to non-empty strings (true of `leetify`),
and enough fuel to cover the lazy stream, the generated output contains
exactly `password_length` grapheme clusters. -/
theorem generatePassword_length {α : Type} (parts : Nat → List α)
    (postLeet : Option (List α → List α)) (pre suf : List α) (pl fuel : Nat)
    (hps : pre.length + suf.length ≤ pl)
    (hparts : ∀ i, parts i ≠ [])
    (hleet : ∀ f, postLeet = some f → ∀ l : List α, l ≠ [] → f l ≠ [])
    (hfuel : pl ≤ fuel) :
    (generatePasswordVerified parts postLeet pre suf pl fuel).length = pl := by
  cases postLeet with
  | none =>
    show (generateNoPostLeet parts pre suf pl fuel).length = pl
    unfold generateNoPostLeet
    have hlen : pl - suf.length - pre.length ≤ (partsConcat parts fuel).length := by
      have := partsConcat_length_ge parts hparts fuel
      omega
    rw [combine_eq_decomposition _ _ _ _ hps hlen]
    rw [List.length_append, List.length_append, List.length_take]
    omega
  | some f =>
    show (generateWithPostLeet parts f pre suf pl fuel).length = pl
    unfold generateWithPostLeet
    have hp : ∀ i, f (parts i) ≠ [] := fun i => hleet f rfl (parts i) (hparts i)
    have hlen : pl - suf.length - pre.length ≤
        (buildPostLeetAcc parts f (pl - suf.length - pre.length) fuel 0 []).length := by
      apply buildPostLeetAcc_length_ge parts f _ hp fuel 0 []
      simp
      omega
    rw [combine_eq_decomposition _ _ _ _ hps hlen]
    rw [List.length_append, List.length_append, List.length_take]
    omega

/-- Witness for C3: parts `[0, 1]`, post-leet `id`, prefix `[7]`, suffix
`[8, 9]`, password length 6. -/
theorem generatePassword_length_witness :
    (1 + 2 ≤ 6 ∧ 6 ≤ 6) ∧
    (generatePasswordVerified (fun _ => [0, 1]) (some (fun l => l)) [7] [8, 9] 6 6).length = 6 :=
  ⟨⟨by decide, by decide⟩,
    generatePassword_length (fun _ => [0, 1]) (some (fun l => l)) [7] [8, 9] 6 6
      (by decide) (fun _ => by simp)
      (fun f hf l hl => by
        cases hf
        exact hl)
      (by decide)⟩

/-- C4: under the same conditions as C3, the first `prefix_len` grapheme
clusters of the output equal the prefix and the last `suffix_len` grapheme
clusters equal the suffix. -/
theorem generatePassword_ends {α : Type} (parts : Nat → List α)
    (postLeet : Option (List α → List α)) (pre suf : List α) (pl fuel : Nat)
    (hps : pre.length + suf.length ≤ pl)
    (hparts : ∀ i, parts i ≠ [])
    (hleet : ∀ f, postLeet = some f → ∀ l : List α, l ≠ [] → f l ≠ [])
    (hfuel : pl ≤ fuel) :
    (generatePasswordVerified parts postLeet pre suf pl fuel).take pre.length = pre ∧
    (generatePasswordVerified parts postLeet pre suf pl fuel).drop
      ((generatePasswordVerified parts postLeet pre suf pl fuel).length - suf.length) = suf := by
  have key : ∃ mid : List α, mid.length = pl - suf.length - pre.length ∧
      generatePasswordVerified parts postLeet pre suf pl fuel = pre ++ mid ++ suf := by
    cases postLeet with
    | none =>
      have hlen : pl - suf.length - pre.length ≤ (partsConcat parts fuel).length := by
        have := partsConcat_length_ge parts hparts fuel
        omega
      refine ⟨(partsConcat parts fuel).take (pl - suf.length - pre.length), ?_, ?_⟩
      · rw [List.length_take]; omega
      · exact combine_eq_decomposition _ _ _ _ hps hlen
    | some f =>
      have hp : ∀ i, f (parts i) ≠ [] := fun i => hleet f rfl (parts i) (hparts i)
      have hlen : pl - suf.length - pre.length ≤
          (buildPostLeetAcc parts f (pl - suf.length - pre.length) fuel 0 []).length := by
        apply buildPostLeetAcc_length_ge parts f _ hp fuel 0 []
        simp
        omega
      refine ⟨(buildPostLeetAcc parts f (pl - suf.length - pre.length) fuel 0 []).take
          (pl - suf.length - pre.length), ?_, ?_⟩
      · rw [List.length_take]; omega
      · exact combine_eq_decomposition _ _ _ _ hps hlen
  obtain ⟨mid, hmid, heq⟩ := key
  rw [heq]
  constructor
  · rw [List.append_assoc, List.take_append_eq_append_take, List.take_length,
      Nat.sub_self, List.take_zero, List.append_nil]
  · have hlen : (pre ++ mid ++ suf).length - suf.length = (pre ++ mid).length := by
      simp only [List.length_append]
      omega
    rw [hlen, List.drop_append_eq_append_drop, List.drop_length,
      Nat.sub_self, List.drop_zero, List.nil_append]

/-- Witness for C4: same concrete configuration as the C3 witness, but with
no post-leet. -/
theorem generatePassword_ends_witness :
    (1 + 2 ≤ 6 ∧ 6 ≤ 6) ∧
    ((generatePasswordVerified (fun _ => [0, 1]) none [7] [8, 9] 6 6).take 1 = [7] ∧
     (generatePasswordVerified (fun _ => [0, 1]) none [7] [8, 9] 6 6).drop
       ((generatePasswordVerified (fun _ => [0, 1]) none [7] [8, 9] 6 6).length - 2) = [8, 9]) :=
  ⟨⟨by decide, by decide⟩, by
    have h := generatePassword_ends (fun _ => [0, 1]) (none : Option (List Nat → List Nat))
      [7] [8, 9] 6 6 (by decide) (fun _ => by simp)
      (fun f hf l hl => by cases hf) (by decide)
    simpa using h⟩

/-! ## MSB-first iterative base conversion
(`src/passwordmaker/base_conversion/iterative_conversion.rs`)

The iterator is generic over a big-unsigned type `V` whose checked
multiplication fails exactly when the product exceeds the largest
representable value.  Both instantiations (`SixteenBytes` wrapping `u128`
and `ArbitraryBytes<N>` wrapping `[u32; N]`) represent the unsigned values
below `cap = 2^(32·N)`, so the embedding works with `Nat` values and an
explicit `cap`: `checked_mul`-style products succeed iff the product is
`< cap`.  In the versions cited by the claims `PrecomputedMaxPowers::lookup`
keeps its default `None` body for these types, so `new` always takes the
`find_highest_fitting_power_non_cached` path. -/

/-- The squaring phase of `find_highest_fitting_power_non_cached`
(`iterative_conversion.rs` lines 49-51): starting from `(base, 1)`, keep
replacing `(p, e)` by `(p·p, 2e)` while the checked square succeeds.
The `2 ≤ p` guard only excludes `p ≤ 1`, where the Rust `successors` chain
never terminates (`p·p = p` keeps succeeding); the validated base is
always ≥ 2. -/
def squarePhase (cap p e : Nat) : Nat × Nat :=
  if h : 2 ≤ p ∧ p * p < cap then squarePhase cap (p * p) (2 * e) else (p, e)
  termination_by cap - p
  decreasing_by
    have hlt : p < p * p := by nlinarith [h.1]
    omega

/-- The linear phase of `find_highest_fitting_power_non_cached`
(`iterative_conversion.rs` lines 54-56): keep replacing `(p, e)` by
`(p·B, e+1)` while the checked multiplication succeeds.  The `2 ≤ B` and
`1 ≤ p` guards only exclude cases where the Rust chain never terminates. -/
def mulPhase (cap B p e : Nat) : Nat × Nat :=
  if h : 2 ≤ B ∧ 1 ≤ p ∧ p * B < cap then mulPhase cap B (p * B) (e + 1) else (p, e)
  termination_by cap - p
  decreasing_by
    have hlt : p < p * B := by nlinarith [h.1, h.2.1]
    omega

/-- `find_highest_fitting_power_non_cached|`: squaring followed by
incremental multiplication, starting at `(base, 1)`. -/
def findHighestFittingPower (cap B : Nat) : Nat × Nat :=
  let pe := squarePhase cap B 1
  mulPhase cap B pe.1 pe.2

/-- The digit-producing loop of `Iterator::next` for
`IterativeBaseConversion` (`iterative_conversion.rs` lines 69-88): while
digits remain, `rem_assign_with_quotient` splits the current value at the
current power, the first iteration divides the power by the base
(`current_base_power /= base` and sets `switch_to_multiplication`), and all
later iterations multiply the value by the base
(`current_value *= base`). -/
def iterDigits (B : Nat) : Nat → Nat → Nat → Bool → List Nat
  | 0, _, _, _ => []
  | rem + 1, v, pw, sw =>
    let q := v / pw
    let r := v % pw
    if sw then q :: iterDigits B rem (r * B) pw true
    else q :: iterDigits B rem r (pw / B) true

/-- The full digit stream of `IterativeBaseConversion::new(value, base)`
followed by exhausting the iterator: `remaining_digits` starts at
`highest_fitting_exponent + 1`. -/
def iterativeBaseConversionDigits (cap B v : Nat) : List Nat :=
  let pe := findHighestFittingPower cap B
  iterDigits B (pe.2 + 1) v pe.1 false

/-- Digit-sequence evaluation, most significant digit first. -/
def evalDigits (B : Nat) (l : List Nat) : Nat :=
  l.foldl (fun a d => a * B + d) 0

theorem foldl_digits_acc (B : Nat) (l : List Nat) (a : Nat) :
    l.foldl (fun a d => a * B + d) a = a * B ^ l.length + evalDigits B l := by
  induction l generalizing a with
  | nil => simp [evalDigits]
  | cons x xs ih =>
    show List.foldl _ (a * B + x) xs = _
    rw [ih (a * B + x)]
    have hx : evalDigits B (x :: xs) = x * B ^ xs.length + evalDigits B xs := by
      show List.foldl _ (0 * B + x) xs = _
      rw [ih (0 * B + x)]
      ring_nf
    rw [hx, List.length_cons, pow_succ]
    ring

theorem squarePhase_spec (cap B : Nat) (hB : 2 ≤ B) :
    ∀ m p e, cap - p ≤ m → p = B ^ e → 2 ≤ p → p < cap →
      ((squarePhase cap p e).1 = B ^ (squarePhase cap p e).2 ∧
       2 ≤ (squarePhase cap p e).1 ∧
       (squarePhase cap p e).1 < cap ∧
       e ≤ (squarePhase cap p e).2) := by
  intro m
  induction m with
  | zero =>
    intro p e hm hp h2 hcap
    omega
  | succ n ih =>
    intro p e hm hp h2 hcap
    rw [squarePhase]
    by_cases hc : 2 ≤ p ∧ p * p < cap
    · rw [dif_pos hc]
      have hlt : p < p * p := by nlinarith [hc.1]
      have := ih (p * p) (2 * e) (by omega) (by rw [hp, ← pow_add]; ring_nf) (by nlinarith) hc.2
      exact ⟨this.1, this.2.1, this.2.2.1, by omega⟩
    · rw [dif_neg hc]
      exact ⟨hp, h2, hcap, le_refl e⟩

theorem squarePhase_exit (cap B : Nat) :
    ∀ m p e, cap - p ≤ m → 2 ≤ p → p < cap →
      cap ≤ (squarePhase cap p e).1 * (squarePhase cap p e).1 := by
  intro m
  induction m with
  | zero =>
    intro p e hm h2 hcap
    omega
  | succ n ih =>
    intro p e hm h2 hcap
    rw [squarePhase]
    by_cases hc : 2 ≤ p ∧ p * p < cap
    · rw [dif_pos hc]
      have hlt : p < p * p := by nlinarith [hc.1]
      exact ih (p * p) (2 * e) (by omega) (by nlinarith) hc.2
    · rw [dif_neg hc]
      simp only []
      push_neg at hc
      exact hc h2

theorem mulPhase_spec (cap B : Nat) (hB : 2 ≤ B) :
    ∀ m p e, cap - p ≤ m → p = B ^ e → 1 ≤ p → p < cap →
      ((mulPhase cap B p e).1 = B ^ (mulPhase cap B p e).2 ∧
       (mulPhase cap B p e).1 < cap ∧
       cap ≤ (mulPhase cap B p e).1 * B ∧
       e ≤ (mulPhase cap B p e).2) := by
  intro m
  induction m with
  | zero =>
    intro p e hm hp h1 hcap
    omega
  | succ n ih =>
    intro p e hm hp h1 hcap
    rw [mulPhase]
    by_cases hc : 2 ≤ B ∧ 1 ≤ p ∧ p * B < cap
    · rw [dif_pos hc]
      have hlt : p < p * B := by nlinarith
      have := ih (p * B) (e + 1) (by omega) (by rw [hp, pow_succ]) (by nlinarith) hc.2.2
      exact ⟨this.1, this.2.1, this.2.2.1, by omega⟩
    · rw [dif_neg hc]
      push_neg at hc
      exact ⟨hp, hcap, hc hB h1, le_refl e⟩

theorem findHighestFittingPower_spec (cap B : Nat) (hB : 2 ≤ B) (hcap : B < cap) :
    (findHighestFittingPower cap B).1 = B ^ (findHighestFittingPower cap B).2 ∧
    (findHighestFittingPower cap B).1 < cap ∧
    cap ≤ (findHighestFittingPower cap B).1 * B ∧
    1 ≤ (findHighestFittingPower cap B).2 := by
  have hsq := squarePhase_spec cap B hB (cap - B) B 1 (le_refl _) (by simp) hB hcap
  have hm := mulPhase_spec cap B hB (cap - (squarePhase cap B 1).1)
    (squarePhase cap B 1).1 (squarePhase cap B 1).2 (le_refl _) hsq.1 (by omega) hsq.2.2.1
  unfold findHighestFittingPower
  exact ⟨hm.1, hm.2.1, hm.2.2.1, le_trans hsq.2.2.2 hm.2.2.2⟩

theorem iterDigits_succ_true (B rem v pw : Nat) :
    iterDigits B (rem + 1) v pw true = v / pw :: iterDigits B rem ((v % pw) * B) pw true := rfl

theorem iterDigits_succ_false (B rem v pw : Nat) :
    iterDigits B (rem + 1) v pw false = v / pw :: iterDigits B rem (v % pw) (pw / B) true := rfl

theorem evalDigits_cons (B q : Nat) (l : List Nat) :
    evalDigits B (q :: l) = q * B ^ l.length + evalDigits B l := by
  show List.foldl _ (0 * B + q) l = _
  rw [foldl_digits_acc]
  ring_nf

theorem iterDigits_switch_spec (B : Nat) (hB : 2 ≤ B) (E : Nat) :
    ∀ k v, k ≤ E → v < B ^ E →
      (iterDigits B k v (B ^ (E - 1)) true).length = k ∧
      (∀ d ∈ iterDigits B k v (B ^ (E - 1)) true, d < B) ∧
      evalDigits B (iterDigits B k v (B ^ (E - 1)) true) = v / B ^ (E - k) := by
  intro k
  induction k with
  | zero =>
    intro v _ hv
    refine ⟨rfl, by simp [iterDigits], ?_⟩
    show (0 : Nat) = v / B ^ (E - 0)
    rw [Nat.sub_zero, Nat.div_eq_of_lt hv]
  | succ k ih =>
    intro v hk hv
    have hE1 : 1 ≤ E := by omega
    have hp : 0 < B ^ (E - 1) := Nat.pos_pow_of_pos _ (by omega)
    have hEeq : B ^ (E - 1) * B = B ^ E := by
      rw [← pow_succ]
      congr 1
      omega
    have hq : v / B ^ (E - 1) < B := by
      rw [Nat.div_lt_iff_lt_mul hp]
      calc v < B ^ E := hv
        _ = B * B ^ (E - 1) := by rw [← hEeq]; ring
    have hv' : (v % B ^ (E - 1)) * B < B ^ E := by
      have := Nat.mod_lt v hp
      calc (v % B ^ (E - 1)) * B < B ^ (E - 1) * B :=
            (Nat.mul_lt_mul_right (by omega : 0 < B)).mpr this
        _ = B ^ E := hEeq
    have hrest := ih ((v % B ^ (E - 1)) * B) (by omega) hv'
    rw [iterDigits_succ_true]
    refine ⟨?_, ?_, ?_⟩
    · rw [List.length_cons, hrest.1]
    · intro d hd
      rcases List.mem_cons.mp hd with h | h
      · rw [h]; exact hq
      · exact hrest.2.1 d h
    · rw [evalDigits_cons, hrest.1, hrest.2.2]
      -- arithmetic: q·B^k + ((v % p)·B) / B^(E-k) = v / B^(E-(k+1))
      have hsplit : B ^ (E - k) = B ^ (E - k - 1) * B := by
        rw [← pow_succ]
        congr 1
        omega
      have h1 : (v % B ^ (E - 1)) * B / B ^ (E - k) = v % B ^ (E - 1) / B ^ (E - k - 1) := by
        rw [hsplit, Nat.mul_div_mul_right _ _ (by omega : 0 < B)]
      rw [h1, show E - (k + 1) = E - k - 1 by omega]
      have hpos : 0 < B ^ (E - k - 1) := Nat.pos_pow_of_pos _ (by omega)
      have hdec : B ^ (E - 1) = B ^ (E - k - 1) * B ^ k := by
        rw [← pow_add]
        congr 1
        omega
      have hv2 : v % B ^ (E - 1) + (B ^ k * (v / B ^ (E - 1))) * B ^ (E - k - 1) = v := by
        calc v % B ^ (E - 1) + (B ^ k * (v / B ^ (E - 1))) * B ^ (E - k - 1)
            = v % B ^ (E - 1) + B ^ (E - 1) * (v / B ^ (E - 1)) := by rw [hdec]; ring
          _ = v := Nat.mod_add_div v (B ^ (E - 1))
      calc v / B ^ (E - 1) * B ^ k + v % B ^ (E - 1) / B ^ (E - k - 1)
          = v % B ^ (E - 1) / B ^ (E - k - 1) + B ^ k * (v / B ^ (E - 1)) := by ring
        _ = (v % B ^ (E - 1) + (B ^ k * (v / B ^ (E - 1))) * B ^ (E - k - 1)) / B ^ (E - k - 1) :=
            (Nat.add_mul_div_right _ _ hpos).symm
        _ = v / B ^ (E - k - 1) := by rw [hv2]

theorem evalDigits_append (B : Nat) (l₁ l₂ : List Nat) :
    evalDigits B (l₁ ++ l₂) = evalDigits B l₁ * B ^ l₂.length + evalDigits B l₂ := by
  show List.foldl _ 0 (l₁ ++ l₂) = _
  rw [List.foldl_append]
  rw [foldl_digits_acc]
  rfl

/-- Shared workhorse for the base-conversion claims: the digit stream has
exactly `E + 1` digits (`E` the computed highest fitting exponent), every
digit is below the base, and the stream evaluates back to the value. -/
theorem iterativeDigits_props (cap B v : Nat) (hB : 2 ≤ B)
    (hBcap : B < cap) (hv : v < cap) :
    (iterativeBaseConversionDigits cap B v).length =
      (findHighestFittingPower cap B).2 + 1 ∧
    (∀ d ∈ iterativeBaseConversionDigits cap B v, d < B) ∧
    evalDigits B (iterativeBaseConversionDigits cap B v) = v := by
  obtain ⟨hP, hPcap, hcapPB, hE1⟩ := findHighestFittingPower_spec cap B hB hBcap
  set P := (findHighestFittingPower cap B).1 with hPdef
  set E := (findHighestFittingPower cap B).2 with hEdef
  have hPpos : 0 < P := by
    rw [hP]; exact Nat.pos_pow_of_pos _ (by omega)
  have hdigits : iterativeBaseConversionDigits cap B v =
      v / P :: iterDigits B E (v % P) (P / B) true := by
    show iterDigits B (E + 1) v P false = _
    rw [iterDigits_succ_false]
  have hPdivB : P / B = B ^ (E - 1) := by
    have hPsplit : P = B ^ (E - 1) * B := by
      rw [hP, ← pow_succ]
      congr 1
      omega
    rw [hPsplit, Nat.mul_div_cancel _ (by omega : 0 < B)]
  have hmod : v % P < B ^ E := by
    rw [← hP]; exact Nat.mod_lt v hPpos
  have hswitch := iterDigits_switch_spec B hB E E (v % P) (le_refl E) hmod
  refine ⟨?_, ?_, ?_⟩
  · rw [hdigits, List.length_cons, hPdivB, hswitch.1]
  · intro d hd
    rw [hdigits] at hd
    rcases List.mem_cons.mp hd with h | h
    · rw [h, Nat.div_lt_iff_lt_mul hPpos]
      calc v < cap := hv
        _ ≤ P * B := hcapPB
        _ = B * P := by ring
    · rw [hPdivB] at h
      exact hswitch.2.1 d h
  · rw [hdigits, evalDigits_cons, hPdivB, hswitch.1, hswitch.2.2]
    rw [Nat.sub_self, pow_zero, Nat.div_one, ← hP]
    exact Nat.div_add_mod' v P

/-- The computed exponent is the largest `E` with `B^E ≤ cap - 1`. -/
theorem findHighestFittingPower_greatest (cap B : Nat) (hB : 2 ≤ B) (hBcap : B < cap) :
    B ^ (findHighestFittingPower cap B).2 ≤ cap - 1 ∧
    (∀ k, B ^ k ≤ cap - 1 → k ≤ (findHighestFittingPower cap B).2) := by
  obtain ⟨hP, hPcap, hcapPB, hE1⟩ := findHighestFittingPower_spec cap B hB hBcap
  constructor
  · rw [← hP]; omega
  · intro k hk
    by_contra hcon
    push_neg at hcon
    have h1 : B ^ ((findHighestFittingPower cap B).2 + 1) ≤ B ^ k :=
      Nat.pow_le_pow_right (by omega) (by omega)
    have h2 : cap ≤ B ^ ((findHighestFittingPower cap B).2 + 1) := by
      rw [pow_succ, ← hP]
      exact hcapPB
    omega

/-- C6: for every digest bit width `32·n` and base `B ≥ 2`, the iterative
base conversion yields exactly `E + 1` digits — `E` being the largest
exponent with `B^E ≤ 2^(32·n) − 1` — each digit strictly below `B`,
most-significant first with explicit leading zeros, and the digit sequence
evaluates back to the converted value. -/
theorem iterativeBaseConversion_spec (n B v : Nat) (hB : 2 ≤ B)
    (hBcap : B < 2 ^ (32 * n)) (hv : v < 2 ^ (32 * n)) :
    ∃ E, (B ^ E ≤ 2 ^ (32 * n) - 1 ∧ (∀ k, B ^ k ≤ 2 ^ (32 * n) - 1 → k ≤ E)) ∧
      (iterativeBaseConversionDigits (2 ^ (32 * n)) B v).length = E + 1 ∧
      (∀ d ∈ iterativeBaseConversionDigits (2 ^ (32 * n)) B v, d < B) ∧
      evalDigits B (iterativeBaseConversionDigits (2 ^ (32 * n)) B v) = v := by
  obtain ⟨hlen, hlt, heval⟩ := iterativeDigits_props (2 ^ (32 * n)) B v hB hBcap hv
  obtain ⟨hgr1, hgr2⟩ := findHighestFittingPower_greatest (2 ^ (32 * n)) B hB hBcap
  exact ⟨(findHighestFittingPower (2 ^ (32 * n)) B).2, ⟨hgr1, hgr2⟩, hlen, hlt, heval⟩

/-- Witness for C6: a 32-bit digest (`n = 1`), base 16, value 12345678. -/
theorem iterativeBaseConversion_spec_witness :
    (2 ≤ 16 ∧ 16 < 2 ^ (32 * 1) ∧ 12345678 < 2 ^ (32 * 1)) ∧
    (∃ E, (16 ^ E ≤ 2 ^ (32 * 1) - 1 ∧ (∀ k, 16 ^ k ≤ 2 ^ (32 * 1) - 1 → k ≤ E)) ∧
      (iterativeBaseConversionDigits (2 ^ (32 * 1)) 16 12345678).length = E + 1 ∧
      (∀ d ∈ iterativeBaseConversionDigits (2 ^ (32 * 1)) 16 12345678, d < 16) ∧
      evalDigits 16 (iterativeBaseConversionDigits (2 ^ (32 * 1)) 16 12345678) = 12345678) :=
  ⟨⟨by decide, by norm_num, by norm_num⟩,
    iterativeBaseConversion_spec 1 16 12345678 (by decide) (by norm_num) (by norm_num)⟩

/-! ## The LSB-first `Remainders` iterator
(`src/passwordmaker/base_conversion/remainders.rs`) -/

/-- The digit stream of `Remainders` (`remainders.rs` lines 28-55) at value
level: `Remainders::new` stores `None` for a zero value (empty stream);
each `next` divides, yields the remainder, and stops once the quotient is
zero.  The `d ≤ 1` guard is unreachable in the source (the divisor is the
validated alphabet size ≥ 2); for `d ≤ 1` the Rust loop would not
terminate. -/
def calcRemainders (d : Nat) (v : Nat) : List Nat :=
  if h : v = 0 ∨ d ≤ 1 then [] else v % d :: calcRemainders d (v / d)
  termination_by v
  decreasing_by
    push_neg at h
    exact Nat.div_lt_self (by omega) (by omega)

theorem calcRemainders_zero (d : Nat) : calcRemainders d 0 = [] := by
  rw [calcRemainders]
  simp

theorem calcRemainders_pos (d v : Nat) (hd : 2 ≤ d) (hv : 0 < v) :
    calcRemainders d v = v % d :: calcRemainders d (v / d) := by
  rw [calcRemainders]
  rw [dif_neg (by omega)]

theorem calcRemainders_lt (d : Nat) (hd : 2 ≤ d) :
    ∀ v, ∀ x ∈ calcRemainders d v, x < d := by
  intro v
  induction v using Nat.strong_induction_on with
  | _ v ih =>
    intro x hx
    by_cases hv : v = 0
    · rw [hv, calcRemainders_zero] at hx
      simp at hx
    · rw [calcRemainders_pos d v hd (by omega)] at hx
      rcases List.mem_cons.mp hx with h | h
      · rw [h]; exact Nat.mod_lt v (by omega)
      · exact ih (v / d) (Nat.div_lt_self (by omega) (by omega)) x h

theorem calcRemainders_length_le (d : Nat) (hd : 2 ≤ d) :
    ∀ v k, v < d ^ k → (calcRemainders d v).length ≤ k := by
  intro v
  induction v using Nat.strong_induction_on with
  | _ v ih =>
    intro k hk
    by_cases hv : v = 0
    · rw [hv, calcRemainders_zero]
      simp
    · rw [calcRemainders_pos d v hd (by omega), List.length_cons]
      cases k with
      | zero =>
        rw [pow_zero] at hk
        omega
      | succ k' =>
        have hdiv : v / d < d ^ k' := by
          rw [Nat.div_lt_iff_lt_mul (by omega : 0 < d)]
          calc v < d ^ (k' + 1) := hk
            _ = d ^ k' * d := pow_succ d k'
        have := ih (v / d) (Nat.div_lt_self (by omega) (by omega)) k' hdiv
        omega

theorem calcRemainders_eval (d : Nat) (hd : 2 ≤ d) :
    ∀ v, evalDigits d (calcRemainders d v).reverse = v := by
  intro v
  induction v using Nat.strong_induction_on with
  | _ v ih =>
    by_cases hv : v = 0
    · rw [hv, calcRemainders_zero]
      rfl
    · rw [calcRemainders_pos d v hd (by omega), List.reverse_cons, evalDigits_append]
      rw [ih (v / d) (Nat.div_lt_self (by omega) (by omega))]
      show v / d * d ^ (1 : Nat) + evalDigits d [v % d] = v
      have : evalDigits d [v % d] = v % d := by
        show 0 * d + v % d = v % d
        ring
      rw [this, pow_one]
      exact Nat.div_add_mod' v d

theorem evalDigits_lt (B : Nat) (hB : 1 ≤ B) :
    ∀ l : List Nat, (∀ x ∈ l, x < B) → evalDigits B l < B ^ l.length := by
  intro l
  induction l with
  | nil =>
    intro _
    show (0 : Nat) < B ^ 0
    simp
  | cons a as ih =>
    intro h
    rw [evalDigits_cons, List.length_cons, pow_succ]
    have ha : a < B := h a (List.mem_cons_self a as)
    have has : evalDigits B as < B ^ as.length := ih (fun x hx => h x (List.mem_cons_of_mem a hx))
    calc a * B ^ as.length + evalDigits B as
        < a * B ^ as.length + B ^ as.length := by omega
      _ = (a + 1) * B ^ as.length := by ring
      _ ≤ B * B ^ as.length := by
          have : a + 1 ≤ B := ha
          exact Nat.mul_le_mul_right _ this
      _ = B ^ as.length * B := by ring

theorem digits_unique (B : Nat) (hB : 1 ≤ B) :
    ∀ l₁ l₂ : List Nat, l₁.length = l₂.length → (∀ x ∈ l₁, x < B) → (∀ x ∈ l₂, x < B) →
      evalDigits B l₁ = evalDigits B l₂ → l₁ = l₂ := by
  intro l₁
  induction l₁ with
  | nil =>
    intro l₂ hlen _ _ _
    cases l₂ with
    | nil => rfl
    | cons b bs => simp at hlen
  | cons a as ih =>
    intro l₂ hlen h₁ h₂ heval
    cases l₂ with
    | nil => simp at hlen
    | cons b bs =>
      have hlen' : as.length = bs.length := by
        simp only [List.length_cons] at hlen
        omega
      rw [evalDigits_cons, evalDigits_cons, hlen'] at heval
      have hras : evalDigits B as < B ^ bs.length := by
        rw [← hlen']
        exact evalDigits_lt B hB as (fun x hx => h₁ x (List.mem_cons_of_mem a hx))
      have hrbs : evalDigits B bs < B ^ bs.length :=
        evalDigits_lt B hB bs (fun x hx => h₂ x (List.mem_cons_of_mem b hx))
      have hpos : 0 < B ^ bs.length := Nat.pos_pow_of_pos _ (by omega)
      have hab : a = b := by
        have h1 : (a * B ^ bs.length + evalDigits B as) / B ^ bs.length = a := by
          rw [Nat.add_comm, Nat.add_mul_div_right _ _ hpos, Nat.div_eq_of_lt hras]
          omega
        have h2 : (b * B ^ bs.length + evalDigits B bs) / B ^ bs.length = b := by
          rw [Nat.add_comm, Nat.add_mul_div_right _ _ hpos, Nat.div_eq_of_lt hrbs]
          omega
        rw [← h1, ← h2, heval]
      have hres : evalDigits B as = evalDigits B bs := by
        rw [hab] at heval
        omega
      rw [hab, ih bs hlen' (fun x hx => h₁ x (List.mem_cons_of_mem a hx))
        (fun x hx => h₂ x (List.mem_cons_of_mem b hx)) hres]

/-- Left-pad a digit list with zero digits to `n` digits total. -/
def leftPadZeros (n : Nat) (l : List Nat) : List Nat :=
  List.replicate (n - l.length) 0 ++ l

theorem evalDigits_replicate_zero (B k : Nat) :
    evalDigits B (List.replicate k 0) = 0 := by
  induction k with
  | zero => rfl
  | succ k ih =>
    rw [List.replicate_succ, evalDigits_cons, ih]
    ring

theorem evalDigits_leftPadZeros (B n : Nat) (l : List Nat) :
    evalDigits B (leftPadZeros n l) = evalDigits B l := by
  unfold leftPadZeros
  rw [evalDigits_append, evalDigits_replicate_zero]
  ring

/-- C10: the MSB-first iterative conversion and the LSB-first
repeated-division `Remainders` iterator agree: the iterative digit sequence
is the reversal of the `Remainders` sequence, left-padded with zero digits
to the iterative conversion's fixed `E + 1` digit count. -/
theorem iterative_eq_remainders_padded (n B v : Nat) (hB : 2 ≤ B)
    (hBcap : B < 2 ^ (32 * n)) (hv : v < 2 ^ (32 * n)) :
    iterativeBaseConversionDigits (2 ^ (32 * n)) B v =
      leftPadZeros ((findHighestFittingPower (2 ^ (32 * n)) B).2 + 1)
        ((calcRemainders B v).reverse) := by
  obtain ⟨hP, hPcap, hcapPB, hE1⟩ :=
    findHighestFittingPower_spec (2 ^ (32 * n)) B hB hBcap
  obtain ⟨hlen, hltB, heval⟩ := iterativeDigits_props (2 ^ (32 * n)) B v hB hBcap hv
  have hvBE : v < B ^ ((findHighestFittingPower (2 ^ (32 * n)) B).2 + 1) := by
    calc v < 2 ^ (32 * n) := hv
      _ ≤ (findHighestFittingPower (2 ^ (32 * n)) B).1 * B := hcapPB
      _ = B ^ ((findHighestFittingPower (2 ^ (32 * n)) B).2 + 1) := by rw [hP, pow_succ]
  have hrlen : (calcRemainders B v).length ≤
      (findHighestFittingPower (2 ^ (32 * n)) B).2 + 1 :=
    calcRemainders_length_le B hB v _ hvBE
  apply digits_unique B (by omega)
  · rw [hlen]
    unfold leftPadZeros
    rw [List.length_append, List.length_replicate, List.length_reverse]
    omega
  · exact hltB
  · intro x hx
    unfold leftPadZeros at hx
    rcases List.mem_append.mp hx with h | h
    · rw [List.eq_of_mem_replicate h]
      omega
    · exact calcRemainders_lt B hB v x (List.mem_reverse.mp h)
  · rw [heval, evalDigits_leftPadZeros, calcRemainders_eval B hB v]

/-- Witness for C10 at `n = 1`, `B = 10`, `v = 255`. -/
theorem iterative_eq_remainders_padded_witness :
    (2 ≤ 10 ∧ 10 < 2 ^ (32 * 1) ∧ 255 < 2 ^ (32 * 1)) ∧
    iterativeBaseConversionDigits (2 ^ (32 * 1)) 10 255 =
      leftPadZeros ((findHighestFittingPower (2 ^ (32 * 1)) 10).2 + 1)
        ((calcRemainders 10 255).reverse) :=
  ⟨⟨by decide, by norm_num, by norm_num⟩,
    iterative_eq_remainders_padded 1 10 255 (by decide) (by norm_num) (by norm_num)⟩

/-! ## Arbitrary-precision limb arithmetic (`ArbitraryBytes<N>`,
`src/passwordmaker/base_conversion/iterative_conversion_impl.rs`)

`[u32; N]` becomes a big-endian `List Nat` of limbs, each `< 2^32` (carried
as hypotheses).  `u32`/`u64`/`u128` operations become `Nat` operations with
explicit `% 2^32` where the source wraps; `x << s | y` becomes
`x * 2^s % 2^32 + y` at the places where the source ORs bit-disjoint values
(shift composition, carry recombination), which coincides with `|||` under
the limb bounds.  The value of a limb list is `evalDigits (2^32)`.

Lists are processed in the direction the source iterates: the borrow/carry
folds run over `.rev()`, so their cores below take least-significant-first
lists and the wrappers reverse on the way in and out. -/

/-- Value of a least-significant-first limb list. -/
def valLsb : List Nat → Nat
  | [] => 0
  | x :: xs => x + 2 ^ 32 * valLsb xs

/-- Core of `slice_overflowing_sub_assign`
(`iterative_conversion_impl.rs` lines 461-469), on LSB-first lists:
per limb, `r = b.overflowing_add(carry)`, `s = a.overflowing_sub(r.0)`,
new carry `r.1 || s.1`; `a.overflowing_sub(x)` is `(a + 2^32 - x) % 2^32`
with borrow flag `a < x`. -/
def subCarryLsb : List Nat → List Nat → Bool → List Nat × Bool
  | [], _, c => ([], c)
  | _ :: _, [], c => ([], c)
  | a :: as, b :: bs, c =>
    let r := b + (if c then 1 else 0)
    let rlow := r % 2 ^ 32
    let rc : Bool := decide (2 ^ 32 ≤ r)
    let slow := (a + 2 ^ 32 - rlow) % 2 ^ 32
    let sc : Bool := decide (a < rlow)
    let rest := subCarryLsb as bs (rc || sc)
    (slow :: rest.1, rest.2)

/-- `slice_overflowing_sub_assign(lhs, rhs)`: big-endian wrapper (the Rust
fold runs over the reversed zip). -/
def sliceOverflowingSubAssign (lhs rhs : List Nat) : List Nat × Bool :=
  let rc := subCarryLsb lhs.reverse rhs.reverse false
  (rc.1.reverse, rc.2)

/-- Core of `slice_overflowing_add_assign`
(`iterative_conversion_impl.rs` lines 471-479), on LSB-first lists. -/
def addCarryLsb : List Nat → List Nat → Bool → List Nat × Bool
  | [], _, c => ([], c)
  | _ :: _, [], c => ([], c)
  | a :: as, b :: bs, c =>
    let r := b + (if c then 1 else 0)
    let rlow := r % 2 ^ 32
    let rc : Bool := decide (2 ^ 32 ≤ r)
    let s := a + rlow
    let slow := s % 2 ^ 32
    let sc : Bool := decide (2 ^ 32 ≤ s)
    let rest := addCarryLsb as bs (rc || sc)
    (slow :: rest.1, rest.2)

/-- `slice_overflowing_add_assign(lhs, rhs)`: big-endian wrapper. -/
def sliceOverflowingAddAssign (lhs rhs : List Nat) : List Nat × Bool :=
  let rc := addCarryLsb lhs.reverse rhs.reverse false
  (rc.1.reverse, rc.2)

/-- Body of `ArbitraryBytes::shift_left` (`iterative_conversion_impl.rs`
lines 435-444) for `s ≠ 0`: the result is the zero-padded array where slot
`i` holds `previous_limb << s | current_limb >> (32 - s)`.  The source zips
the padded array with `self.chain(once(0))`; here `prev` is the limb one
position more significant (initially the pad's `0`), and the final list
entry pairs the last limb with the chained `0`. -/
def shiftLeftAux (s : Nat) : Nat → List Nat → List Nat
  | prev, [] => [prev * 2 ^ s % 2 ^ 32]
  | prev, x :: xs => (prev * 2 ^ s % 2 ^ 32 + x / 2 ^ (32 - s)) :: shiftLeftAux s x xs

/-- `ArbitraryBytes::shift_left`: pad with one zero limb, then (for
`s ≠ 0`) recombine the shifted limbs. -/
def shiftLeftLimbs (l : List Nat) (s : Nat) : List Nat :=
  if s = 0 then 0 :: l else shiftLeftAux s 0 l

/-- Body of `ArbitraryBytes::shift_right` (`iterative_conversion_impl.rs`
lines 446-458) for `s ≠ 0`: fold with a carry holding the previous limb's
low bits shifted to the top (`val << (32 - s)` wrapped, i.e.
`(val % 2^s) * 2^(32-s)`), each limb becoming `val >> s | carry`. -/
def shiftRightAux (s : Nat) : Nat → List Nat → List Nat
  | _, [] => []
  | carry, v :: vs => (v / 2 ^ s + carry) :: shiftRightAux s (v % 2 ^ s * 2 ^ (32 - s)) vs

/-- `ArbitraryBytes::shift_right`. -/
def shiftRightLimbs (l : List Nat) (s : Nat) : List Nat :=
  if s = 0 then l else shiftRightAux s 0 l

/-- Core of `Mul<u32> for ArbitraryBytes<N>` (the `make_mul!` macro,
`iterative_conversion_impl.rs` lines 244-264), on LSB-first limbs (the
source folds over `.rev()`): per limb `res = digit * rhs + carry`, the limb
becomes `res % 2^32` (`res as u32`) and the carry `res >> 32`. -/
def mulU32Lsb : List Nat → Nat → Nat → List Nat × Nat
  | [], _, carry => ([], carry)
  | x :: xs, k, carry =>
    let res := x * k + carry
    let rest := mulU32Lsb xs k (res / 2 ^ 32)
    (res % 2 ^ 32 :: rest.1, rest.2)

/-- `Mul<u32> for ArbitraryBytes<N>`: `None` when a carry leaves the most
significant limb. -/
def mulLimbsU32 (l : List Nat) (k : Nat) : Option (List Nat) :=
  let rc := mulU32Lsb l.reverse k 0
  if rc.2 = 0 then some rc.1.reverse else none

/-- The `make_div_assign_with_remainder!` fold
(`iterative_conversion_impl.rs` lines 317-338) and, identically,
`Division::divide for [u32; N]` (`remainders_impl.rs` lines 5-31):
most-significant-first long division by a single-limb divisor; the carry is
the running remainder, each limb becomes `dividend / divisor` with
`dividend = carry << 32 | limb`. -/
def divRemU32 (divisor : Nat) : List Nat → Nat → List Nat × Nat
  | [], carry => ([], carry)
  | x :: xs, carry =>
    let dividend := carry * 2 ^ 32 + x
    let q := dividend / divisor
    let rest := divRemU32 divisor xs (dividend % divisor)
    (q :: rest.1, rest.2)

/-- The derived `Ord` of `ArbitraryBytes<N>` (lexicographic array
comparison, limb by limb from the most significant). -/
def cmpLimbs : List Nat → List Nat → Ordering
  | [], [] => .eq
  | [], _ :: _ => .lt
  | _ :: _, [] => .gt
  | a :: as, b :: bs =>
    if a < b then .lt else if b < a then .gt else cmpLimbs as bs

/-- `TryFrom<&ArbitraryBytes<N>> for u32` (`iterative_conversion_impl.rs`
lines 232-242): succeeds with the last limb iff all other limbs are zero. -/
def tryIntoU32 (l : List Nat) : Option Nat :=
  match l.getLast? with
  | none => none
  | some x => if l.dropLast.all (fun y => decide (y = 0)) then some x else none

/-- `ArbitraryBytes::get_digit_from_right` (`self.0[N - i - 1]`). -/
def getFromRight (l : List Nat) (i : Nat) : Nat :=
  l.getD (l.length - 1 - i) 0

/-- `ArbitraryBytes::set_digit_from_right`. -/
def setFromRight (l : List Nat) (i : Nat) (v : Nat) : List Nat :=
  l.set (l.length - 1 - i) v

/-- `ArbitraryBytes::find_first_nonzero_digit`
(`iterative_conversion_impl.rs` lines 424-426): index of the first nonzero
limb from the most significant end, or the length if all are zero. -/
def findFirstNonzeroDigit (l : List Nat) : Nat :=
  (l.takeWhile (fun x => decide (x = 0))).length

/-- `u32::leading_zeros` for a value `< 2^32`. -/
def leadingZeros32 (x : Nat) : Nat :=
  if x = 0 then 32 else 31 - Nat.log2 x

/-- The trial-digit refinement loop of `rem_assign_with_quotient_knuth`
(`iterative_conversion_impl.rs` lines 391-398): while the running remainder
still fits a `u32` and the guess is either too wide or fails the
second-digit test, decrement the guess and grow the remainder by the guess
divisor. -/
def refineGuess (v1 v2 u2 : Nat) (guess rem : Nat) : Nat × Nat :=
  if h : rem ≤ 2 ^ 32 - 1 ∧ (2 ^ 32 - 1 < guess ∨ rem * 2 ^ 32 + u2 < v2 * guess) then
    refineGuess v1 v2 u2 (guess - 1) (rem + v1)
  else (guess, rem)
  termination_by guess
  decreasing_by
    rcases h with ⟨_, h2 | h2⟩
    · omega
    · have hg : guess ≠ 0 := by
        intro h0
        rw [h0, Nat.mul_zero] at h2
        omega
      omega

/-- One iteration of the Knuth Algorithm D loop
(`iterative_conversion_impl.rs` lines 385-415) at quotient position `j`
(from the right): guess the digit from the top two window limbs, refine it,
subtract `guess * divisor` from the dividend window (slice positions
`(M-1-n-j)..(M-j)` against the `s` window `(M-1-n)..M`), and on borrow
decrement the digit and add the divisor window back.  Returns the new
dividend and the digit.  The `expect` on the multiplication is modelled by
`getD` (the overflow case is proved unreachable). -/
def knuthStep (dv : List Nat) (v1 v2 n M : Nat) (dividend : List Nat) (j : Nat) :
    List Nat × Nat :=
  let u0 := getFromRight dividend (j + n)
  let u1 := getFromRight dividend (j + n - 1)
  let u2 := getFromRight dividend (j + n - 2)
  let gdd := u0 * 2 ^ 32 + u1
  let gr := refineGuess v1 v2 u2 (gdd / v1) (gdd % v1)
  let g := gr.1
  let s := (mulLimbsU32 dv g).getD (List.replicate M 0)
  let sW := s.drop (M - 1 - n)
  let pre := dividend.take (M - 1 - n - j)
  let win := (dividend.drop (M - 1 - n - j)).take (n + 1)
  let post := dividend.drop (M - j)
  let sub := sliceOverflowingSubAssign win sW
  if sub.2 then
    let vW := dv.drop (M - 1 - n)
    let add := sliceOverflowingAddAssign sub.1 vW
    (pre ++ add.1 ++ post, g - 1)
  else (pre ++ sub.1 ++ post, g)

/-- The Knuth main loop (`for j in (0..=m_extra_digits_dividend).rev()`),
recorded digits going into the quotient at position `j` from the right. -/
def knuthLoop (dv : List Nat) (v1 v2 n M : Nat) :
    Nat → List Nat → List Nat → List Nat × List Nat
  | 0, dividend, quotient =>
    let dg := knuthStep dv v1 v2 n M dividend 0
    (dg.1, setFromRight quotient 0 dg.2)
  | j + 1, dividend, quotient =>
    let dg := knuthStep dv v1 v2 n M dividend (j + 1)
    knuthLoop dv v1 v2 n M j dg.1 (setFromRight quotient (j + 1) dg.2)

/-- `ArbitraryBytes::rem_assign_with_quotient_knuth`
(`iterative_conversion_impl.rs` lines 358-422): normalize both operands by
the divisor's leading-zero count (the dividend widening by one limb), run
the digit loop from `m_extra_digits_dividend` down to `0`, then denormalize
the remaining dividend and drop its pad limb.  Returns
`(remainder, quotient)` — in the source the remainder replaces `self` and
the quotient is returned. -/
def remAssignWithQuotientKnuth (a divisor : List Nat) : List Nat × List Nat :=
  let N := a.length
  let M := N + 1
  let n := N - findFirstNonzeroDigit divisor
  let mPlusN := N - findFirstNonzeroDigit a
  let mExtra := mPlusN - n
  let nsh := leadingZeros32 (getFromRight divisor (n - 1))
  let dividend := shiftLeftLimbs a nsh
  let dv := shiftLeftLimbs divisor nsh
  let v1 := getFromRight dv (n - 1)
  let v2 := getFromRight dv (n - 2)
  let dq := knuthLoop dv v1 v2 n M mExtra dividend (List.replicate N 0)
  ((shiftRightLimbs dq.1 nsh).drop 1, dq.2)

/-- `ArbitraryBytes::rem_assign_with_quotient_u32`
(`iterative_conversion_impl.rs` lines 353-356): divide by the single limb,
the quotient replacing the limbs in place and the remainder becoming
`Self::from(&remainder)`.  Returns `(remainder, quotient)`. -/
def remAssignWithQuotientU32 (a : List Nat) (d : Nat) : List Nat × List Nat :=
  let qr := divRemU32 d a 0
  (List.replicate (a.length - 1) 0 ++ [qr.2], qr.1)

/-- `RemAssignWithQuotient for ArbitraryBytes<N>`
(`iterative_conversion_impl.rs` lines 295-315): compare first — `Less`
leaves the remainder in place with quotient 0, `Equal` yields remainder 0
and quotient 1 (`Self::from(&1usize)` is `[0, …, 0, 1]`), `Greater`
dispatches on whether the divisor fits a single `u32`.  Returns
`(remainder, quotient)`. -/
def remAssignWithQuotient (a b : List Nat) : List Nat × List Nat :=
  match cmpLimbs a b with
  | .lt => (a, List.replicate a.length 0)
  | .eq => (List.replicate a.length 0, List.replicate (a.length - 1) 0 ++ [1])
  | .gt =>
    match tryIntoU32 b with
    | some d => remAssignWithQuotientU32 a d
    | none => remAssignWithQuotientKnuth a b

/-! ### Value semantics of the limb primitives -/

theorem valLsb_append (u w : List Nat) :
    valLsb (u ++ w) = valLsb u + 2 ^ (32 * u.length) * valLsb w := by
  induction u with
  | nil => simp [valLsb]
  | cons x xs ih =>
    show x + 2 ^ 32 * valLsb (xs ++ w) = x + 2 ^ 32 * valLsb xs + 2 ^ (32 * (xs.length + 1)) * valLsb w
    rw [ih]
    have : 2 ^ (32 * (xs.length + 1)) = 2 ^ 32 * 2 ^ (32 * xs.length) := by
      rw [← pow_add]
      congr 1
      ring
    rw [this]
    ring

theorem evalDigits_eq_valLsb_reverse (l : List Nat) :
    evalDigits (2 ^ 32) l = valLsb l.reverse := by
  induction l with
  | nil => rfl
  | cons x xs ih =>
    rw [evalDigits_cons, List.reverse_cons, valLsb_append, ih]
    show x * ((2 : Nat) ^ 32) ^ xs.length + valLsb xs.reverse =
      valLsb xs.reverse + 2 ^ (32 * xs.reverse.length) * valLsb [x]
    have h1 : valLsb [x] = x := by simp [valLsb]
    have h2 : ((2 : Nat) ^ 32) ^ xs.length = 2 ^ (32 * xs.reverse.length) := by
      rw [← pow_mul, List.length_reverse]
    rw [h1, h2]
    ring

theorem valLsb_reverse_eq (l : List Nat) :
    valLsb l = evalDigits (2 ^ 32) l.reverse := by
  rw [evalDigits_eq_valLsb_reverse, List.reverse_reverse]

theorem subCarryLsb_cons (a b : Nat) (as bs : List Nat) (c : Bool) :
    subCarryLsb (a :: as) (b :: bs) c =
      ((a + 2 ^ 32 - (b + (if c then 1 else 0)) % 2 ^ 32) % 2 ^ 32 ::
        (subCarryLsb as bs (decide (2 ^ 32 ≤ b + (if c then 1 else 0)) ||
          decide (a < (b + (if c then 1 else 0)) % 2 ^ 32))).1,
       (subCarryLsb as bs (decide (2 ^ 32 ≤ b + (if c then 1 else 0)) ||
          decide (a < (b + (if c then 1 else 0)) % 2 ^ 32))).2) := rfl

theorem subCarryLsb_spec : ∀ (as bs : List Nat) (c : Bool), as.length = bs.length →
    (∀ x ∈ as, x < 2 ^ 32) → (∀ x ∈ bs, x < 2 ^ 32) →
    (subCarryLsb as bs c).1.length = as.length ∧
    (∀ x ∈ (subCarryLsb as bs c).1, x < 2 ^ 32) ∧
    valLsb (subCarryLsb as bs c).1 + valLsb bs + (if c then 1 else 0) =
      valLsb as + (if (subCarryLsb as bs c).2 then 2 ^ (32 * as.length) else 0) := by
  intro as
  induction as with
  | nil =>
    intro bs c hlen _ _
    cases bs with
    | nil => cases c <;> simp [subCarryLsb, valLsb]
    | cons b bs => simp at hlen
  | cons a as ih =>
    intro bs c hlen ha hb
    cases bs with
    | nil => simp at hlen
    | cons b bs =>
      have ha' : a < 2 ^ 32 := ha a (List.mem_cons_self _ _)
      have hb' : b < 2 ^ 32 := hb b (List.mem_cons_self _ _)
      have hlen' : as.length = bs.length := by simpa using hlen
      rw [subCarryLsb_cons]
      generalize hc' : (decide (2 ^ 32 ≤ b + (if c then 1 else 0)) ||
          decide (a < (b + (if c then 1 else 0)) % 2 ^ 32)) = c'
      obtain ⟨ihl, ihb, ihv⟩ := ih bs c' hlen'
        (fun x hx => ha x (List.mem_cons_of_mem _ hx))
        (fun x hx => hb x (List.mem_cons_of_mem _ hx))
      refine ⟨by simpa using ihl, ?_, ?_⟩
      · intro x hx
        rcases List.mem_cons.mp hx with h | h
        · rw [h]
          exact Nat.mod_lt _ (by norm_num)
        · exact ihb x h
      · show (a + 2 ^ 32 - (b + (if c then 1 else 0)) % 2 ^ 32) % 2 ^ 32 +
            2 ^ 32 * valLsb (subCarryLsb as bs c').1 + (b + 2 ^ 32 * valLsb bs) +
            (if c then 1 else 0) =
          (a + 2 ^ 32 * valLsb as) +
            (if (subCarryLsb as bs c').2 then 2 ^ (32 * (as.length + 1)) else 0)
        have hpow : (2 : Nat) ^ (32 * (as.length + 1)) = 2 ^ 32 * 2 ^ (32 * as.length) := by
          rw [← pow_add]
          congr 1
          ring
        have he : (if c then 1 else 0) ≤ 1 := by rcases c <;> simp
        have hkey : (a + 2 ^ 32 - (b + (if c then 1 else 0)) % 2 ^ 32) % 2 ^ 32 + b +
            (if c then 1 else 0) = a + 2 ^ 32 * (if c' then 1 else 0) := by
          rcases c' with _ | _
          · have h0 := hc'
            rw [Bool.or_eq_false_iff, decide_eq_false_iff_not, decide_eq_false_iff_not] at h0
            obtain ⟨hn1, hn2⟩ := h0
            simp only [Bool.false_eq_true, if_false, Nat.mul_zero, Nat.add_zero]
            omega
          · have h0 := hc'
            rw [Bool.or_eq_true, decide_eq_true_eq, decide_eq_true_eq] at h0
            simp only [if_true, Nat.mul_one]
            rcases h0 with h | h <;> omega
        rcases hcout : (subCarryLsb as bs c').2 with _ | _ <;>
          rw [hcout] at ihv <;>
          simp only [if_true, if_false, Bool.false_eq_true, Bool.true_eq_false] at ihv ⊢ <;>
          omega

theorem addCarryLsb_cons (a b : Nat) (as bs : List Nat) (c : Bool) :
    addCarryLsb (a :: as) (b :: bs) c =
      ((a + (b + (if c then 1 else 0)) % 2 ^ 32) % 2 ^ 32 ::
        (addCarryLsb as bs (decide (2 ^ 32 ≤ b + (if c then 1 else 0)) ||
          decide (2 ^ 32 ≤ a + (b + (if c then 1 else 0)) % 2 ^ 32))).1,
       (addCarryLsb as bs (decide (2 ^ 32 ≤ b + (if c then 1 else 0)) ||
          decide (2 ^ 32 ≤ a + (b + (if c then 1 else 0)) % 2 ^ 32))).2) := rfl

theorem addCarryLsb_spec : ∀ (as bs : List Nat) (c : Bool), as.length = bs.length →
    (∀ x ∈ as, x < 2 ^ 32) → (∀ x ∈ bs, x < 2 ^ 32) →
    (addCarryLsb as bs c).1.length = as.length ∧
    (∀ x ∈ (addCarryLsb as bs c).1, x < 2 ^ 32) ∧
    valLsb (addCarryLsb as bs c).1 +
        (if (addCarryLsb as bs c).2 then 2 ^ (32 * as.length) else 0) =
      valLsb as + valLsb bs + (if c then 1 else 0) := by
  intro as
  induction as with
  | nil =>
    intro bs c hlen _ _
    cases bs with
    | nil => cases c <;> simp [addCarryLsb, valLsb]
    | cons b bs => simp at hlen
  | cons a as ih =>
    intro bs c hlen ha hb
    cases bs with
    | nil => simp at hlen
    | cons b bs =>
      have ha' : a < 2 ^ 32 := ha a (List.mem_cons_self _ _)
      have hb' : b < 2 ^ 32 := hb b (List.mem_cons_self _ _)
      have hlen' : as.length = bs.length := by simpa using hlen
      rw [addCarryLsb_cons]
      generalize hc' : (decide (2 ^ 32 ≤ b + (if c then 1 else 0)) ||
          decide (2 ^ 32 ≤ a + (b + (if c then 1 else 0)) % 2 ^ 32)) = c'
      obtain ⟨ihl, ihb, ihv⟩ := ih bs c' hlen'
        (fun x hx => ha x (List.mem_cons_of_mem _ hx))
        (fun x hx => hb x (List.mem_cons_of_mem _ hx))
      refine ⟨by simpa using ihl, ?_, ?_⟩
      · intro x hx
        rcases List.mem_cons.mp hx with h | h
        · rw [h]
          exact Nat.mod_lt _ (by norm_num)
        · exact ihb x h
      · show (a + (b + (if c then 1 else 0)) % 2 ^ 32) % 2 ^ 32 +
            2 ^ 32 * valLsb (addCarryLsb as bs c').1 +
            (if (addCarryLsb as bs c').2 then 2 ^ (32 * (as.length + 1)) else 0) =
          (a + 2 ^ 32 * valLsb as) + (b + 2 ^ 32 * valLsb bs) + (if c then 1 else 0)
        have hpow : (2 : Nat) ^ (32 * (as.length + 1)) = 2 ^ 32 * 2 ^ (32 * as.length) := by
          rw [← pow_add]
          congr 1
          ring
        have he : (if c then 1 else 0) ≤ 1 := by rcases c <;> simp
        have hkey : (a + (b + (if c then 1 else 0)) % 2 ^ 32) % 2 ^ 32 +
            2 ^ 32 * (if c' then 1 else 0) = a + b + (if c then 1 else 0) := by
          rcases c' with _ | _
          · have h0 := hc'
            rw [Bool.or_eq_false_iff, decide_eq_false_iff_not, decide_eq_false_iff_not] at h0
            obtain ⟨hn1, hn2⟩ := h0
            simp only [Bool.false_eq_true, if_false, Nat.mul_zero, Nat.add_zero]
            omega
          · have h0 := hc'
            rw [Bool.or_eq_true, decide_eq_true_eq, decide_eq_true_eq] at h0
            simp only [if_true, Nat.mul_one]
            rcases h0 with h | h <;> omega
        rcases hcout : (addCarryLsb as bs c').2 with _ | _ <;>
          rw [hcout] at ihv <;>
          simp only [if_true, if_false, Bool.false_eq_true, Bool.true_eq_false] at ihv ⊢ <;>
          omega

theorem valLsb_lt (l : List Nat) (h : ∀ x ∈ l, x < 2 ^ 32) :
    valLsb l < 2 ^ (32 * l.length) := by
  induction l with
  | nil => simp [valLsb]
  | cons x xs ih =>
    show x + 2 ^ 32 * valLsb xs < 2 ^ (32 * (xs.length + 1))
    have hx : x < 2 ^ 32 := h x (List.mem_cons_self _ _)
    have hxs := ih (fun y hy => h y (List.mem_cons_of_mem _ hy))
    have hpow : (2 : Nat) ^ (32 * (xs.length + 1)) = 2 ^ 32 * 2 ^ (32 * xs.length) := by
      rw [← pow_add]
      congr 1
      ring
    rw [hpow]
    calc x + 2 ^ 32 * valLsb xs < 2 ^ 32 + 2 ^ 32 * valLsb xs := by omega
      _ = 2 ^ 32 * (valLsb xs + 1) := by ring
      _ ≤ 2 ^ 32 * 2 ^ (32 * xs.length) := by
          exact Nat.mul_le_mul_left _ (by omega)

theorem sliceOverflowingSubAssign_spec (lhs rhs : List Nat) (hlen : lhs.length = rhs.length)
    (hl : ∀ x ∈ lhs, x < 2 ^ 32) (hr : ∀ x ∈ rhs, x < 2 ^ 32) :
    (sliceOverflowingSubAssign lhs rhs).1.length = lhs.length ∧
    (∀ x ∈ (sliceOverflowingSubAssign lhs rhs).1, x < 2 ^ 32) ∧
    evalDigits (2 ^ 32) (sliceOverflowingSubAssign lhs rhs).1 + evalDigits (2 ^ 32) rhs =
      evalDigits (2 ^ 32) lhs +
        (if (sliceOverflowingSubAssign lhs rhs).2 then 2 ^ (32 * lhs.length) else 0) := by
  obtain ⟨hl1, hl2, hl3⟩ := subCarryLsb_spec lhs.reverse rhs.reverse false
    (by simp [hlen])
    (fun x hx => hl x (List.mem_reverse.mp hx))
    (fun x hx => hr x (List.mem_reverse.mp hx))
  unfold sliceOverflowingSubAssign
  refine ⟨by simpa using hl1, ?_, ?_⟩
  · intro x hx
    exact hl2 x (List.mem_reverse.mp hx)
  · show evalDigits (2 ^ 32) (subCarryLsb lhs.reverse rhs.reverse false).1.reverse +
        evalDigits (2 ^ 32) rhs =
      evalDigits (2 ^ 32) lhs +
        (if (subCarryLsb lhs.reverse rhs.reverse false).2 then 2 ^ (32 * lhs.length) else 0)
    rw [← valLsb_reverse_eq, evalDigits_eq_valLsb_reverse lhs, evalDigits_eq_valLsb_reverse rhs]
    simpa [List.length_reverse] using hl3

theorem sliceOverflowingAddAssign_spec (lhs rhs : List Nat) (hlen : lhs.length = rhs.length)
    (hl : ∀ x ∈ lhs, x < 2 ^ 32) (hr : ∀ x ∈ rhs, x < 2 ^ 32) :
    (sliceOverflowingAddAssign lhs rhs).1.length = lhs.length ∧
    (∀ x ∈ (sliceOverflowingAddAssign lhs rhs).1, x < 2 ^ 32) ∧
    evalDigits (2 ^ 32) (sliceOverflowingAddAssign lhs rhs).1 +
        (if (sliceOverflowingAddAssign lhs rhs).2 then 2 ^ (32 * lhs.length) else 0) =
      evalDigits (2 ^ 32) lhs + evalDigits (2 ^ 32) rhs := by
  obtain ⟨hl1, hl2, hl3⟩ := addCarryLsb_spec lhs.reverse rhs.reverse false
    (by simp [hlen])
    (fun x hx => hl x (List.mem_reverse.mp hx))
    (fun x hx => hr x (List.mem_reverse.mp hx))
  unfold sliceOverflowingAddAssign
  refine ⟨by simpa using hl1, ?_, ?_⟩
  · intro x hx
    exact hl2 x (List.mem_reverse.mp hx)
  · show evalDigits (2 ^ 32) (addCarryLsb lhs.reverse rhs.reverse false).1.reverse +
        (if (addCarryLsb lhs.reverse rhs.reverse false).2 then 2 ^ (32 * lhs.length) else 0) =
      evalDigits (2 ^ 32) lhs + evalDigits (2 ^ 32) rhs
    rw [← valLsb_reverse_eq, evalDigits_eq_valLsb_reverse lhs, evalDigits_eq_valLsb_reverse rhs]
    have := hl3
    rw [List.length_reverse] at this
    simpa using this

theorem shiftLeftAux_cons (s prev x : Nat) (xs : List Nat) :
    shiftLeftAux s prev (x :: xs) =
      (prev * 2 ^ s % 2 ^ 32 + x / 2 ^ (32 - s)) :: shiftLeftAux s x xs := rfl

theorem shiftLeftAux_spec (s : Nat) (hs32 : s < 32) :
    ∀ (l : List Nat) (prev : Nat), (∀ x ∈ l, x < 2 ^ 32) → prev < 2 ^ 32 →
      (shiftLeftAux s prev l).length = l.length + 1 ∧
      (∀ x ∈ shiftLeftAux s prev l, x < 2 ^ 32) ∧
      evalDigits (2 ^ 32) (shiftLeftAux s prev l) =
        prev % 2 ^ (32 - s) * 2 ^ s * (2 ^ 32) ^ l.length +
          evalDigits (2 ^ 32) l * 2 ^ s := by
  have hT : (2 : Nat) ^ 32 = 2 ^ (32 - s) * 2 ^ s := by
    rw [← pow_add]
    congr 1
    omega
  have hspos : (0 : Nat) < 2 ^ s := Nat.pos_pow_of_pos _ (by omega)
  have hupos : (0 : Nat) < 2 ^ (32 - s) := Nat.pos_pow_of_pos _ (by omega)
  have hmodmul : ∀ p : Nat, p * 2 ^ s % 2 ^ 32 = p % 2 ^ (32 - s) * 2 ^ s := by
    intro p
    rw [hT, Nat.mul_mod_mul_right]
  have hdigit : ∀ p x : Nat, p < 2 ^ 32 → x < 2 ^ 32 →
      p * 2 ^ s % 2 ^ 32 + x / 2 ^ (32 - s) < 2 ^ 32 := by
    intro p x _ hx
    rw [hmodmul]
    have h1 : p % 2 ^ (32 - s) * 2 ^ s ≤ (2 ^ (32 - s) - 1) * 2 ^ s :=
      Nat.mul_le_mul_right _ (by have := Nat.mod_lt p hupos; omega)
    have h2 : x / 2 ^ (32 - s) < 2 ^ s := by
      rw [Nat.div_lt_iff_lt_mul hupos]
      calc x < 2 ^ 32 := hx
        _ = 2 ^ (32 - s) * 2 ^ s := hT
        _ = 2 ^ s * 2 ^ (32 - s) := by ring
    have h3 : (2 ^ (32 - s) - 1) * 2 ^ s + 2 ^ s = 2 ^ (32 - s) * 2 ^ s := by
      have : (2 ^ (32 - s) - 1) + 1 = 2 ^ (32 - s) := by omega
      calc (2 ^ (32 - s) - 1) * 2 ^ s + 2 ^ s = ((2 ^ (32 - s) - 1) + 1) * 2 ^ s := by ring
        _ = 2 ^ (32 - s) * 2 ^ s := by rw [this]
    rw [hT]
    omega
  intro l
  induction l with
  | nil =>
    intro prev hl hprev
    refine ⟨rfl, ?_, ?_⟩
    · intro x hx
      rcases List.mem_singleton.mp hx with h
      rw [h]
      exact Nat.mod_lt _ (by norm_num)
    · show evalDigits (2 ^ 32) [prev * 2 ^ s % 2 ^ 32] = prev % 2 ^ (32 - s) * 2 ^ s * 1 + 0 * 2 ^ s
      have : evalDigits (2 ^ 32) [prev * 2 ^ s % 2 ^ 32] = prev * 2 ^ s % 2 ^ 32 := by
        show 0 * 2 ^ 32 + prev * 2 ^ s % 2 ^ 32 = _
        ring
      rw [this, hmodmul]
      ring
  | cons x xs ih =>
    intro prev hl hprev
    have hx : x < 2 ^ 32 := hl x (List.mem_cons_self _ _)
    obtain ⟨ihl, ihb, ihv⟩ := ih x (fun y hy => hl y (List.mem_cons_of_mem _ hy)) hx
    rw [shiftLeftAux_cons]
    refine ⟨by simp [ihl], ?_, ?_⟩
    · intro y hy
      rcases List.mem_cons.mp hy with h | h
      · rw [h]
        exact hdigit prev x hprev hx
      · exact ihb y h
    · rw [evalDigits_cons, ihl, ihv, hmodmul]
      conv_rhs => rw [evalDigits_cons]
      have hpow1 : ((2 : Nat) ^ 32) ^ (xs.length + 1) =
          2 ^ (32 - s) * 2 ^ s * ((2 : Nat) ^ 32) ^ xs.length := by
        rw [pow_succ, ← hT]
        ring
      rw [List.length_cons, hpow1]
      have hxW : x * ((2 : Nat) ^ 32) ^ xs.length =
          (2 ^ (32 - s) * (x / 2 ^ (32 - s)) + x % 2 ^ (32 - s)) *
            ((2 : Nat) ^ 32) ^ xs.length := by
        rw [Nat.div_add_mod x (2 ^ (32 - s))]
      conv_rhs => rw [hxW]
      ring

theorem shiftLeftLimbs_spec (l : List Nat) (s : Nat) (hs32 : s < 32)
    (hl : ∀ x ∈ l, x < 2 ^ 32) :
    (shiftLeftLimbs l s).length = l.length + 1 ∧
    (∀ x ∈ shiftLeftLimbs l s, x < 2 ^ 32) ∧
    evalDigits (2 ^ 32) (shiftLeftLimbs l s) = evalDigits (2 ^ 32) l * 2 ^ s := by
  unfold shiftLeftLimbs
  by_cases hs : s = 0
  · rw [if_pos hs, hs]
    refine ⟨rfl, ?_, ?_⟩
    · intro x hx
      rcases List.mem_cons.mp hx with h | h
      · rw [h]; norm_num
      · exact hl x h
    · rw [evalDigits_cons]
      ring
  · rw [if_neg hs]
    obtain ⟨h1, h2, h3⟩ := shiftLeftAux_spec s hs32 l 0 hl (by norm_num)
    refine ⟨h1, h2, ?_⟩
    rw [h3]
    simp

theorem shiftRightAux_cons (s carry v : Nat) (vs : List Nat) :
    shiftRightAux s carry (v :: vs) =
      (v / 2 ^ s + carry) :: shiftRightAux s (v % 2 ^ s * 2 ^ (32 - s)) vs := rfl

theorem shiftRightAux_spec (s : Nat) (hs0 : 0 < s) (hs32 : s < 32) :
    ∀ (vs : List Nat) (v carry : Nat), (∀ x ∈ v :: vs, x < 2 ^ 32) →
      carry ≤ 2 ^ 32 - 2 ^ (32 - s) →
      (shiftRightAux s carry (v :: vs)).length = vs.length + 1 ∧
      (∀ x ∈ shiftRightAux s carry (v :: vs), x < 2 ^ 32) ∧
      evalDigits (2 ^ 32) (shiftRightAux s carry (v :: vs)) =
        carry * (2 ^ 32) ^ vs.length + evalDigits (2 ^ 32) (v :: vs) / 2 ^ s := by
  have hT : (2 : Nat) ^ 32 = 2 ^ (32 - s) * 2 ^ s := by
    rw [← pow_add]
    congr 1
    omega
  have hspos : (0 : Nat) < 2 ^ s := Nat.pos_pow_of_pos _ (by omega)
  have hupos : (0 : Nat) < 2 ^ (32 - s) := Nat.pos_pow_of_pos _ (by omega)
  have hdiglt : ∀ v carry : Nat, v < 2 ^ 32 → carry ≤ 2 ^ 32 - 2 ^ (32 - s) →
      v / 2 ^ s + carry < 2 ^ 32 := by
    intro v carry hv hc
    have hdl : v / 2 ^ s < 2 ^ (32 - s) := by
      rw [Nat.div_lt_iff_lt_mul hspos]
      calc v < 2 ^ 32 := hv
        _ = 2 ^ (32 - s) * 2 ^ s := hT
    have hge : (1 : Nat) ≤ 2 ^ (32 - s) := Nat.one_le_two_pow
    have hle : (2 : Nat) ^ (32 - s) ≤ 2 ^ 32 := Nat.pow_le_pow_right (by norm_num) (by omega)
    omega
  have hcarry' : ∀ v : Nat, v % 2 ^ s * 2 ^ (32 - s) ≤ 2 ^ 32 - 2 ^ (32 - s) := by
    intro v
    have h1 := Nat.mod_lt v hspos
    have h2 : (v % 2 ^ s + 1) * 2 ^ (32 - s) ≤ 2 ^ s * 2 ^ (32 - s) :=
      Nat.mul_le_mul_right _ (by omega)
    have h3 : 2 ^ s * 2 ^ (32 - s) = 2 ^ 32 := by rw [hT]; ring
    have h4 : v % 2 ^ s * 2 ^ (32 - s) + 2 ^ (32 - s) ≤ 2 ^ 32 := by
      calc v % 2 ^ s * 2 ^ (32 - s) + 2 ^ (32 - s)
          = (v % 2 ^ s + 1) * 2 ^ (32 - s) := by ring
        _ ≤ 2 ^ s * 2 ^ (32 - s) := h2
        _ = 2 ^ 32 := h3
    omega
  intro vs
  induction vs with
  | nil =>
    intro v carry hv hc
    refine ⟨rfl, ?_, ?_⟩
    · intro x hx
      rcases List.mem_singleton.mp hx with h
      rw [h]
      exact hdiglt v carry (hv v (List.mem_cons_self _ _)) hc
    · show evalDigits (2 ^ 32) [v / 2 ^ s + carry] = carry * 1 + evalDigits (2 ^ 32) [v] / 2 ^ s
      have h1 : evalDigits (2 ^ 32) [v / 2 ^ s + carry] = v / 2 ^ s + carry := by
        show 0 * 2 ^ 32 + (v / 2 ^ s + carry) = _
        ring
      have h2 : evalDigits (2 ^ 32) [v] = v := by
        show 0 * 2 ^ 32 + v = _
        ring
      rw [h1, h2]
      ring
  | cons w ws ih =>
    intro v carry hv hc
    have hvlt : v < 2 ^ 32 := hv v (List.mem_cons_self _ _)
    obtain ⟨ihl, ihb, ihv⟩ := ih w (v % 2 ^ s * 2 ^ (32 - s))
      (fun y hy => hv y (List.mem_cons_of_mem _ hy)) (hcarry' v)
    rw [shiftRightAux_cons]
    refine ⟨by simp [ihl], ?_, ?_⟩
    · intro y hy
      rcases List.mem_cons.mp hy with h | h
      · rw [h]
        exact hdiglt v carry hvlt hc
      · exact ihb y h
    · rw [evalDigits_cons, ihl, ihv]
      conv_rhs => rw [evalDigits_cons]
      rw [List.length_cons, pow_succ]
      generalize hW : ((2 : Nat) ^ 32) ^ ws.length = W
      generalize hE : evalDigits (2 ^ 32) (w :: ws) = E
      have hsplit : v = 2 ^ s * (v / 2 ^ s) + v % 2 ^ s := (Nat.div_add_mod v (2 ^ s)).symm
      have hnum : v * (W * 2 ^ 32) + E =
          2 ^ s * (v / 2 ^ s * (W * 2 ^ 32) + v % 2 ^ s * 2 ^ (32 - s) * W) + E := by
        conv_lhs => rw [hsplit]
        rw [hT]
        ring
      rw [hnum, Nat.mul_add_div hspos]
      ring

theorem shiftRightLimbs_spec (l : List Nat) (s : Nat) (hs32 : s < 32)
    (hl : ∀ x ∈ l, x < 2 ^ 32) :
    (shiftRightLimbs l s).length = l.length ∧
    (∀ x ∈ shiftRightLimbs l s, x < 2 ^ 32) ∧
    evalDigits (2 ^ 32) (shiftRightLimbs l s) = evalDigits (2 ^ 32) l / 2 ^ s := by
  unfold shiftRightLimbs
  by_cases hs : s = 0
  · rw [if_pos hs, hs]
    exact ⟨rfl, hl, by rw [pow_zero, Nat.div_one]⟩
  · rw [if_neg hs]
    cases l with
    | nil =>
      refine ⟨rfl, by simp [shiftRightAux], ?_⟩
      show (0 : Nat) = 0 / 2 ^ s
      rw [Nat.zero_div]
    | cons v vs =>
      obtain ⟨h1, h2, h3⟩ := shiftRightAux_spec s (by omega) hs32 vs v 0 hl (by omega)
      refine ⟨by simp [h1], h2, ?_⟩
      rw [h3]
      simp

theorem mulU32Lsb_cons (x k carry : Nat) (xs : List Nat) :
    mulU32Lsb (x :: xs) k carry =
      ((x * k + carry) % 2 ^ 32 :: (mulU32Lsb xs k ((x * k + carry) / 2 ^ 32)).1,
       (mulU32Lsb xs k ((x * k + carry) / 2 ^ 32)).2) := rfl

theorem mulU32Lsb_spec : ∀ (xs : List Nat) (k carry : Nat),
    (mulU32Lsb xs k carry).1.length = xs.length ∧
    (∀ x ∈ (mulU32Lsb xs k carry).1, x < 2 ^ 32) ∧
    valLsb (mulU32Lsb xs k carry).1 + (mulU32Lsb xs k carry).2 * 2 ^ (32 * xs.length) =
      valLsb xs * k + carry := by
  intro xs
  induction xs with
  | nil =>
    intro k carry
    refine ⟨rfl, by simp [mulU32Lsb], ?_⟩
    show (0 : Nat) + carry * 2 ^ (32 * 0) = 0 * k + carry
    simp
  | cons x xs ih =>
    intro k carry
    obtain ⟨ihl, ihb, ihv⟩ := ih k ((x * k + carry) / 2 ^ 32)
    rw [mulU32Lsb_cons]
    refine ⟨by simp only [List.length_cons, ihl], ?_, ?_⟩
    · intro y hy
      rcases List.mem_cons.mp hy with h | h
      · rw [h]
        exact Nat.mod_lt _ (by norm_num)
      · exact ihb y h
    · show (x * k + carry) % 2 ^ 32 + 2 ^ 32 * valLsb (mulU32Lsb xs k ((x * k + carry) / 2 ^ 32)).1 +
          (mulU32Lsb xs k ((x * k + carry) / 2 ^ 32)).2 * 2 ^ (32 * (xs.length + 1)) =
        (x + 2 ^ 32 * valLsb xs) * k + carry
      have hpow : (2 : Nat) ^ (32 * (xs.length + 1)) = 2 ^ 32 * 2 ^ (32 * xs.length) := by
        rw [← pow_add]
        congr 1
        ring
      calc (x * k + carry) % 2 ^ 32 +
            2 ^ 32 * valLsb (mulU32Lsb xs k ((x * k + carry) / 2 ^ 32)).1 +
            (mulU32Lsb xs k ((x * k + carry) / 2 ^ 32)).2 * 2 ^ (32 * (xs.length + 1))
          = (x * k + carry) % 2 ^ 32 +
              2 ^ 32 * (valLsb (mulU32Lsb xs k ((x * k + carry) / 2 ^ 32)).1 +
                (mulU32Lsb xs k ((x * k + carry) / 2 ^ 32)).2 * 2 ^ (32 * xs.length)) := by
            rw [hpow]
            ring
        _ = (x * k + carry) % 2 ^ 32 + 2 ^ 32 * (valLsb xs * k + (x * k + carry) / 2 ^ 32) := by
            rw [ihv]
        _ = ((x * k + carry) % 2 ^ 32 + 2 ^ 32 * ((x * k + carry) / 2 ^ 32)) +
              2 ^ 32 * (valLsb xs * k) := by ring
        _ = (x * k + carry) + 2 ^ 32 * (valLsb xs * k) := by
            rw [Nat.mod_add_div]
        _ = (x + 2 ^ 32 * valLsb xs) * k + carry := by ring

theorem mulLimbsU32_spec (l : List Nat) (k : Nat) (hl : ∀ x ∈ l, x < 2 ^ 32)
    (hfit : evalDigits (2 ^ 32) l * k < 2 ^ (32 * l.length)) :
    ∃ r, mulLimbsU32 l k = some r ∧ r.length = l.length ∧ (∀ x ∈ r, x < 2 ^ 32) ∧
      evalDigits (2 ^ 32) r = evalDigits (2 ^ 32) l * k := by
  obtain ⟨hlen, hb, hv⟩ := mulU32Lsb_spec l.reverse k 0
  rw [List.length_reverse] at hlen hv
  have hval : valLsb l.reverse = evalDigits (2 ^ 32) l := (evalDigits_eq_valLsb_reverse l).symm
  rw [hval] at hv
  have hresbound : valLsb (mulU32Lsb l.reverse k 0).1 < 2 ^ (32 * l.length) := by
    have := valLsb_lt (mulU32Lsb l.reverse k 0).1 hb
    rw [hlen] at this
    exact this
  have hcarry0 : (mulU32Lsb l.reverse k 0).2 = 0 := by
    by_contra hne
    have h1 : 1 ≤ (mulU32Lsb l.reverse k 0).2 := by omega
    have h2 : 2 ^ (32 * l.length) ≤ (mulU32Lsb l.reverse k 0).2 * 2 ^ (32 * l.length) :=
      le_mul_of_one_le_left (by positivity) h1
    omega
  refine ⟨(mulU32Lsb l.reverse k 0).1.reverse, ?_, by simp [hlen], ?_, ?_⟩
  · unfold mulLimbsU32
    rw [if_pos hcarry0]
  · intro x hx
    exact hb x (List.mem_reverse.mp hx)
  · rw [evalDigits_eq_valLsb_reverse, List.reverse_reverse]
    rw [hcarry0] at hv
    omega

theorem divRemU32_cons (d x carry : Nat) (xs : List Nat) :
    divRemU32 d (x :: xs) carry =
      ((carry * 2 ^ 32 + x) / d :: (divRemU32 d xs ((carry * 2 ^ 32 + x) % d)).1,
       (divRemU32 d xs ((carry * 2 ^ 32 + x) % d)).2) := rfl

theorem divRemU32_spec (d : Nat) (hd : 0 < d) : ∀ (xs : List Nat) (carry : Nat),
    carry < d → (∀ x ∈ xs, x < 2 ^ 32) → d ≤ 2 ^ 64 →
    (divRemU32 d xs carry).1.length = xs.length ∧
    ((∀ x ∈ xs, x < 2 ^ 32) → d ≤ 2 ^ 32 →
      (∀ x ∈ (divRemU32 d xs carry).1, x < 2 ^ 32)) ∧
    evalDigits (2 ^ 32) (divRemU32 d xs carry).1 * d + (divRemU32 d xs carry).2 =
      carry * 2 ^ (32 * xs.length) + evalDigits (2 ^ 32) xs ∧
    (divRemU32 d xs carry).2 < d := by
  intro xs
  induction xs with
  | nil =>
    intro carry hc _ _
    refine ⟨rfl, by simp [divRemU32], ?_, hc⟩
    show (0 : Nat) * d + carry = carry * 2 ^ (32 * 0) + 0
    simp
  | cons x xs ih =>
    intro carry hc hx hd64
    have hx' : x < 2 ^ 32 := hx x (List.mem_cons_self _ _)
    have hxs : ∀ y ∈ xs, y < 2 ^ 32 := fun y hy => hx y (List.mem_cons_of_mem _ hy)
    obtain ⟨ihl, ihb, ihv, ihrem⟩ := ih ((carry * 2 ^ 32 + x) % d)
      (Nat.mod_lt _ hd) hxs hd64
    rw [divRemU32_cons]
    refine ⟨by simp only [List.length_cons, ihl], ?_, ?_, ihrem⟩
    · intro _ hdle y hy
      rcases List.mem_cons.mp hy with h | h
      · rw [h]
        have hdiv : (carry * 2 ^ 32 + x) / d < 2 ^ 32 := by
          rw [Nat.div_lt_iff_lt_mul hd]
          calc carry * 2 ^ 32 + x < carry * 2 ^ 32 + 2 ^ 32 := by omega
            _ = (carry + 1) * 2 ^ 32 := by ring
            _ ≤ d * 2 ^ 32 := Nat.mul_le_mul_right _ (by omega)
            _ ≤ 2 ^ 32 * d := by ring_nf; rfl
        exact hdiv
      · exact ihb hxs hdle y h
    · rw [evalDigits_cons, ihl]
      conv_rhs => rw [evalDigits_cons]
      rw [List.length_cons, ← pow_mul]
      dsimp only []
      have hdm : (carry * 2 ^ 32 + x) / d * d + (carry * 2 ^ 32 + x) % d =
          carry * 2 ^ 32 + x := Nat.div_add_mod' _ d
      calc ((carry * 2 ^ 32 + x) / d * 2 ^ (32 * xs.length) +
              evalDigits (2 ^ 32) (divRemU32 d xs ((carry * 2 ^ 32 + x) % d)).1) * d +
            (divRemU32 d xs ((carry * 2 ^ 32 + x) % d)).2
          = (carry * 2 ^ 32 + x) / d * d * 2 ^ (32 * xs.length) +
              (evalDigits (2 ^ 32) (divRemU32 d xs ((carry * 2 ^ 32 + x) % d)).1 * d +
                (divRemU32 d xs ((carry * 2 ^ 32 + x) % d)).2) := by ring
        _ = (carry * 2 ^ 32 + x) / d * d * 2 ^ (32 * xs.length) +
              ((carry * 2 ^ 32 + x) % d * 2 ^ (32 * xs.length) + evalDigits (2 ^ 32) xs) := by
            rw [ihv]
        _ = ((carry * 2 ^ 32 + x) / d * d + (carry * 2 ^ 32 + x) % d) * 2 ^ (32 * xs.length) +
              evalDigits (2 ^ 32) xs := by ring
        _ = (carry * 2 ^ 32 + x) * 2 ^ (32 * xs.length) + evalDigits (2 ^ 32) xs := by
            rw [hdm]
        _ = carry * 2 ^ (32 * (xs.length + 1)) + (x * 2 ^ (32 * xs.length) +
              evalDigits (2 ^ 32) xs) := by
            have hpow : (2 : Nat) ^ (32 * (xs.length + 1)) = 2 ^ 32 * 2 ^ (32 * xs.length) := by
              rw [← pow_add]
              congr 1
              ring
            rw [hpow]
            ring

theorem cmpLimbs_spec : ∀ (a b : List Nat), a.length = b.length →
    (∀ x ∈ a, x < 2 ^ 32) → (∀ x ∈ b, x < 2 ^ 32) →
    (cmpLimbs a b = .lt ↔ evalDigits (2 ^ 32) a < evalDigits (2 ^ 32) b) ∧
    (cmpLimbs a b = .eq ↔ evalDigits (2 ^ 32) a = evalDigits (2 ^ 32) b) ∧
    (cmpLimbs a b = .gt ↔ evalDigits (2 ^ 32) b < evalDigits (2 ^ 32) a) := by
  intro a
  induction a with
  | nil =>
    intro b hlen _ _
    cases b with
    | nil => simp [cmpLimbs, evalDigits]
    | cons y ys => simp at hlen
  | cons x xs ih =>
    intro b hlen ha hb
    cases b with
    | nil => simp at hlen
    | cons y ys =>
      have hlen' : xs.length = ys.length := by simpa using hlen
      have hx : x < 2 ^ 32 := ha x (List.mem_cons_self _ _)
      have hy : y < 2 ^ 32 := hb y (List.mem_cons_self _ _)
      have hexs : evalDigits (2 ^ 32) xs < (2 ^ 32) ^ xs.length :=
        evalDigits_lt _ (by norm_num) _ (fun z hz => ha z (List.mem_cons_of_mem _ hz))
      have heys : evalDigits (2 ^ 32) ys < (2 ^ 32) ^ xs.length := by
        rw [hlen']
        exact evalDigits_lt _ (by norm_num) _ (fun z hz => hb z (List.mem_cons_of_mem _ hz))
      rw [evalDigits_cons, evalDigits_cons, ← hlen']
      show (cmpLimbs (x :: xs) (y :: ys) = .lt ↔ _) ∧ (cmpLimbs (x :: xs) (y :: ys) = .eq ↔ _) ∧
        (cmpLimbs (x :: xs) (y :: ys) = .gt ↔ _)
      have hstep : cmpLimbs (x :: xs) (y :: ys) =
          if x < y then .lt else if y < x then .gt else cmpLimbs xs ys := rfl
      by_cases hxy : x < y
      · have hmul : x * (2 ^ 32) ^ xs.length + (2 ^ 32) ^ xs.length ≤
            y * (2 ^ 32) ^ xs.length := by
          calc x * (2 ^ 32) ^ xs.length + (2 ^ 32) ^ xs.length
              = (x + 1) * (2 ^ 32) ^ xs.length := by ring
            _ ≤ y * (2 ^ 32) ^ xs.length := Nat.mul_le_mul_right _ (by omega)
        have hord : x * (2 ^ 32) ^ xs.length + evalDigits (2 ^ 32) xs <
            y * (2 ^ 32) ^ xs.length + evalDigits (2 ^ 32) ys := by omega
        rw [hstep, if_pos hxy]
        refine ⟨⟨fun _ => hord, fun _ => rfl⟩, ?_, ?_⟩
        · exact ⟨fun h => absurd h (by decide), fun h => absurd h (by omega)⟩
        · exact ⟨fun h => absurd h (by decide), fun h => absurd h (by omega)⟩
      · by_cases hyx : y < x
        · have hmul : y * (2 ^ 32) ^ xs.length + (2 ^ 32) ^ xs.length ≤
              x * (2 ^ 32) ^ xs.length := by
            calc y * (2 ^ 32) ^ xs.length + (2 ^ 32) ^ xs.length
                = (y + 1) * (2 ^ 32) ^ xs.length := by ring
              _ ≤ x * (2 ^ 32) ^ xs.length := Nat.mul_le_mul_right _ (by omega)
          have hord : y * (2 ^ 32) ^ xs.length + evalDigits (2 ^ 32) ys <
              x * (2 ^ 32) ^ xs.length + evalDigits (2 ^ 32) xs := by omega
          rw [hstep, if_neg hxy, if_pos hyx]
          refine ⟨?_, ?_, ⟨fun _ => hord, fun _ => rfl⟩⟩
          · exact ⟨fun h => absurd h (by decide), fun h => absurd h (by omega)⟩
          · exact ⟨fun h => absurd h (by decide), fun h => absurd h (by omega)⟩
        · have hxyeq : x = y := by omega
          subst hxyeq
          rw [hstep, if_neg hxy, if_neg hyx]
          obtain ⟨ih1, ih2, ih3⟩ := ih ys hlen'
            (fun z hz => ha z (List.mem_cons_of_mem _ hz))
            (fun z hz => hb z (List.mem_cons_of_mem _ hz))
          refine ⟨?_, ?_, ?_⟩
          · rw [ih1]; omega
          · rw [ih2]; omega
          · rw [ih3]; omega

theorem evalDigits_zero_of_all_zero (B : Nat) :
    ∀ l : List Nat, (∀ x ∈ l, x = 0) → evalDigits B l = 0 := by
  intro l
  induction l with
  | nil => intro _; rfl
  | cons x xs ih =>
    intro h
    rw [evalDigits_cons, h x (List.mem_cons_self _ _), ih (fun y hy => h y (List.mem_cons_of_mem _ hy))]
    ring

theorem evalDigits_pos_of_mem_ne_zero (B : Nat) (hB : 1 ≤ B) :
    ∀ l : List Nat, (∃ y ∈ l, y ≠ 0) → 1 ≤ evalDigits B l := by
  intro l
  induction l with
  | nil => rintro ⟨y, hy, _⟩; simp at hy
  | cons x xs ih =>
    rintro ⟨y, hy, hyne⟩
    rw [evalDigits_cons]
    rcases List.mem_cons.mp hy with h | h
    · subst h
      have : 1 ≤ B ^ xs.length := Nat.one_le_pow _ _ (by omega)
      have : 1 * 1 ≤ y * B ^ xs.length := Nat.mul_le_mul (by omega) this
      omega
    · have := ih ⟨y, h, hyne⟩
      omega

theorem tryIntoU32_some (l : List Nat) (hl : ∀ x ∈ l, x < 2 ^ 32) (d : Nat)
    (h : tryIntoU32 l = some d) : evalDigits (2 ^ 32) l = d ∧ d < 2 ^ 32 := by
  unfold tryIntoU32 at h
  cases hgl : l.getLast? with
  | none => rw [hgl] at h; simp at h
  | some x =>
    rw [hgl] at h
    replace h : (if l.dropLast.all (fun y => decide (y = 0)) then some x else none) =
        some d := h
    by_cases hall : l.dropLast.all (fun y => decide (y = 0))
    · rw [if_pos hall] at h
      have hxd : x = d := by simpa using h
      have hne : l ≠ [] := by
        intro hnil
        rw [hnil] at hgl
        simp at hgl
      have hdecomp : l.dropLast ++ [l.getLast hne] = l := List.dropLast_append_getLast hne
      have hxlast : x = l.getLast hne := by
        rw [List.getLast?_eq_getLast_of_ne_nil hne] at hgl
        simpa using hgl.symm
      have hzero : evalDigits (2 ^ 32) l.dropLast = 0 := by
        apply evalDigits_zero_of_all_zero
        intro y hy
        rw [List.all_eq_true] at hall
        simpa using hall y hy
      constructor
      · conv_lhs => rw [← hdecomp]
        rw [evalDigits_append, hzero]
        show 0 * (2 ^ 32) ^ _ + evalDigits (2 ^ 32) [l.getLast hne] = d
        have : evalDigits (2 ^ 32) [l.getLast hne] = l.getLast hne := by
          show 0 * 2 ^ 32 + l.getLast hne = _
          ring
        rw [this, ← hxlast, hxd]
        ring
      · rw [← hxd, hxlast]
        exact hl _ (List.getLast_mem hne)
    · rw [if_neg hall] at h
      simp at h

theorem tryIntoU32_none (l : List Nat) (hne : l ≠ [])
    (h : tryIntoU32 l = none) : 2 ^ 32 ≤ evalDigits (2 ^ 32) l := by
  unfold tryIntoU32 at h
  cases hgl : l.getLast? with
  | none =>
    rw [List.getLast?_eq_getLast_of_ne_nil hne] at hgl
    simp at hgl
  | some x =>
    rw [hgl] at h
    replace h : (if l.dropLast.all (fun y => decide (y = 0)) then some x else none) =
        none := h
    by_cases hall : l.dropLast.all (fun y => decide (y = 0))
    · rw [if_pos hall] at h
      simp at h
    · rw [if_neg hall] at h
      have : ∃ y ∈ l.dropLast, y ≠ 0 := by
        by_contra hcon
        push_neg at hcon
        apply hall
        rw [List.all_eq_true]
        intro y hy
        simpa using hcon y hy
      have h1 : 1 ≤ evalDigits (2 ^ 32) l.dropLast :=
        evalDigits_pos_of_mem_ne_zero _ (by norm_num) _ this
      have hdecomp : l.dropLast ++ [l.getLast hne] = l := List.dropLast_append_getLast hne
      conv_rhs => rw [← hdecomp]
      rw [evalDigits_append]
      have hlen : ([l.getLast hne] : List Nat).length = 1 := rfl
      rw [hlen, pow_one]
      calc (2 : Nat) ^ 32 = 1 * 2 ^ 32 := by ring
        _ ≤ evalDigits (2 ^ 32) l.dropLast * 2 ^ 32 := Nat.mul_le_mul_right _ h1
        _ ≤ evalDigits (2 ^ 32) l.dropLast * 2 ^ 32 +
              evalDigits (2 ^ 32) [l.getLast hne] := by omega

theorem evalDigits_take_drop (B : Nat) (l : List Nat) (k : Nat) :
    evalDigits B l = evalDigits B (l.take k) * B ^ (l.drop k).length +
      evalDigits B (l.drop k) := by
  conv_lhs => rw [← List.take_append_drop k l]
  rw [evalDigits_append]

theorem getFromRight_val (l : List Nat) (hl : ∀ x ∈ l, x < 2 ^ 32) (i : Nat)
    (hi : i < l.length) :
    getFromRight l i = evalDigits (2 ^ 32) l / (2 ^ 32) ^ i % 2 ^ 32 := by
  set k := l.length - 1 - i with hk
  have hkl : k < l.length := by omega
  have hget : getFromRight l i = l[k] := by
    unfold getFromRight
    rw [List.getD_eq_getElem?_getD, List.getElem?_eq_getElem hkl]
    rfl
  have hdrop : l.drop k = l[k] :: l.drop (k + 1) := List.drop_eq_getElem_cons hkl
  have hlen1 : (l.drop k).length = i + 1 := by
    rw [List.length_drop]
    omega
  have hlen2 : (l.drop (k + 1)).length = i := by
    rw [List.length_drop]
    omega
  have hsplit : evalDigits (2 ^ 32) l =
      (evalDigits (2 ^ 32) (l.take k) * 2 ^ 32 + l[k]) * (2 ^ 32) ^ i +
        evalDigits (2 ^ 32) (l.drop (k + 1)) := by
    rw [evalDigits_take_drop (2 ^ 32) l k, hdrop, evalDigits_cons, List.length_cons,
      hlen2, pow_succ]
    ring
  have hrest : evalDigits (2 ^ 32) (l.drop (k + 1)) < (2 ^ 32) ^ i := by
    rw [← hlen2]
    exact evalDigits_lt _ (by norm_num) _
      (fun y hy => hl y (List.mem_of_mem_drop hy))
  have hdig : l[k] < 2 ^ 32 := hl _ (List.getElem_mem _)
  rw [hget, hsplit]
  have hpos : (0 : Nat) < (2 ^ 32) ^ i := by positivity
  rw [Nat.add_comm, Nat.add_mul_div_right _ _ hpos, Nat.div_eq_of_lt hrest]
  omega

theorem setFromRight_spec (l : List Nat) (hl : ∀ x ∈ l, x < 2 ^ 32) (j : Nat)
    (hj : j < l.length) (v : Nat) (hv : v < 2 ^ 32)
    (hzero : getFromRight l j = 0) :
    (setFromRight l j v).length = l.length ∧
    (∀ x ∈ setFromRight l j v, x < 2 ^ 32) ∧
    evalDigits (2 ^ 32) (setFromRight l j v) =
      evalDigits (2 ^ 32) l + v * (2 ^ 32) ^ j := by
  set k := l.length - 1 - j with hk
  have hkl : k < l.length := by omega
  have hset : setFromRight l j v = l.take k ++ v :: l.drop (k + 1) := by
    unfold setFromRight
    rw [← hk]
    exact List.set_eq_take_cons_drop v hkl
  have hgetk : l[k] = 0 := by
    have := hzero
    unfold getFromRight at this
    rw [List.getD_eq_getElem?_getD, List.getElem?_eq_getElem hkl] at this
    simpa using this
  have hdrop : l.drop k = l[k] :: l.drop (k + 1) := List.drop_eq_getElem_cons hkl
  have hlen1 : (l.drop k).length = j + 1 := by
    rw [List.length_drop]
    omega
  have hlen2 : (l.drop (k + 1)).length = j := by
    rw [List.length_drop]
    omega
  refine ⟨?_, ?_, ?_⟩
  · rw [hset, List.length_append, List.length_cons, hlen2, List.length_take]
    omega
  · intro x hx
    rw [hset] at hx
    rcases List.mem_append.mp hx with h | h
    · exact hl x (List.mem_of_mem_take h)
    · rcases List.mem_cons.mp h with h | h
      · rw [h]; exact hv
      · exact hl x (List.mem_of_mem_drop h)
  · rw [hset, evalDigits_append, evalDigits_cons, List.length_cons, hlen2]
    conv_rhs => rw [evalDigits_take_drop (2 ^ 32) l k, hdrop, evalDigits_cons,
      List.length_cons, hlen2]
    rw [hgetk]
    ring

theorem findFirstNonzeroDigit_spec :
    ∀ l : List Nat, (∀ x ∈ l, x < 2 ^ 32) →
      findFirstNonzeroDigit l ≤ l.length ∧
      evalDigits (2 ^ 32) l < 2 ^ (32 * (l.length - findFirstNonzeroDigit l)) ∧
      (findFirstNonzeroDigit l < l.length →
        2 ^ (32 * (l.length - findFirstNonzeroDigit l - 1)) ≤ evalDigits (2 ^ 32) l) := by
  intro l
  induction l with
  | nil =>
    intro _
    refine ⟨le_refl _, ?_, fun h => absurd h (by decide)⟩
    show (0 : Nat) < 2 ^ (32 * 0)
    norm_num
  | cons x xs ih =>
    intro hl
    obtain ⟨ih1, ih2, ih3⟩ := ih (fun y hy => hl y (List.mem_cons_of_mem _ hy))
    have hx : x < 2 ^ 32 := hl x (List.mem_cons_self _ _)
    by_cases hx0 : x = 0
    · have hffnz : findFirstNonzeroDigit (x :: xs) = findFirstNonzeroDigit xs + 1 := by
        unfold findFirstNonzeroDigit
        rw [List.takeWhile_cons]
        simp [hx0]
      have hval : evalDigits (2 ^ 32) (x :: xs) = evalDigits (2 ^ 32) xs := by
        rw [evalDigits_cons, hx0]
        ring
      refine ⟨?_, ?_, ?_⟩
      · rw [hffnz, List.length_cons]
        omega
      · rw [hffnz, hval, List.length_cons]
        have : xs.length + 1 - (findFirstNonzeroDigit xs + 1) =
            xs.length - findFirstNonzeroDigit xs := by omega
        rw [this]
        exact ih2
      · intro hlt
        rw [hffnz, List.length_cons] at *
        have : xs.length + 1 - (findFirstNonzeroDigit xs + 1) =
            xs.length - findFirstNonzeroDigit xs := by omega
        rw [this, hval]
        exact ih3 (by omega)
    · have hffnz : findFirstNonzeroDigit (x :: xs) = 0 := by
        unfold findFirstNonzeroDigit
        rw [List.takeWhile_cons]
        simp [hx0]
      refine ⟨by omega, ?_, ?_⟩
      · rw [hffnz, List.length_cons, Nat.sub_zero]
        have := evalDigits_lt (2 ^ 32) (by norm_num) (x :: xs) hl
        rw [← pow_mul] at this
        exact this
      · intro _
        rw [hffnz, List.length_cons, evalDigits_cons]
        have h1 : (1 : Nat) ≤ x := by omega
        have : 2 ^ (32 * (xs.length + 1 - 0 - 1)) = (2 ^ 32) ^ xs.length := by
          rw [← pow_mul]
          congr 1
        rw [this]
        calc ((2 : Nat) ^ 32) ^ xs.length = 1 * (2 ^ 32) ^ xs.length := by ring
          _ ≤ x * (2 ^ 32) ^ xs.length := Nat.mul_le_mul_right _ h1
          _ ≤ x * (2 ^ 32) ^ xs.length + evalDigits (2 ^ 32) xs := by omega

/-! ### The Knuth Algorithm D guess refinement -/

theorem lt_div_succ_mul (a b : Nat) (hb : 0 < b) : a < (a / b + 1) * b := by
  have h1 := Nat.div_add_mod a b
  have h2 := Nat.mod_lt a hb
  calc a = b * (a / b) + a % b := h1.symm
    _ < b * (a / b) + b := Nat.add_lt_add_left h2 _
    _ = (a / b + 1) * b := by ring

theorem evalDigits_drop_of_lt (l : List Nat) (hl : ∀ x ∈ l, x < 2 ^ 32) (k : Nat)
    (hv : evalDigits (2 ^ 32) l < ((2:Nat) ^ 32) ^ (l.length - k)) :
    evalDigits (2 ^ 32) (l.drop k) = evalDigits (2 ^ 32) l := by
  have hsplit := evalDigits_take_drop (2 ^ 32) l k
  have hlen : (l.drop k).length = l.length - k := List.length_drop _ _
  rw [hlen] at hsplit
  by_cases ht : evalDigits (2 ^ 32) (l.take k) = 0
  · rw [hsplit, ht]
    ring
  · exfalso
    have h1 : 1 ≤ evalDigits (2 ^ 32) (l.take k) := Nat.one_le_iff_ne_zero.mpr ht
    have h2 : ((2:Nat) ^ 32) ^ (l.length - k) ≤
        evalDigits (2 ^ 32) (l.take k) * ((2:Nat) ^ 32) ^ (l.length - k) := by
      calc ((2:Nat) ^ 32) ^ (l.length - k) = 1 * ((2:Nat) ^ 32) ^ (l.length - k) := by ring
        _ ≤ _ := Nat.mul_le_mul_right _ h1
    omega

theorem evalDigits_append3 (B : Nat) (a b c : List Nat) :
    evalDigits B (a ++ b ++ c) =
      evalDigits B a * B ^ (b.length + c.length) + evalDigits B b * B ^ c.length +
        evalDigits B c := by
  rw [List.append_assoc, evalDigits_append, evalDigits_append, List.length_append]
  ring

theorem refineGuess_eq_pos (v1 v2 u2 guess rem : Nat)
    (h : rem ≤ 2 ^ 32 - 1 ∧ (2 ^ 32 - 1 < guess ∨ rem * 2 ^ 32 + u2 < v2 * guess)) :
    refineGuess v1 v2 u2 guess rem = refineGuess v1 v2 u2 (guess - 1) (rem + v1) := by
  rw [refineGuess]
  rw [dif_pos h]

theorem refineGuess_eq_neg (v1 v2 u2 guess rem : Nat)
    (h : ¬(rem ≤ 2 ^ 32 - 1 ∧ (2 ^ 32 - 1 < guess ∨ rem * 2 ^ 32 + u2 < v2 * guess))) :
    refineGuess v1 v2 u2 guess rem = (guess, rem) := by
  rw [refineGuess]
  rw [dif_neg h]

theorem refineGuess_base (v1 v2 u2 : Nat) : ∀ (guess rem : Nat),
    (refineGuess v1 v2 u2 guess rem).1 * v1 + (refineGuess v1 v2 u2 guess rem).2 =
      guess * v1 + rem ∧
    (refineGuess v1 v2 u2 guess rem).1 ≤ guess ∧
    (2 ^ 32 ≤ (refineGuess v1 v2 u2 guess rem).2 ∨
      ((refineGuess v1 v2 u2 guess rem).1 ≤ 2 ^ 32 - 1 ∧
        v2 * (refineGuess v1 v2 u2 guess rem).1 ≤
          (refineGuess v1 v2 u2 guess rem).2 * 2 ^ 32 + u2)) := by
  intro guess
  induction guess with
  | zero =>
    intro rem
    have hcond : ¬((rem : Nat) ≤ 2 ^ 32 - 1 ∧
        (2 ^ 32 - 1 < 0 ∨ rem * 2 ^ 32 + u2 < v2 * 0)) := by
      rintro ⟨_, h | h⟩ <;> omega
    rw [refineGuess_eq_neg v1 v2 u2 0 rem hcond]
    exact ⟨rfl, le_refl _, Or.inr ⟨by omega, by omega⟩⟩
  | succ g ih =>
    intro rem
    by_cases h : rem ≤ 2 ^ 32 - 1 ∧ (2 ^ 32 - 1 < g + 1 ∨ rem * 2 ^ 32 + u2 < v2 * (g + 1))
    · rw [refineGuess_eq_pos v1 v2 u2 (g + 1) rem h]
      simp only [Nat.add_sub_cancel]
      obtain ⟨ih1, ih2, ih3⟩ := ih (rem + v1)
      refine ⟨?_, by omega, ih3⟩
      calc (refineGuess v1 v2 u2 g (rem + v1)).1 * v1 + (refineGuess v1 v2 u2 g (rem + v1)).2
          = g * v1 + (rem + v1) := ih1
        _ = (g + 1) * v1 + rem := by ring
    · rw [refineGuess_eq_neg v1 v2 u2 (g + 1) rem h]
      push_neg at h
      by_cases hr : rem ≤ 2 ^ 32 - 1
      · obtain ⟨h1, h2⟩ := h hr
        exact ⟨rfl, le_refl _, Or.inr ⟨h1, h2⟩⟩
      · exact ⟨rfl, le_refl _, Or.inl (by omega)⟩

theorem refineGuess_ge (v1 v2 u2 q G : Nat)
    (hsafe : ∀ g r, g * v1 + r = G → r ≤ 2 ^ 32 - 1 →
      (2 ^ 32 - 1 < g ∨ r * 2 ^ 32 + u2 < v2 * g) → q < g) :
    ∀ (guess rem : Nat), guess * v1 + rem = G → q ≤ guess →
      q ≤ (refineGuess v1 v2 u2 guess rem).1 := by
  intro guess
  induction guess with
  | zero =>
    intro rem _ hq
    have hcond : ¬((rem : Nat) ≤ 2 ^ 32 - 1 ∧
        (2 ^ 32 - 1 < 0 ∨ rem * 2 ^ 32 + u2 < v2 * 0)) := by
      rintro ⟨_, h | h⟩ <;> omega
    rw [refineGuess_eq_neg v1 v2 u2 0 rem hcond]
    exact hq
  | succ g ih =>
    intro rem hG hq
    by_cases h : rem ≤ 2 ^ 32 - 1 ∧ (2 ^ 32 - 1 < g + 1 ∨ rem * 2 ^ 32 + u2 < v2 * (g + 1))
    · rw [refineGuess_eq_pos v1 v2 u2 (g + 1) rem h]
      have hqlt : q < g + 1 := hsafe (g + 1) rem hG h.1 h.2
      show q ≤ (refineGuess v1 v2 u2 g (rem + v1)).1
      apply ih (rem + v1) ?_ (by omega)
      calc g * v1 + (rem + v1) = (g + 1) * v1 + rem := by ring
        _ = G := hG
    · rw [refineGuess_eq_neg v1 v2 u2 (g + 1) rem h]
      exact hq

/-- The classical TAOCP 4.3.1 Theorems A/B for the refined guess: for a
normalized divisor the refined trial digit lies in `\x7bq, q+1\x7d` and fits a
`u32`, where `q` is the true quotient digit of the window `W` by `D`. -/
theorem knuthGuess_spec (n D W v1 v2 u0 u1 u2 : Nat) (hn : 2 ≤ n)
    (hv1 : v1 = D / ((2:Nat) ^ 32) ^ (n - 1))
    (hv2 : v2 = D / ((2:Nat) ^ 32) ^ (n - 2) % 2 ^ 32)
    (hu0 : u0 = W / ((2:Nat) ^ 32) ^ n)
    (hu1 : u1 = W / ((2:Nat) ^ 32) ^ (n - 1) % 2 ^ 32)
    (hu2 : u2 = W / ((2:Nat) ^ 32) ^ (n - 2) % 2 ^ 32)
    (hD : D < ((2:Nat) ^ 32) ^ n) (hnorm : 2 ^ 31 ≤ v1)
    (hW : W < ((2:Nat) ^ 32) ^ (n + 1)) (hWD : W < D * 2 ^ 32) :
    W / D ≤ (refineGuess v1 v2 u2 ((u0 * 2 ^ 32 + u1) / v1) ((u0 * 2 ^ 32 + u1) % v1)).1 ∧
    (refineGuess v1 v2 u2 ((u0 * 2 ^ 32 + u1) / v1) ((u0 * 2 ^ 32 + u1) % v1)).1 ≤ W / D + 1 ∧
    (refineGuess v1 v2 u2 ((u0 * 2 ^ 32 + u1) / v1) ((u0 * 2 ^ 32 + u1) % v1)).1 ≤
      2 ^ 32 - 1 := by
  have hP2pos : (0:Nat) < ((2:Nat) ^ 32) ^ (n - 2) := by positivity
  have hP1pos : (0:Nat) < ((2:Nat) ^ 32) ^ (n - 1) := by positivity
  have hPnpos : (0:Nat) < ((2:Nat) ^ 32) ^ n := by positivity
  have hP1 : ((2:Nat) ^ 32) ^ (n - 2) * 2 ^ 32 = ((2:Nat) ^ 32) ^ (n - 1) := by
    rw [← pow_succ]
    congr 1
    omega
  have hPn : ((2:Nat) ^ 32) ^ (n - 1) * 2 ^ 32 = ((2:Nat) ^ 32) ^ n := by
    rw [← pow_succ]
    congr 1
    omega
  have hv1_0 : 0 < v1 := by omega
  have hv1D : v1 * ((2:Nat) ^ 32) ^ (n - 1) ≤ D := by
    rw [hv1]
    exact Nat.div_mul_le_self _ _
  have hD0 : 0 < D := by
    have h2 : 1 * 1 ≤ v1 * ((2:Nat) ^ 32) ^ (n - 1) := Nat.mul_le_mul (by omega) hP1pos
    omega
  have hgdd : u0 * 2 ^ 32 + u1 = W / ((2:Nat) ^ 32) ^ (n - 1) := by
    have hdd : W / ((2:Nat) ^ 32) ^ (n - 1) / 2 ^ 32 = W / ((2:Nat) ^ 32) ^ n := by
      rw [Nat.div_div_eq_div_mul, hPn]
    have h := Nat.div_add_mod (W / ((2:Nat) ^ 32) ^ (n - 1)) (2 ^ 32)
    rw [hdd] at h
    rw [hu0, hu1]
    omega
  have hW3 : (u0 * 2 ^ 32 + u1) * 2 ^ 32 + u2 = W / ((2:Nat) ^ 32) ^ (n - 2) := by
    have hdd : W / ((2:Nat) ^ 32) ^ (n - 2) / 2 ^ 32 = W / ((2:Nat) ^ 32) ^ (n - 1) := by
      rw [Nat.div_div_eq_div_mul, hP1]
    have h := Nat.div_add_mod (W / ((2:Nat) ^ 32) ^ (n - 2)) (2 ^ 32)
    rw [hdd, ← hgdd] at h
    rw [hu2]
    omega
  have hDhi : v1 * 2 ^ 32 + v2 = D / ((2:Nat) ^ 32) ^ (n - 2) := by
    have hdd : D / ((2:Nat) ^ 32) ^ (n - 2) / 2 ^ 32 = D / ((2:Nat) ^ 32) ^ (n - 1) := by
      rw [Nat.div_div_eq_div_mul, hP1]
    have h := Nat.div_add_mod (D / ((2:Nat) ^ 32) ^ (n - 2)) (2 ^ 32)
    rw [hdd, ← hv1] at h
    rw [hv2]
    omega
  have hDhi_lo : v1 * ((2:Nat) ^ 32) ^ (n - 1) + v2 * ((2:Nat) ^ 32) ^ (n - 2) ≤ D := by
    calc v1 * ((2:Nat) ^ 32) ^ (n - 1) + v2 * ((2:Nat) ^ 32) ^ (n - 2)
        = (v1 * 2 ^ 32 + v2) * ((2:Nat) ^ 32) ^ (n - 2) := by
          rw [← hP1]
          ring
      _ = D / ((2:Nat) ^ 32) ^ (n - 2) * ((2:Nat) ^ 32) ^ (n - 2) := by rw [hDhi]
      _ ≤ D := Nat.div_mul_le_self _ _
  have hDhi_hi : D < v1 * ((2:Nat) ^ 32) ^ (n - 1) + (v2 + 1) * ((2:Nat) ^ 32) ^ (n - 2) := by
    calc D < (D / ((2:Nat) ^ 32) ^ (n - 2) + 1) * ((2:Nat) ^ 32) ^ (n - 2) :=
          lt_div_succ_mul _ _ hP2pos
      _ = (v1 * 2 ^ 32 + v2 + 1) * ((2:Nat) ^ 32) ^ (n - 2) := by rw [← hDhi]
      _ = v1 * ((2:Nat) ^ 32) ^ (n - 1) + (v2 + 1) * ((2:Nat) ^ 32) ^ (n - 2) := by
          rw [← hP1]
          ring
  have hq_lt_X : W / D < 2 ^ 32 := by
    rw [Nat.div_lt_iff_lt_mul hD0]
    omega
  have hu1X : u1 < 2 ^ 32 := by
    rw [hu1]
    exact Nat.mod_lt _ (by norm_num)
  have hu2X : u2 < 2 ^ 32 := by
    rw [hu2]
    exact Nat.mod_lt _ (by norm_num)
  have hv2X : v2 < 2 ^ 32 := by
    rw [hv2]
    exact Nat.mod_lt _ (by norm_num)
  have hu0v1 : u0 ≤ v1 := by
    have h4 : (2:Nat) ^ 32 * ((2:Nat) ^ 32) ^ (n - 2) = ((2:Nat) ^ 32) ^ (n - 1) := by
      rw [mul_comm, hP1]
    have h3 : (v2 + 1) * ((2:Nat) ^ 32) ^ (n - 2) ≤ 2 ^ 32 * ((2:Nat) ^ 32) ^ (n - 2) :=
      Nat.mul_le_mul_right _ (by omega)
    have h5 : (v1 + 1) * ((2:Nat) ^ 32) ^ (n - 1) =
        v1 * ((2:Nat) ^ 32) ^ (n - 1) + ((2:Nat) ^ 32) ^ (n - 1) := by ring
    have hDlt : D < (v1 + 1) * ((2:Nat) ^ 32) ^ (n - 1) := by omega
    have hW6 : W < (v1 + 1) * ((2:Nat) ^ 32) ^ n := by
      calc W < D * 2 ^ 32 := hWD
        _ ≤ ((v1 + 1) * ((2:Nat) ^ 32) ^ (n - 1)) * 2 ^ 32 :=
            Nat.mul_le_mul_right _ (le_of_lt hDlt)
        _ = (v1 + 1) * (((2:Nat) ^ 32) ^ (n - 1) * 2 ^ 32) := by ring
        _ = (v1 + 1) * ((2:Nat) ^ 32) ^ n := by rw [hPn]
    rw [hu0]
    have h6 := (Nat.div_lt_iff_lt_mul hPnpos).mpr hW6
    omega
  have hq_g0 : W / D ≤ (u0 * 2 ^ 32 + u1) / v1 := by
    rw [Nat.le_div_iff_mul_le hv1_0, hgdd, Nat.le_div_iff_mul_le hP1pos]
    calc W / D * v1 * ((2:Nat) ^ 32) ^ (n - 1) ≤ W / D * D := by
          rw [mul_assoc]
          exact Nat.mul_le_mul_left _ hv1D
      _ ≤ W := Nat.div_mul_le_self _ _
  have hsafe : ∀ g r, g * v1 + r = u0 * 2 ^ 32 + u1 → r ≤ 2 ^ 32 - 1 →
      (2 ^ 32 - 1 < g ∨ r * 2 ^ 32 + u2 < v2 * g) → W / D < g := by
    intro g r hgr hr hcase
    rcases hcase with hg | htest
    · omega
    · by_contra hle
      push_neg at hle
      have h1 : W / ((2:Nat) ^ 32) ^ (n - 2) < g * v1 * 2 ^ 32 + v2 * g := by
        rw [← hW3]
        have hgrX : g * v1 * 2 ^ 32 + r * 2 ^ 32 = (u0 * 2 ^ 32 + u1) * 2 ^ 32 := by
          rw [← hgr]
          ring
        omega
      have h2 : g * v1 * 2 ^ 32 + v2 * g ≤ W / D * v1 * 2 ^ 32 + v2 * (W / D) := by
        have h2a : (v1 * 2 ^ 32 + v2) * g ≤ (v1 * 2 ^ 32 + v2) * (W / D) :=
          Nat.mul_le_mul_left _ hle
        calc g * v1 * 2 ^ 32 + v2 * g = (v1 * 2 ^ 32 + v2) * g := by ring
          _ ≤ (v1 * 2 ^ 32 + v2) * (W / D) := h2a
          _ = W / D * v1 * 2 ^ 32 + v2 * (W / D) := by ring
      have h3 : W / D * v1 * 2 ^ 32 + v2 * (W / D) ≤ W / ((2:Nat) ^ 32) ^ (n - 2) := by
        rw [Nat.le_div_iff_mul_le hP2pos]
        calc (W / D * v1 * 2 ^ 32 + v2 * (W / D)) * ((2:Nat) ^ 32) ^ (n - 2)
            = W / D * (v1 * (((2:Nat) ^ 32) ^ (n - 2) * 2 ^ 32) +
                v2 * ((2:Nat) ^ 32) ^ (n - 2)) := by ring
          _ = W / D * (v1 * ((2:Nat) ^ 32) ^ (n - 1) + v2 * ((2:Nat) ^ 32) ^ (n - 2)) := by
              rw [hP1]
          _ ≤ W / D * D := Nat.mul_le_mul_left _ hDhi_lo
          _ ≤ W := Nat.div_mul_le_self _ _
      omega
  obtain ⟨hbEq, hble, hbexit⟩ :=
    refineGuess_base v1 v2 u2 ((u0 * 2 ^ 32 + u1) / v1) ((u0 * 2 ^ 32 + u1) % v1)
  have hG : (u0 * 2 ^ 32 + u1) / v1 * v1 + (u0 * 2 ^ 32 + u1) % v1 = u0 * 2 ^ 32 + u1 :=
    Nat.div_add_mod' _ _
  have hqle : W / D ≤
      (refineGuess v1 v2 u2 ((u0 * 2 ^ 32 + u1) / v1) ((u0 * 2 ^ 32 + u1) % v1)).1 :=
    refineGuess_ge v1 v2 u2 (W / D) (u0 * 2 ^ 32 + u1) hsafe _ _ hG hq_g0
  set gF := (refineGuess v1 v2 u2 ((u0 * 2 ^ 32 + u1) / v1) ((u0 * 2 ^ 32 + u1) % v1)).1
    with hgFdef
  set rF := (refineGuess v1 v2 u2 ((u0 * 2 ^ 32 + u1) / v1) ((u0 * 2 ^ 32 + u1) % v1)).2
    with hrFdef
  have hbEq' : gF * v1 + rF = u0 * 2 ^ 32 + u1 := by omega
  have hgdd_ub : u0 * 2 ^ 32 + u1 ≤ v1 * 2 ^ 32 + 2 ^ 32 - 1 := by
    have h := Nat.mul_le_mul_right (2 ^ 32) hu0v1
    omega
  have hgFX : gF ≤ 2 ^ 32 - 1 := by
    rcases hbexit with hrX | ⟨h1, _⟩
    · by_contra hcon
      push_neg at hcon
      have h2 : 2 ^ 32 * v1 ≤ gF * v1 := Nat.mul_le_mul_right _ (by omega)
      omega
    · exact h1
  have hV2 : gF * v1 * 2 ^ 32 + v2 * gF ≤ W / ((2:Nat) ^ 32) ^ (n - 2) := by
    rw [← hW3]
    have hkey : v2 * gF ≤ rF * 2 ^ 32 + u2 := by
      rcases hbexit with hrX | ⟨_, h2⟩
      · have h4 : v2 * gF ≤ (2 ^ 32 - 1) * (2 ^ 32 - 1) :=
          Nat.mul_le_mul (by omega) hgFX
        have h5 : 2 ^ 32 * 2 ^ 32 ≤ rF * 2 ^ 32 := Nat.mul_le_mul_right (2 ^ 32) hrX
        omega
      · exact h2
    have hbX : gF * v1 * 2 ^ 32 + rF * 2 ^ 32 = (u0 * 2 ^ 32 + u1) * 2 ^ 32 := by
      rw [← hbEq']
      ring
    omega
  have hgF_ub : gF ≤ W / D + 1 := by
    by_contra hcon
    push_neg at hcon
    have ha1 : gF * (v1 * ((2:Nat) ^ 32) ^ (n - 1) + v2 * ((2:Nat) ^ 32) ^ (n - 2)) ≤ W := by
      calc gF * (v1 * ((2:Nat) ^ 32) ^ (n - 1) + v2 * ((2:Nat) ^ 32) ^ (n - 2))
          = (gF * v1 * 2 ^ 32 + v2 * gF) * ((2:Nat) ^ 32) ^ (n - 2) := by
            rw [← hP1]
            ring
        _ ≤ W / ((2:Nat) ^ 32) ^ (n - 2) * ((2:Nat) ^ 32) ^ (n - 2) :=
            Nat.mul_le_mul_right _ hV2
        _ ≤ W := Nat.div_mul_le_self _ _
    have ha2 : gF * D ≤ gF * (v1 * ((2:Nat) ^ 32) ^ (n - 1) + v2 * ((2:Nat) ^ 32) ^ (n - 2)) +
        gF * (((2:Nat) ^ 32) ^ (n - 2) - 1) := by
      have h2 : (v2 + 1) * ((2:Nat) ^ 32) ^ (n - 2) =
          v2 * ((2:Nat) ^ 32) ^ (n - 2) + ((2:Nat) ^ 32) ^ (n - 2) := by ring
      have h1 : D ≤ v1 * ((2:Nat) ^ 32) ^ (n - 1) + v2 * ((2:Nat) ^ 32) ^ (n - 2) +
          (((2:Nat) ^ 32) ^ (n - 2) - 1) := by omega
      calc gF * D ≤ gF * (v1 * ((2:Nat) ^ 32) ^ (n - 1) + v2 * ((2:Nat) ^ 32) ^ (n - 2) +
            (((2:Nat) ^ 32) ^ (n - 2) - 1)) := Nat.mul_le_mul_left _ h1
        _ = gF * (v1 * ((2:Nat) ^ 32) ^ (n - 1) + v2 * ((2:Nat) ^ 32) ^ (n - 2)) +
            gF * (((2:Nat) ^ 32) ^ (n - 2) - 1) := by ring
    have ha3 : W + D < gF * D := by
      have h1 : (W / D + 2) * D ≤ gF * D := Nat.mul_le_mul_right _ (by omega)
      have h2 : W < (W / D + 1) * D := lt_div_succ_mul _ _ hD0
      have h3 : (W / D + 2) * D = (W / D + 1) * D + D := by ring
      omega
    have ha4 : gF * (((2:Nat) ^ 32) ^ (n - 2) - 1) ≤
        (2 ^ 32 - 1) * (((2:Nat) ^ 32) ^ (n - 2) - 1) := Nat.mul_le_mul_right _ hgFX
    have ha5 : ((2:Nat) ^ 32) ^ (n - 1) ≤ D := by
      calc ((2:Nat) ^ 32) ^ (n - 1) = 1 * ((2:Nat) ^ 32) ^ (n - 1) := by ring
        _ ≤ v1 * ((2:Nat) ^ 32) ^ (n - 1) := Nat.mul_le_mul_right _ (by omega)
        _ ≤ D := hv1D
    have ha6 : (2 ^ 32 - 1) * (((2:Nat) ^ 32) ^ (n - 2) - 1) + 1 ≤ ((2:Nat) ^ 32) ^ (n - 1) := by
      have h1 : (2:Nat) ^ 32 * ((2:Nat) ^ 32) ^ (n - 2) = ((2:Nat) ^ 32) ^ (n - 1) := by
        rw [mul_comm, hP1]
      omega
    omega
  exact ⟨hqle, hgF_ub, hgFX⟩

/-- The tail of `knuthStep` after the trial digit has been computed (steps
D4-D6 of Algorithm D), factored out so that it can be analysed for an
arbitrary digit `g`. -/
def knuthSubPhase (dv : List Nat) (n M : Nat) (dividend : List Nat) (j g : Nat) :
    List Nat × Nat :=
  let s := (mulLimbsU32 dv g).getD (List.replicate M 0)
  let sW := s.drop (M - 1 - n)
  let pre := dividend.take (M - 1 - n - j)
  let win := (dividend.drop (M - 1 - n - j)).take (n + 1)
  let post := dividend.drop (M - j)
  let sub := sliceOverflowingSubAssign win sW
  if sub.2 then
    let vW := dv.drop (M - 1 - n)
    let add := sliceOverflowingAddAssign sub.1 vW
    (pre ++ add.1 ++ post, g - 1)
  else (pre ++ sub.1 ++ post, g)

theorem knuthStep_eq_subPhase (dv : List Nat) (v1 v2 n M : Nat) (dividend : List Nat)
    (j : Nat) :
    knuthStep dv v1 v2 n M dividend j =
      knuthSubPhase dv n M dividend j
        (refineGuess v1 v2 (getFromRight dividend (j + n - 2))
          ((getFromRight dividend (j + n) * 2 ^ 32 + getFromRight dividend (j + n - 1)) / v1)
          ((getFromRight dividend (j + n) * 2 ^ 32 +
            getFromRight dividend (j + n - 1)) % v1)).1 := rfl

theorem knuthSubPhase_eq (dv : List Nat) (n M : Nat) (dividend : List Nat) (j g : Nat)
    (s : List Nat) (hs : (mulLimbsU32 dv g).getD (List.replicate M 0) = s) :
    knuthSubPhase dv n M dividend j g =
      (if (sliceOverflowingSubAssign ((dividend.drop (M - 1 - n - j)).take (n + 1))
            (s.drop (M - 1 - n))).2 then
        (dividend.take (M - 1 - n - j) ++
          (sliceOverflowingAddAssign
            (sliceOverflowingSubAssign ((dividend.drop (M - 1 - n - j)).take (n + 1))
              (s.drop (M - 1 - n))).1 (dv.drop (M - 1 - n))).1 ++
          dividend.drop (M - j), g - 1)
      else
        (dividend.take (M - 1 - n - j) ++
          (sliceOverflowingSubAssign ((dividend.drop (M - 1 - n - j)).take (n + 1))
            (s.drop (M - 1 - n))).1 ++ dividend.drop (M - j), g)) := by
  subst hs
  rfl

theorem window_facts (dividend : List Nat) (M n j : Nat) (hdlen : dividend.length = M)
    (hdb : ∀ x ∈ dividend, x < 2 ^ 32) (hjnM : j + n + 1 ≤ M)
    (hUb : evalDigits (2 ^ 32) dividend < ((2:Nat) ^ 32) ^ (n + 1 + j)) :
    evalDigits (2 ^ 32) (dividend.take (M - 1 - n - j)) = 0 ∧
    evalDigits (2 ^ 32) (dividend.drop (M - j)) < ((2:Nat) ^ 32) ^ j ∧
    evalDigits (2 ^ 32) dividend =
      evalDigits (2 ^ 32) ((dividend.drop (M - 1 - n - j)).take (n + 1)) *
        ((2:Nat) ^ 32) ^ j + evalDigits (2 ^ 32) (dividend.drop (M - j)) ∧
    evalDigits (2 ^ 32) ((dividend.drop (M - 1 - n - j)).take (n + 1)) =
      evalDigits (2 ^ 32) dividend / ((2:Nat) ^ 32) ^ j := by
  have hPjpos : (0:Nat) < ((2:Nat) ^ 32) ^ j := by positivity
  have hdecomp : dividend.take (M - 1 - n - j) ++
      ((dividend.drop (M - 1 - n - j)).take (n + 1) ++ dividend.drop (M - j)) = dividend := by
    have h2 : (dividend.drop (M - 1 - n - j)).drop (n + 1) = dividend.drop (M - j) := by
      rw [List.drop_drop]
      congr 1
      omega
    rw [← h2, List.take_append_drop, List.take_append_drop]
  have hwinlen : ((dividend.drop (M - 1 - n - j)).take (n + 1)).length = n + 1 := by
    rw [List.length_take, List.length_drop, hdlen]
    omega
  have hpostlen : (dividend.drop (M - j)).length = j := by
    rw [List.length_drop, hdlen]
    omega
  have hpostb : ∀ x ∈ dividend.drop (M - j), x < 2 ^ 32 :=
    fun x hx => hdb x (List.mem_of_mem_drop hx)
  have hsplitU : evalDigits (2 ^ 32) dividend =
      evalDigits (2 ^ 32) (dividend.take (M - 1 - n - j)) * ((2:Nat) ^ 32) ^ (n + 1 + j) +
      (evalDigits (2 ^ 32) ((dividend.drop (M - 1 - n - j)).take (n + 1)) *
        ((2:Nat) ^ 32) ^ j + evalDigits (2 ^ 32) (dividend.drop (M - j))) := by
    conv_lhs => rw [← hdecomp]
    rw [evalDigits_append, evalDigits_append, List.length_append, hwinlen, hpostlen]
  have hpre0 : evalDigits (2 ^ 32) (dividend.take (M - 1 - n - j)) = 0 := by
    by_contra hne
    have h1 : 1 ≤ evalDigits (2 ^ 32) (dividend.take (M - 1 - n - j)) :=
      Nat.one_le_iff_ne_zero.mpr hne
    have h2 : ((2:Nat) ^ 32) ^ (n + 1 + j) ≤
        evalDigits (2 ^ 32) (dividend.take (M - 1 - n - j)) * ((2:Nat) ^ 32) ^ (n + 1 + j) := by
      calc ((2:Nat) ^ 32) ^ (n + 1 + j) = 1 * ((2:Nat) ^ 32) ^ (n + 1 + j) := by ring
        _ ≤ _ := Nat.mul_le_mul_right _ h1
    omega
  have hL : evalDigits (2 ^ 32) (dividend.drop (M - j)) < ((2:Nat) ^ 32) ^ j := by
    have h := evalDigits_lt (2 ^ 32) (by norm_num) _ hpostb
    rw [hpostlen] at h
    exact h
  have hUval : evalDigits (2 ^ 32) dividend =
      evalDigits (2 ^ 32) ((dividend.drop (M - 1 - n - j)).take (n + 1)) *
        ((2:Nat) ^ 32) ^ j + evalDigits (2 ^ 32) (dividend.drop (M - j)) := by
    rw [hsplitU, hpre0]
    ring
  refine ⟨hpre0, hL, hUval, ?_⟩
  rw [hUval, Nat.add_comm
    (evalDigits (2 ^ 32) ((dividend.drop (M - 1 - n - j)).take (n + 1)) * ((2:Nat) ^ 32) ^ j)
    (evalDigits (2 ^ 32) (dividend.drop (M - j))),
    Nat.add_mul_div_right _ _ hPjpos, Nat.div_eq_of_lt hL]
  omega

theorem knuthSubPhase_spec (dv : List Nat) (n M : Nat) (dividend : List Nat) (j g : Nat)
    (hdvlen : dv.length = M) (hdlen : dividend.length = M)
    (hdvb : ∀ x ∈ dv, x < 2 ^ 32) (hdb : ∀ x ∈ dividend, x < 2 ^ 32)
    (hn2 : 2 ≤ n) (hjnM : j + n + 1 ≤ M)
    (hDn : evalDigits (2 ^ 32) dv < ((2:Nat) ^ 32) ^ n)
    (hD0 : 0 < evalDigits (2 ^ 32) dv)
    (hU : evalDigits (2 ^ 32) dividend <
      evalDigits (2 ^ 32) dv * ((2:Nat) ^ 32) ^ (j + 1))
    (hgX : g < 2 ^ 32)
    (hg_lo : evalDigits (2 ^ 32) dividend /
      (evalDigits (2 ^ 32) dv * ((2:Nat) ^ 32) ^ j) ≤ g)
    (hg_hi : g ≤ evalDigits (2 ^ 32) dividend /
      (evalDigits (2 ^ 32) dv * ((2:Nat) ^ 32) ^ j) + 1) :
    (knuthSubPhase dv n M dividend j g).1.length = M ∧
    (∀ x ∈ (knuthSubPhase dv n M dividend j g).1, x < 2 ^ 32) ∧
    (knuthSubPhase dv n M dividend j g).2 =
      evalDigits (2 ^ 32) dividend / (evalDigits (2 ^ 32) dv * ((2:Nat) ^ 32) ^ j) ∧
    evalDigits (2 ^ 32) (knuthSubPhase dv n M dividend j g).1 =
      evalDigits (2 ^ 32) dividend % (evalDigits (2 ^ 32) dv * ((2:Nat) ^ 32) ^ j) := by
  have hPjpos : (0:Nat) < ((2:Nat) ^ 32) ^ j := by positivity
  have hfit : evalDigits (2 ^ 32) dv * g < 2 ^ (32 * dv.length) := by
    have h1 : evalDigits (2 ^ 32) dv * g < evalDigits (2 ^ 32) dv * 2 ^ 32 :=
      mul_lt_mul_of_pos_left hgX hD0
    have h2 : evalDigits (2 ^ 32) dv * 2 ^ 32 ≤ ((2:Nat) ^ 32) ^ n * 2 ^ 32 :=
      Nat.mul_le_mul_right _ (le_of_lt hDn)
    have h3 : ((2:Nat) ^ 32) ^ n * 2 ^ 32 = ((2:Nat) ^ 32) ^ (n + 1) := by
      rw [← pow_succ]
    have h4 : ((2:Nat) ^ 32) ^ (n + 1) ≤ ((2:Nat) ^ 32) ^ dv.length :=
      Nat.pow_le_pow_right (by norm_num) (by omega)
    have h5 : ((2:Nat) ^ 32) ^ dv.length = 2 ^ (32 * dv.length) := by
      rw [← pow_mul]
    omega
  obtain ⟨r, hr, hrlen, hrb, hrval⟩ := mulLimbsU32_spec dv g hdvb hfit
  rw [knuthSubPhase_eq dv n M dividend j g r (by rw [hr]; rfl)]
  have hUb : evalDigits (2 ^ 32) dividend < ((2:Nat) ^ 32) ^ (n + 1 + j) := by
    calc evalDigits (2 ^ 32) dividend <
        evalDigits (2 ^ 32) dv * ((2:Nat) ^ 32) ^ (j + 1) := hU
      _ ≤ ((2:Nat) ^ 32) ^ n * ((2:Nat) ^ 32) ^ (j + 1) :=
          Nat.mul_le_mul_right _ (le_of_lt hDn)
      _ = ((2:Nat) ^ 32) ^ (n + 1 + j) := by
          rw [← pow_add]
          congr 1
          omega
  obtain ⟨hpre0, hL, hUval, hWeq⟩ := window_facts dividend M n j hdlen hdb hjnM hUb
  have hwinlen : ((dividend.drop (M - 1 - n - j)).take (n + 1)).length = n + 1 := by
    rw [List.length_take, List.length_drop, hdlen]
    omega
  have hpostlen : (dividend.drop (M - j)).length = j := by
    rw [List.length_drop, hdlen]
    omega
  have hprelen : (dividend.take (M - 1 - n - j)).length = M - 1 - n - j := by
    rw [List.length_take, hdlen]
    omega
  have hwinb : ∀ x ∈ (dividend.drop (M - 1 - n - j)).take (n + 1), x < 2 ^ 32 :=
    fun x hx => hdb x (List.mem_of_mem_drop (List.mem_of_mem_take hx))
  have hpostb : ∀ x ∈ dividend.drop (M - j), x < 2 ^ 32 :=
    fun x hx => hdb x (List.mem_of_mem_drop hx)
  have hpreb : ∀ x ∈ dividend.take (M - 1 - n - j), x < 2 ^ 32 :=
    fun x hx => hdb x (List.mem_of_mem_take hx)
  have hqdig : evalDigits (2 ^ 32) dividend /
      (evalDigits (2 ^ 32) dv * ((2:Nat) ^ 32) ^ j) =
      evalDigits (2 ^ 32) ((dividend.drop (M - 1 - n - j)).take (n + 1)) /
        evalDigits (2 ^ 32) dv := by
    rw [hWeq, Nat.div_div_eq_div_mul,
      Nat.mul_comm (((2:Nat) ^ 32) ^ j) (evalDigits (2 ^ 32) dv)]
  have hqD2 : evalDigits (2 ^ 32) ((dividend.drop (M - 1 - n - j)).take (n + 1)) <
      (evalDigits (2 ^ 32) ((dividend.drop (M - 1 - n - j)).take (n + 1)) /
        evalDigits (2 ^ 32) dv + 1) * evalDigits (2 ^ 32) dv :=
    lt_div_succ_mul _ _ hD0
  have hqDle : evalDigits (2 ^ 32) dv *
      (evalDigits (2 ^ 32) ((dividend.drop (M - 1 - n - j)).take (n + 1)) /
        evalDigits (2 ^ 32) dv) ≤
      evalDigits (2 ^ 32) ((dividend.drop (M - 1 - n - j)).take (n + 1)) :=
    Nat.mul_div_le _ _
  have hsWlen : (r.drop (M - 1 - n)).length = n + 1 := by
    rw [List.length_drop, hrlen, hdvlen]
    omega
  have hsWb : ∀ x ∈ r.drop (M - 1 - n), x < 2 ^ 32 :=
    fun x hx => hrb x (List.mem_of_mem_drop hx)
  have hrfit : evalDigits (2 ^ 32) r < ((2:Nat) ^ 32) ^ (r.length - (M - 1 - n)) := by
    rw [hrval, hrlen, hdvlen]
    have he : M - (M - 1 - n) = n + 1 := by omega
    rw [he]
    calc evalDigits (2 ^ 32) dv * g < evalDigits (2 ^ 32) dv * 2 ^ 32 :=
        mul_lt_mul_of_pos_left hgX hD0
      _ ≤ ((2:Nat) ^ 32) ^ n * 2 ^ 32 := Nat.mul_le_mul_right _ (le_of_lt hDn)
      _ = ((2:Nat) ^ 32) ^ (n + 1) := by rw [← pow_succ]
  have hsWval : evalDigits (2 ^ 32) (r.drop (M - 1 - n)) = evalDigits (2 ^ 32) dv * g := by
    rw [evalDigits_drop_of_lt r hrb (M - 1 - n) hrfit, hrval]
  obtain ⟨hsublen, hsubb, hsubval⟩ := sliceOverflowingSubAssign_spec
    ((dividend.drop (M - 1 - n - j)).take (n + 1)) (r.drop (M - 1 - n))
    (by rw [hwinlen, hsWlen]) hwinb hsWb
  rw [hwinlen, hsWval, pow_mul] at hsubval
  have hsubvlt : evalDigits (2 ^ 32)
      (sliceOverflowingSubAssign ((dividend.drop (M - 1 - n - j)).take (n + 1))
        (r.drop (M - 1 - n))).1 < ((2:Nat) ^ 32) ^ (n + 1) := by
    have h := evalDigits_lt (2 ^ 32) (by norm_num) _ hsubb
    rw [hsublen, hwinlen] at h
    exact h
  have hfinish : ∀ w : List Nat, w.length = n + 1 → (∀ x ∈ w, x < 2 ^ 32) →
      evalDigits (2 ^ 32) w + evalDigits (2 ^ 32) dv *
        (evalDigits (2 ^ 32) ((dividend.drop (M - 1 - n - j)).take (n + 1)) /
          evalDigits (2 ^ 32) dv) =
        evalDigits (2 ^ 32) ((dividend.drop (M - 1 - n - j)).take (n + 1)) →
      evalDigits (2 ^ 32) (dividend.take (M - 1 - n - j) ++ w ++ dividend.drop (M - j)) =
        evalDigits (2 ^ 32) dividend %
          (evalDigits (2 ^ 32) dv * ((2:Nat) ^ 32) ^ j) := by
    intro w hwlen hwb hwv
    rw [evalDigits_append3, hpre0, hwlen, hpostlen]
    have hSD : evalDigits (2 ^ 32) w < evalDigits (2 ^ 32) dv := by
      have h3 : (evalDigits (2 ^ 32) ((dividend.drop (M - 1 - n - j)).take (n + 1)) /
          evalDigits (2 ^ 32) dv + 1) * evalDigits (2 ^ 32) dv =
          evalDigits (2 ^ 32) ((dividend.drop (M - 1 - n - j)).take (n + 1)) /
            evalDigits (2 ^ 32) dv * evalDigits (2 ^ 32) dv + evalDigits (2 ^ 32) dv := by
        ring
      have h4 : evalDigits (2 ^ 32) ((dividend.drop (M - 1 - n - j)).take (n + 1)) /
          evalDigits (2 ^ 32) dv * evalDigits (2 ^ 32) dv =
          evalDigits (2 ^ 32) dv *
            (evalDigits (2 ^ 32) ((dividend.drop (M - 1 - n - j)).take (n + 1)) /
              evalDigits (2 ^ 32) dv) := by
        ring
      omega
    have hqmul : evalDigits (2 ^ 32) dividend =
        (evalDigits (2 ^ 32) w * ((2:Nat) ^ 32) ^ j +
          evalDigits (2 ^ 32) (dividend.drop (M - j))) +
        evalDigits (2 ^ 32) ((dividend.drop (M - 1 - n - j)).take (n + 1)) /
          evalDigits (2 ^ 32) dv *
          (evalDigits (2 ^ 32) dv * ((2:Nat) ^ 32) ^ j) := by
      rw [hUval]
      calc evalDigits (2 ^ 32) ((dividend.drop (M - 1 - n - j)).take (n + 1)) *
            ((2:Nat) ^ 32) ^ j + evalDigits (2 ^ 32) (dividend.drop (M - j))
          = (evalDigits (2 ^ 32) w + evalDigits (2 ^ 32) dv *
              (evalDigits (2 ^ 32) ((dividend.drop (M - 1 - n - j)).take (n + 1)) /
                evalDigits (2 ^ 32) dv)) * ((2:Nat) ^ 32) ^ j +
              evalDigits (2 ^ 32) (dividend.drop (M - j)) := by rw [hwv]
        _ = (evalDigits (2 ^ 32) w * ((2:Nat) ^ 32) ^ j +
              evalDigits (2 ^ 32) (dividend.drop (M - j))) +
            evalDigits (2 ^ 32) ((dividend.drop (M - 1 - n - j)).take (n + 1)) /
              evalDigits (2 ^ 32) dv *
              (evalDigits (2 ^ 32) dv * ((2:Nat) ^ 32) ^ j) := by ring
    have hlt : evalDigits (2 ^ 32) w * ((2:Nat) ^ 32) ^ j +
        evalDigits (2 ^ 32) (dividend.drop (M - j)) <
        evalDigits (2 ^ 32) dv * ((2:Nat) ^ 32) ^ j := by
      have h1 : (evalDigits (2 ^ 32) w + 1) * ((2:Nat) ^ 32) ^ j ≤
          evalDigits (2 ^ 32) dv * ((2:Nat) ^ 32) ^ j :=
        Nat.mul_le_mul_right _ (by omega)
      have h2 : (evalDigits (2 ^ 32) w + 1) * ((2:Nat) ^ 32) ^ j =
          evalDigits (2 ^ 32) w * ((2:Nat) ^ 32) ^ j + ((2:Nat) ^ 32) ^ j := by ring
      omega
    rw [hqmul, Nat.add_mul_mod_self_right, Nat.mod_eq_of_lt hlt]
    ring
  by_cases hflag : (sliceOverflowingSubAssign
      ((dividend.drop (M - 1 - n - j)).take (n + 1)) (r.drop (M - 1 - n))).2 = true
  · -- the subtraction borrowed: the digit was one too large and is corrected
    rw [if_pos hflag] at hsubval ⊢
    dsimp only
    have hvWlen : (dv.drop (M - 1 - n)).length = n + 1 := by
      rw [List.length_drop, hdvlen]
      omega
    have hvWb : ∀ x ∈ dv.drop (M - 1 - n), x < 2 ^ 32 :=
      fun x hx => hdvb x (List.mem_of_mem_drop hx)
    have hvWval : evalDigits (2 ^ 32) (dv.drop (M - 1 - n)) = evalDigits (2 ^ 32) dv := by
      apply evalDigits_drop_of_lt dv hdvb
      have he : dv.length - (M - 1 - n) = n + 1 := by rw [hdvlen]; omega
      rw [he]
      calc evalDigits (2 ^ 32) dv < ((2:Nat) ^ 32) ^ n := hDn
        _ ≤ ((2:Nat) ^ 32) ^ (n + 1) := Nat.pow_le_pow_right (by norm_num) (by omega)
    obtain ⟨haddlen, haddb, haddval⟩ := sliceOverflowingAddAssign_spec
      (sliceOverflowingSubAssign ((dividend.drop (M - 1 - n - j)).take (n + 1))
        (r.drop (M - 1 - n))).1 (dv.drop (M - 1 - n))
      (by rw [hsublen, hwinlen, hvWlen]) hsubb hvWb
    rw [hsublen, hwinlen, hvWval, pow_mul] at haddval
    have hDgW : evalDigits (2 ^ 32) ((dividend.drop (M - 1 - n - j)).take (n + 1)) <
        evalDigits (2 ^ 32) dv * g := by omega
    have hgq1 : g = evalDigits (2 ^ 32) ((dividend.drop (M - 1 - n - j)).take (n + 1)) /
        evalDigits (2 ^ 32) dv + 1 := by
      have h1 : ¬(g ≤ evalDigits (2 ^ 32) ((dividend.drop (M - 1 - n - j)).take (n + 1)) /
          evalDigits (2 ^ 32) dv) := by
        intro hle
        have h2 : evalDigits (2 ^ 32) dv * g ≤ evalDigits (2 ^ 32) dv *
            (evalDigits (2 ^ 32) ((dividend.drop (M - 1 - n - j)).take (n + 1)) /
              evalDigits (2 ^ 32) dv) := Nat.mul_le_mul_left _ hle
        omega
      have h3 := hg_hi
      rw [hqdig] at h3
      omega
    have hDg : evalDigits (2 ^ 32) dv * g =
        evalDigits (2 ^ 32) dv *
          (evalDigits (2 ^ 32) ((dividend.drop (M - 1 - n - j)).take (n + 1)) /
            evalDigits (2 ^ 32) dv) + evalDigits (2 ^ 32) dv := by
      rw [hgq1]
      ring
    have haddvlt : evalDigits (2 ^ 32)
        (sliceOverflowingAddAssign
          (sliceOverflowingSubAssign ((dividend.drop (M - 1 - n - j)).take (n + 1))
            (r.drop (M - 1 - n))).1 (dv.drop (M - 1 - n))).1 < ((2:Nat) ^ 32) ^ (n + 1) := by
      have h := evalDigits_lt (2 ^ 32) (by norm_num) _ haddb
      rw [haddlen, hsublen, hwinlen] at h
      exact h
    by_cases haf : (sliceOverflowingAddAssign
        (sliceOverflowingSubAssign ((dividend.drop (M - 1 - n - j)).take (n + 1))
          (r.drop (M - 1 - n))).1 (dv.drop (M - 1 - n))).2 = true
    · rw [if_pos haf] at haddval
      have hA : evalDigits (2 ^ 32)
          (sliceOverflowingAddAssign
            (sliceOverflowingSubAssign ((dividend.drop (M - 1 - n - j)).take (n + 1))
              (r.drop (M - 1 - n))).1 (dv.drop (M - 1 - n))).1 +
          evalDigits (2 ^ 32) dv *
            (evalDigits (2 ^ 32) ((dividend.drop (M - 1 - n - j)).take (n + 1)) /
              evalDigits (2 ^ 32) dv) =
          evalDigits (2 ^ 32) ((dividend.drop (M - 1 - n - j)).take (n + 1)) := by
        omega
      refine ⟨?_, ?_, ?_, hfinish _ (by rw [haddlen, hsublen, hwinlen]) haddb hA⟩
      · rw [List.length_append, List.length_append, hprelen, haddlen, hsublen, hwinlen,
          hpostlen]
        omega
      · intro x hx
        rcases List.mem_append.mp hx with h | h
        · rcases List.mem_append.mp h with h' | h'
          · exact hpreb x h'
          · exact haddb x h'
        · exact hpostb x h
      · show g - 1 = evalDigits (2 ^ 32) dividend /
          (evalDigits (2 ^ 32) dv * ((2:Nat) ^ 32) ^ j)
        rw [hqdig, hgq1, Nat.add_sub_cancel]
    · exfalso
      rw [if_neg haf] at haddval
      omega
  · -- no borrow: the digit was exactly right
    rw [if_neg hflag] at hsubval ⊢
    dsimp only
    have hgD : evalDigits (2 ^ 32) dv * g ≤
        evalDigits (2 ^ 32) ((dividend.drop (M - 1 - n - j)).take (n + 1)) := by
      omega
    have hgq3 : g = evalDigits (2 ^ 32) ((dividend.drop (M - 1 - n - j)).take (n + 1)) /
        evalDigits (2 ^ 32) dv := by
      have h1 : g ≤ evalDigits (2 ^ 32) ((dividend.drop (M - 1 - n - j)).take (n + 1)) /
          evalDigits (2 ^ 32) dv := by
        rw [Nat.le_div_iff_mul_le hD0]
        calc g * evalDigits (2 ^ 32) dv = evalDigits (2 ^ 32) dv * g := by ring
          _ ≤ _ := hgD
      have h2 := hg_lo
      rw [hqdig] at h2
      omega
    have hS : evalDigits (2 ^ 32)
        (sliceOverflowingSubAssign ((dividend.drop (M - 1 - n - j)).take (n + 1))
          (r.drop (M - 1 - n))).1 +
        evalDigits (2 ^ 32) dv *
          (evalDigits (2 ^ 32) ((dividend.drop (M - 1 - n - j)).take (n + 1)) /
            evalDigits (2 ^ 32) dv) =
        evalDigits (2 ^ 32) ((dividend.drop (M - 1 - n - j)).take (n + 1)) := by
      rw [← hgq3]
      omega
    refine ⟨?_, ?_, ?_, hfinish _ (by rw [hsublen, hwinlen]) hsubb hS⟩
    · rw [List.length_append, List.length_append, hprelen, hsublen, hwinlen, hpostlen]
      omega
    · intro x hx
      rcases List.mem_append.mp hx with h | h
      · rcases List.mem_append.mp h with h' | h'
        · exact hpreb x h'
        · exact hsubb x h'
      · exact hpostb x h
    · show g = evalDigits (2 ^ 32) dividend /
        (evalDigits (2 ^ 32) dv * ((2:Nat) ^ 32) ^ j)
      rw [hqdig]
      exact hgq3

theorem knuthStep_spec (dv : List Nat) (v1 v2 n M : Nat) (dividend : List Nat) (j : Nat)
    (hdvlen : dv.length = M) (hdlen : dividend.length = M)
    (hdvb : ∀ x ∈ dv, x < 2 ^ 32) (hdb : ∀ x ∈ dividend, x < 2 ^ 32)
    (hn2 : 2 ≤ n) (hjnM : j + n + 1 ≤ M)
    (hDn : evalDigits (2 ^ 32) dv < ((2:Nat) ^ 32) ^ n)
    (hv1 : v1 = getFromRight dv (n - 1)) (hv2 : v2 = getFromRight dv (n - 2))
    (hnorm : 2 ^ 31 ≤ v1)
    (hU : evalDigits (2 ^ 32) dividend <
      evalDigits (2 ^ 32) dv * ((2:Nat) ^ 32) ^ (j + 1)) :
    (knuthStep dv v1 v2 n M dividend j).1.length = M ∧
    (∀ x ∈ (knuthStep dv v1 v2 n M dividend j).1, x < 2 ^ 32) ∧
    (knuthStep dv v1 v2 n M dividend j).2 =
      evalDigits (2 ^ 32) dividend / (evalDigits (2 ^ 32) dv * ((2:Nat) ^ 32) ^ j) ∧
    evalDigits (2 ^ 32) dividend / (evalDigits (2 ^ 32) dv * ((2:Nat) ^ 32) ^ j) < 2 ^ 32 ∧
    evalDigits (2 ^ 32) (knuthStep dv v1 v2 n M dividend j).1 =
      evalDigits (2 ^ 32) dividend % (evalDigits (2 ^ 32) dv * ((2:Nat) ^ 32) ^ j) := by
  have hP1pos : (0:Nat) < ((2:Nat) ^ 32) ^ (n - 1) := by positivity
  have hn1M : n - 1 < dv.length := by rw [hdvlen]; omega
  have hn2M : n - 2 < dv.length := by rw [hdvlen]; omega
  have hv1m : v1 = evalDigits (2 ^ 32) dv / ((2:Nat) ^ 32) ^ (n - 1) % 2 ^ 32 := by
    rw [hv1, getFromRight_val dv hdvb (n - 1) hn1M]
  have hDP1 : evalDigits (2 ^ 32) dv / ((2:Nat) ^ 32) ^ (n - 1) < 2 ^ 32 := by
    rw [Nat.div_lt_iff_lt_mul hP1pos]
    calc evalDigits (2 ^ 32) dv < ((2:Nat) ^ 32) ^ n := hDn
      _ = 2 ^ 32 * ((2:Nat) ^ 32) ^ (n - 1) := by
        rw [← pow_succ']
        congr 1
        omega
  have hv1d : v1 = evalDigits (2 ^ 32) dv / ((2:Nat) ^ 32) ^ (n - 1) := by
    rw [hv1m, Nat.mod_eq_of_lt hDP1]
  have hv2d : v2 = evalDigits (2 ^ 32) dv / ((2:Nat) ^ 32) ^ (n - 2) % 2 ^ 32 := by
    rw [hv2, getFromRight_val dv hdvb (n - 2) hn2M]
  have hD0 : 0 < evalDigits (2 ^ 32) dv := by
    by_contra h
    push_neg at h
    have hD0' : evalDigits (2 ^ 32) dv = 0 := by omega
    rw [hD0', Nat.zero_div] at hv1d
    omega
  have hUb : evalDigits (2 ^ 32) dividend < ((2:Nat) ^ 32) ^ (n + 1 + j) := by
    calc evalDigits (2 ^ 32) dividend <
        evalDigits (2 ^ 32) dv * ((2:Nat) ^ 32) ^ (j + 1) := hU
      _ ≤ ((2:Nat) ^ 32) ^ n * ((2:Nat) ^ 32) ^ (j + 1) :=
          Nat.mul_le_mul_right _ (le_of_lt hDn)
      _ = ((2:Nat) ^ 32) ^ (n + 1 + j) := by
          rw [← pow_add]
          congr 1
          omega
  obtain ⟨hpre0, hL, hUval, hWeq⟩ := window_facts dividend M n j hdlen hdb hjnM hUb
  have hwinb : ∀ x ∈ (dividend.drop (M - 1 - n - j)).take (n + 1), x < 2 ^ 32 :=
    fun x hx => hdb x (List.mem_of_mem_drop (List.mem_of_mem_take hx))
  have hwinlen : ((dividend.drop (M - 1 - n - j)).take (n + 1)).length = n + 1 := by
    rw [List.length_take, List.length_drop, hdlen]
    omega
  have hWlt : evalDigits (2 ^ 32) ((dividend.drop (M - 1 - n - j)).take (n + 1)) <
      ((2:Nat) ^ 32) ^ (n + 1) := by
    have h := evalDigits_lt (2 ^ 32) (by norm_num) _ hwinb
    rw [hwinlen] at h
    exact h
  have hWD : evalDigits (2 ^ 32) ((dividend.drop (M - 1 - n - j)).take (n + 1)) <
      evalDigits (2 ^ 32) dv * 2 ^ 32 := by
    rw [hWeq, Nat.div_lt_iff_lt_mul (by positivity : (0:Nat) < ((2:Nat) ^ 32) ^ j)]
    calc evalDigits (2 ^ 32) dividend <
        evalDigits (2 ^ 32) dv * ((2:Nat) ^ 32) ^ (j + 1) := hU
      _ = evalDigits (2 ^ 32) dv * 2 ^ 32 * ((2:Nat) ^ 32) ^ j := by
          rw [pow_succ']
          ring
  have hju : ∀ i, i < dividend.length →
      getFromRight dividend i =
        evalDigits (2 ^ 32) dividend / ((2:Nat) ^ 32) ^ i % 2 ^ 32 :=
    fun i hi => getFromRight_val dividend hdb i hi
  have hu0 : getFromRight dividend (j + n) =
      evalDigits (2 ^ 32) ((dividend.drop (M - 1 - n - j)).take (n + 1)) /
        ((2:Nat) ^ 32) ^ n := by
    rw [hju (j + n) (by rw [hdlen]; omega)]
    have h1 : evalDigits (2 ^ 32) dividend / ((2:Nat) ^ 32) ^ (j + n) =
        evalDigits (2 ^ 32) ((dividend.drop (M - 1 - n - j)).take (n + 1)) /
          ((2:Nat) ^ 32) ^ n := by
      rw [hWeq, Nat.div_div_eq_div_mul, ← pow_add]
    have h2 : evalDigits (2 ^ 32) ((dividend.drop (M - 1 - n - j)).take (n + 1)) /
        ((2:Nat) ^ 32) ^ n < 2 ^ 32 := by
      rw [Nat.div_lt_iff_lt_mul (by positivity : (0:Nat) < ((2:Nat) ^ 32) ^ n)]
      calc evalDigits (2 ^ 32) ((dividend.drop (M - 1 - n - j)).take (n + 1)) <
          ((2:Nat) ^ 32) ^ (n + 1) := hWlt
        _ = 2 ^ 32 * ((2:Nat) ^ 32) ^ n := by rw [pow_succ']
    rw [h1, Nat.mod_eq_of_lt h2]
  have hu1 : getFromRight dividend (j + n - 1) =
      evalDigits (2 ^ 32) ((dividend.drop (M - 1 - n - j)).take (n + 1)) /
        ((2:Nat) ^ 32) ^ (n - 1) % 2 ^ 32 := by
    rw [hju (j + n - 1) (by rw [hdlen]; omega)]
    have he : j + n - 1 = j + (n - 1) := by omega
    rw [he, hWeq, Nat.div_div_eq_div_mul, ← pow_add]
  have hu2 : getFromRight dividend (j + n - 2) =
      evalDigits (2 ^ 32) ((dividend.drop (M - 1 - n - j)).take (n + 1)) /
        ((2:Nat) ^ 32) ^ (n - 2) % 2 ^ 32 := by
    rw [hju (j + n - 2) (by rw [hdlen]; omega)]
    have he : j + n - 2 = j + (n - 2) := by omega
    rw [he, hWeq, Nat.div_div_eq_div_mul, ← pow_add]
  obtain ⟨hg_lo, hg_hi, hg_X⟩ := knuthGuess_spec n (evalDigits (2 ^ 32) dv)
    (evalDigits (2 ^ 32) ((dividend.drop (M - 1 - n - j)).take (n + 1)))
    v1 v2 (getFromRight dividend (j + n)) (getFromRight dividend (j + n - 1))
    (getFromRight dividend (j + n - 2))
    hn2 hv1d hv2d hu0 hu1 hu2 hDn hnorm hWlt hWD
  have hqdig : evalDigits (2 ^ 32) dividend /
      (evalDigits (2 ^ 32) dv * ((2:Nat) ^ 32) ^ j) =
      evalDigits (2 ^ 32) ((dividend.drop (M - 1 - n - j)).take (n + 1)) /
        evalDigits (2 ^ 32) dv := by
    rw [hWeq, Nat.div_div_eq_div_mul,
      Nat.mul_comm (((2:Nat) ^ 32) ^ j) (evalDigits (2 ^ 32) dv)]
  have hqX : evalDigits (2 ^ 32) dividend /
      (evalDigits (2 ^ 32) dv * ((2:Nat) ^ 32) ^ j) < 2 ^ 32 := by
    rw [hqdig, Nat.div_lt_iff_lt_mul hD0]
    calc evalDigits (2 ^ 32) ((dividend.drop (M - 1 - n - j)).take (n + 1)) <
        evalDigits (2 ^ 32) dv * 2 ^ 32 := hWD
      _ = 2 ^ 32 * evalDigits (2 ^ 32) dv := by ring
  have hgX : (refineGuess v1 v2 (getFromRight dividend (j + n - 2))
      ((getFromRight dividend (j + n) * 2 ^ 32 + getFromRight dividend (j + n - 1)) / v1)
      ((getFromRight dividend (j + n) * 2 ^ 32 +
        getFromRight dividend (j + n - 1)) % v1)).1 < 2 ^ 32 := by
    omega
  rw [knuthStep_eq_subPhase]
  have hsp := knuthSubPhase_spec dv n M dividend j
    (refineGuess v1 v2 (getFromRight dividend (j + n - 2))
      ((getFromRight dividend (j + n) * 2 ^ 32 + getFromRight dividend (j + n - 1)) / v1)
      ((getFromRight dividend (j + n) * 2 ^ 32 +
        getFromRight dividend (j + n - 1)) % v1)).1
    hdvlen hdlen hdvb hdb hn2 hjnM hDn hD0 hU hgX
    (by rw [hqdig]; exact hg_lo) (by rw [hqdig]; exact hg_hi)
  exact ⟨hsp.1, hsp.2.1, hsp.2.2.1, hqX, hsp.2.2.2⟩

theorem knuthLoop_zero (dv : List Nat) (v1 v2 n M : Nat) (dividend quotient : List Nat) :
    knuthLoop dv v1 v2 n M 0 dividend quotient =
      ((knuthStep dv v1 v2 n M dividend 0).1,
        setFromRight quotient 0 (knuthStep dv v1 v2 n M dividend 0).2) := rfl

theorem knuthLoop_succ (dv : List Nat) (v1 v2 n M j : Nat)
    (dividend quotient : List Nat) :
    knuthLoop dv v1 v2 n M (j + 1) dividend quotient =
      knuthLoop dv v1 v2 n M j (knuthStep dv v1 v2 n M dividend (j + 1)).1
        (setFromRight quotient (j + 1) (knuthStep dv v1 v2 n M dividend (j + 1)).2) := rfl

theorem getFromRight_setFromRight_ne (l : List Nat) (i i' v : Nat)
    (hi : i < l.length) (hi' : i' < l.length) (hne : i ≠ i') :
    getFromRight (setFromRight l i v) i' = getFromRight l i' := by
  unfold getFromRight setFromRight
  rw [List.length_set]
  rw [List.getD_eq_getElem?_getD, List.getD_eq_getElem?_getD,
    List.getElem?_set_ne (by omega : l.length - 1 - i ≠ l.length - 1 - i')]

theorem getFromRight_replicate (N i : Nat) : getFromRight (List.replicate N 0) i = 0 := by
  unfold getFromRight
  rw [List.getD_eq_getElem?_getD, List.length_replicate, List.getElem?_replicate]
  by_cases h : N - 1 - i < N
  · rw [if_pos h]
    rfl
  · rw [if_neg h]
    rfl

theorem knuthLoop_spec (dv : List Nat) (v1 v2 n M : Nat)
    (hdvlen : dv.length = M) (hdvb : ∀ x ∈ dv, x < 2 ^ 32)
    (hn2 : 2 ≤ n)
    (hDn : evalDigits (2 ^ 32) dv < ((2:Nat) ^ 32) ^ n)
    (hD0 : 0 < evalDigits (2 ^ 32) dv)
    (hv1 : v1 = getFromRight dv (n - 1)) (hv2 : v2 = getFromRight dv (n - 2))
    (hnorm : 2 ^ 31 ≤ v1) :
    ∀ (j : Nat) (dividend quotient : List Nat),
      dividend.length = M → (∀ x ∈ dividend, x < 2 ^ 32) →
      j + n + 1 ≤ M →
      evalDigits (2 ^ 32) dividend < evalDigits (2 ^ 32) dv * ((2:Nat) ^ 32) ^ (j + 1) →
      quotient.length + 1 = M → (∀ x ∈ quotient, x < 2 ^ 32) →
      (∀ i, i ≤ j → getFromRight quotient i = 0) →
      (knuthLoop dv v1 v2 n M j dividend quotient).1.length = M ∧
      (∀ x ∈ (knuthLoop dv v1 v2 n M j dividend quotient).1, x < 2 ^ 32) ∧
      evalDigits (2 ^ 32) (knuthLoop dv v1 v2 n M j dividend quotient).1 =
        evalDigits (2 ^ 32) dividend % evalDigits (2 ^ 32) dv ∧
      (knuthLoop dv v1 v2 n M j dividend quotient).2.length = quotient.length ∧
      (∀ x ∈ (knuthLoop dv v1 v2 n M j dividend quotient).2, x < 2 ^ 32) ∧
      evalDigits (2 ^ 32) (knuthLoop dv v1 v2 n M j dividend quotient).2 =
        evalDigits (2 ^ 32) quotient +
          evalDigits (2 ^ 32) dividend / evalDigits (2 ^ 32) dv := by
  intro j
  induction j with
  | zero =>
    intro dividend quotient hdlen hdb hjnM hUinv hqlen hqb hqzero
    obtain ⟨hs1, hs2, hs3, hs4, hs5⟩ := knuthStep_spec dv v1 v2 n M dividend 0
      hdvlen hdlen hdvb hdb hn2 hjnM hDn hv1 hv2 hnorm hUinv
    have h0 : evalDigits (2 ^ 32) dv * ((2:Nat) ^ 32) ^ 0 = evalDigits (2 ^ 32) dv := by
      rw [pow_zero, mul_one]
    rw [h0] at hs3 hs4 hs5
    rw [knuthLoop_zero]
    obtain ⟨hset1, hset2, hset3⟩ := setFromRight_spec quotient hqb 0 (by omega)
      ((knuthStep dv v1 v2 n M dividend 0).2) (by rw [hs3]; exact hs4)
      (hqzero 0 (le_refl 0))
    refine ⟨hs1, hs2, hs5, hset1, hset2, ?_⟩
    rw [hset3, hs3, pow_zero, mul_one]
  | succ j ih =>
    intro dividend quotient hdlen hdb hjnM hUinv hqlen hqb hqzero
    obtain ⟨hs1, hs2, hs3, hs4, hs5⟩ := knuthStep_spec dv v1 v2 n M dividend (j + 1)
      hdvlen hdlen hdvb hdb hn2 hjnM hDn hv1 hv2 hnorm hUinv
    rw [knuthLoop_succ]
    have hjq : j + 1 < quotient.length := by omega
    obtain ⟨hset1, hset2, hset3⟩ := setFromRight_spec quotient hqb (j + 1) hjq
      ((knuthStep dv v1 v2 n M dividend (j + 1)).2) (by rw [hs3]; exact hs4)
      (hqzero (j + 1) (le_refl _))
    have hmodlt : evalDigits (2 ^ 32) (knuthStep dv v1 v2 n M dividend (j + 1)).1 <
        evalDigits (2 ^ 32) dv * ((2:Nat) ^ 32) ^ (j + 1) := by
      rw [hs5]
      exact Nat.mod_lt _ (Nat.mul_pos hD0 (by positivity))
    have hqzero' : ∀ i, i ≤ j →
        getFromRight (setFromRight quotient (j + 1)
          ((knuthStep dv v1 v2 n M dividend (j + 1)).2)) i = 0 := by
      intro i hij
      rw [getFromRight_setFromRight_ne quotient (j + 1) i
        ((knuthStep dv v1 v2 n M dividend (j + 1)).2) hjq (by omega) (by omega)]
      exact hqzero i (by omega)
    obtain ⟨ih1, ih2, ih3, ih4, ih5, ih6⟩ := ih
      (knuthStep dv v1 v2 n M dividend (j + 1)).1
      (setFromRight quotient (j + 1) ((knuthStep dv v1 v2 n M dividend (j + 1)).2))
      hs1 hs2 (by omega) hmodlt (by rw [hset1]; exact hqlen) hset2 hqzero'
    refine ⟨ih1, ih2, ?_, ?_, ih5, ?_⟩
    · rw [ih3, hs5]
      exact Nat.mod_mod_of_dvd _ ⟨((2:Nat) ^ 32) ^ (j + 1), rfl⟩
    · rw [ih4, hset1]
    · rw [ih6, hset3, hs5, hs3]
      have hsplit : evalDigits (2 ^ 32) dividend =
          evalDigits (2 ^ 32) dv * (((2:Nat) ^ 32) ^ (j + 1) *
            (evalDigits (2 ^ 32) dividend /
              (evalDigits (2 ^ 32) dv * ((2:Nat) ^ 32) ^ (j + 1)))) +
          evalDigits (2 ^ 32) dividend %
            (evalDigits (2 ^ 32) dv * ((2:Nat) ^ 32) ^ (j + 1)) := by
        have h := Nat.div_add_mod (evalDigits (2 ^ 32) dividend)
          (evalDigits (2 ^ 32) dv * ((2:Nat) ^ 32) ^ (j + 1))
        calc evalDigits (2 ^ 32) dividend
            = evalDigits (2 ^ 32) dv * ((2:Nat) ^ 32) ^ (j + 1) *
                (evalDigits (2 ^ 32) dividend /
                  (evalDigits (2 ^ 32) dv * ((2:Nat) ^ 32) ^ (j + 1))) +
              evalDigits (2 ^ 32) dividend %
                (evalDigits (2 ^ 32) dv * ((2:Nat) ^ 32) ^ (j + 1)) := h.symm
          _ = evalDigits (2 ^ 32) dv * (((2:Nat) ^ 32) ^ (j + 1) *
                (evalDigits (2 ^ 32) dividend /
                  (evalDigits (2 ^ 32) dv * ((2:Nat) ^ 32) ^ (j + 1)))) +
              evalDigits (2 ^ 32) dividend %
                (evalDigits (2 ^ 32) dv * ((2:Nat) ^ 32) ^ (j + 1)) := by ring
      have hdiv : evalDigits (2 ^ 32) dividend / evalDigits (2 ^ 32) dv =
          ((2:Nat) ^ 32) ^ (j + 1) *
            (evalDigits (2 ^ 32) dividend /
              (evalDigits (2 ^ 32) dv * ((2:Nat) ^ 32) ^ (j + 1))) +
          evalDigits (2 ^ 32) dividend %
            (evalDigits (2 ^ 32) dv * ((2:Nat) ^ 32) ^ (j + 1)) /
            evalDigits (2 ^ 32) dv := by
        conv_lhs => rw [hsplit]
        rw [Nat.mul_add_div hD0]
      rw [hdiv]
      ring

theorem leadingZeros32_spec (x : Nat) (hx : 0 < x) (hX : x < 2 ^ 32) :
    leadingZeros32 x < 32 ∧ 2 ^ 31 ≤ x * 2 ^ leadingZeros32 x ∧
      x * 2 ^ leadingZeros32 x < 2 ^ 32 := by
  unfold leadingZeros32
  rw [if_neg (by omega)]
  have hlog_le : Nat.log2 x ≤ 31 := by
    have h := (Nat.log2_lt (by omega : x ≠ 0)).mpr (by omega : x < 2 ^ 32)
    omega
  have hlow : 2 ^ Nat.log2 x ≤ x := Nat.log2_self_le (by omega)
  have hhigh : x < 2 ^ (Nat.log2 x + 1) := Nat.lt_log2_self
  have hsplit31 : (2:Nat) ^ 31 = 2 ^ Nat.log2 x * 2 ^ (31 - Nat.log2 x) := by
    rw [← pow_add]
    congr 1
    omega
  have hsplit32 : (2:Nat) ^ (Nat.log2 x + 1) * 2 ^ (31 - Nat.log2 x) ≤ 2 ^ 32 := by
    rw [← pow_add]
    exact Nat.pow_le_pow_right (by norm_num) (by omega)
  refine ⟨by omega, ?_, ?_⟩
  · calc (2:Nat) ^ 31 = 2 ^ Nat.log2 x * 2 ^ (31 - Nat.log2 x) := hsplit31
      _ ≤ x * 2 ^ (31 - Nat.log2 x) := Nat.mul_le_mul_right _ hlow
  · calc x * 2 ^ (31 - Nat.log2 x) < 2 ^ (Nat.log2 x + 1) * 2 ^ (31 - Nat.log2 x) :=
        (Nat.mul_lt_mul_right (by positivity)).mpr hhigh
      _ ≤ 2 ^ 32 := hsplit32

theorem remAssignWithQuotientKnuth_eq (a b : List Nat) (n mExtra nsh : Nat)
    (dv dividend : List Nat)
    (hn : n = a.length - findFirstNonzeroDigit b)
    (hmE : mExtra = a.length - findFirstNonzeroDigit a - n)
    (hnsh : nsh = leadingZeros32 (getFromRight b (n - 1)))
    (hdv : dv = shiftLeftLimbs b nsh)
    (hdd : dividend = shiftLeftLimbs a nsh) :
    remAssignWithQuotientKnuth a b =
      ((shiftRightLimbs (knuthLoop dv (getFromRight dv (n - 1)) (getFromRight dv (n - 2))
          n (a.length + 1) mExtra dividend (List.replicate a.length 0)).1 nsh).drop 1,
       (knuthLoop dv (getFromRight dv (n - 1)) (getFromRight dv (n - 2))
          n (a.length + 1) mExtra dividend (List.replicate a.length 0)).2) := by
  subst hdd
  subst hdv
  subst hnsh
  subst hmE
  subst hn
  rfl

theorem remAssignWithQuotientKnuth_spec (a b : List Nat) (hlen : b.length = a.length)
    (ha : ∀ x ∈ a, x < 2 ^ 32) (hb : ∀ x ∈ b, x < 2 ^ 32)
    (hbX : 2 ^ 32 ≤ evalDigits (2 ^ 32) b)
    (hab : evalDigits (2 ^ 32) b < evalDigits (2 ^ 32) a) :
    (remAssignWithQuotientKnuth a b).1.length = a.length ∧
    (remAssignWithQuotientKnuth a b).2.length = a.length ∧
    (∀ x ∈ (remAssignWithQuotientKnuth a b).1, x < 2 ^ 32) ∧
    (∀ x ∈ (remAssignWithQuotientKnuth a b).2, x < 2 ^ 32) ∧
    evalDigits (2 ^ 32) (remAssignWithQuotientKnuth a b).1 =
      evalDigits (2 ^ 32) a % evalDigits (2 ^ 32) b ∧
    evalDigits (2 ^ 32) (remAssignWithQuotientKnuth a b).2 =
      evalDigits (2 ^ 32) a / evalDigits (2 ^ 32) b := by
  obtain ⟨hfb1, hfb2, hfb3⟩ := findFirstNonzeroDigit_spec b hb
  obtain ⟨hfa1, hfa2, hfa3⟩ := findFirstNonzeroDigit_spec a ha
  have hB1 : 1 ≤ evalDigits (2 ^ 32) b := by omega
  have hA1 : 1 ≤ evalDigits (2 ^ 32) a := by omega
  have hzb : findFirstNonzeroDigit b < b.length := by
    by_contra h
    push_neg at h
    have h0 : b.length - findFirstNonzeroDigit b = 0 := by omega
    rw [h0, Nat.mul_zero, pow_zero] at hfb2
    omega
  have hza : findFirstNonzeroDigit a < a.length := by
    by_contra h
    push_neg at h
    have h0 : a.length - findFirstNonzeroDigit a = 0 := by omega
    rw [h0, Nat.mul_zero, pow_zero] at hfa2
    omega
  set n := a.length - findFirstNonzeroDigit b with hn
  have hnb : b.length - findFirstNonzeroDigit b = n := by omega
  rw [hnb] at hfb2
  have hfb3' := hfb3 hzb
  have hnb1 : b.length - findFirstNonzeroDigit b - 1 = n - 1 := by omega
  rw [hnb1] at hfb3'
  have hBn : evalDigits (2 ^ 32) b < ((2:Nat) ^ 32) ^ n := by
    rw [pow_mul] at hfb2
    exact hfb2
  have hBn1 : ((2:Nat) ^ 32) ^ (n - 1) ≤ evalDigits (2 ^ 32) b := by
    rw [pow_mul] at hfb3'
    exact hfb3'
  have hn2 : 2 ≤ n := by
    by_contra h
    push_neg at h
    have h1 : ((2:Nat) ^ 32) ^ n ≤ ((2:Nat) ^ 32) ^ 1 :=
      Nat.pow_le_pow_right (by norm_num) (by omega)
    rw [pow_one] at h1
    omega
  set mP := a.length - findFirstNonzeroDigit a with hmP
  have hAm : evalDigits (2 ^ 32) a < ((2:Nat) ^ 32) ^ mP := by
    rw [pow_mul] at hfa2
    exact hfa2
  have hnmP : n ≤ mP := by
    by_contra h
    push_neg at h
    have h1 : ((2:Nat) ^ 32) ^ mP ≤ ((2:Nat) ^ 32) ^ (n - 1) :=
      Nat.pow_le_pow_right (by norm_num) (by omega)
    omega
  have hnbl : n - 1 < b.length := by omega
  have htg : getFromRight b (n - 1) =
      evalDigits (2 ^ 32) b / ((2:Nat) ^ 32) ^ (n - 1) % 2 ^ 32 :=
    getFromRight_val b hb (n - 1) hnbl
  have htlt : evalDigits (2 ^ 32) b / ((2:Nat) ^ 32) ^ (n - 1) < 2 ^ 32 := by
    rw [Nat.div_lt_iff_lt_mul (by positivity : (0:Nat) < ((2:Nat) ^ 32) ^ (n - 1))]
    calc evalDigits (2 ^ 32) b < ((2:Nat) ^ 32) ^ n := hBn
      _ = 2 ^ 32 * ((2:Nat) ^ 32) ^ (n - 1) := by
        rw [← pow_succ']
        congr 1
        omega
  have htg' : getFromRight b (n - 1) =
      evalDigits (2 ^ 32) b / ((2:Nat) ^ 32) ^ (n - 1) := by
    rw [htg, Nat.mod_eq_of_lt htlt]
  have ht0 : 0 < getFromRight b (n - 1) := by
    rw [htg']
    have h1 : 1 ≤ evalDigits (2 ^ 32) b / ((2:Nat) ^ 32) ^ (n - 1) := by
      rw [Nat.le_div_iff_mul_le (by positivity : (0:Nat) < ((2:Nat) ^ 32) ^ (n - 1)),
        one_mul]
      exact hBn1
    omega
  have htX : getFromRight b (n - 1) < 2 ^ 32 := by
    rw [htg']
    exact htlt
  obtain ⟨hnsh32, hts_lo, hts_hi⟩ := leadingZeros32_spec (getFromRight b (n - 1)) ht0 htX
  set nsh := leadingZeros32 (getFromRight b (n - 1)) with hnsh
  obtain ⟨hdvlen, hdvb, hdvval⟩ := shiftLeftLimbs_spec b nsh hnsh32 hb
  obtain ⟨hddlen, hddb, hddval⟩ := shiftLeftLimbs_spec a nsh hnsh32 ha
  set dv := shiftLeftLimbs b nsh with hdv
  set dividend := shiftLeftLimbs a nsh with hdd
  have h2nsh1 : (1:Nat) ≤ 2 ^ nsh := Nat.one_le_two_pow
  have htp1 : (getFromRight b (n - 1) + 1) * 2 ^ nsh ≤ 2 ^ 32 := by
    have h2 : (2:Nat) ^ (32 - nsh) * 2 ^ nsh = 2 ^ 32 := by
      rw [← pow_add]
      congr 1
      omega
    have h3 : getFromRight b (n - 1) * 2 ^ nsh < 2 ^ (32 - nsh) * 2 ^ nsh := by
      rw [h2]
      exact hts_hi
    have h1 : getFromRight b (n - 1) < 2 ^ (32 - nsh) :=
      lt_of_mul_lt_mul_right h3 (Nat.zero_le _)
    calc (getFromRight b (n - 1) + 1) * 2 ^ nsh ≤ 2 ^ (32 - nsh) * 2 ^ nsh :=
        Nat.mul_le_mul_right _ (by omega)
      _ = 2 ^ 32 := h2
  have hDn : evalDigits (2 ^ 32) dv < ((2:Nat) ^ 32) ^ n := by
    rw [hdvval]
    have hb1 : evalDigits (2 ^ 32) b <
        (getFromRight b (n - 1) + 1) * ((2:Nat) ^ 32) ^ (n - 1) := by
      rw [htg']
      exact lt_div_succ_mul _ _ (by positivity)
    have hb2 : (evalDigits (2 ^ 32) b + 1) * 2 ^ nsh ≤
        ((getFromRight b (n - 1) + 1) * ((2:Nat) ^ 32) ^ (n - 1)) * 2 ^ nsh :=
      Nat.mul_le_mul_right _ (by omega)
    have hb3 : ((getFromRight b (n - 1) + 1) * ((2:Nat) ^ 32) ^ (n - 1)) * 2 ^ nsh =
        ((getFromRight b (n - 1) + 1) * 2 ^ nsh) * ((2:Nat) ^ 32) ^ (n - 1) := by ring
    have hb4 : ((getFromRight b (n - 1) + 1) * 2 ^ nsh) * ((2:Nat) ^ 32) ^ (n - 1) ≤
        2 ^ 32 * ((2:Nat) ^ 32) ^ (n - 1) := Nat.mul_le_mul_right _ htp1
    have hb5 : (2:Nat) ^ 32 * ((2:Nat) ^ 32) ^ (n - 1) = ((2:Nat) ^ 32) ^ n := by
      rw [← pow_succ']
      congr 1
      omega
    have hb6 : (evalDigits (2 ^ 32) b + 1) * 2 ^ nsh =
        evalDigits (2 ^ 32) b * 2 ^ nsh + 2 ^ nsh := by ring
    omega
  have hdvlenM : dv.length = a.length + 1 := by
    rw [hdvlen, hlen]
  have hn1dv : n - 1 < dv.length := by omega
  have hv1g : getFromRight dv (n - 1) =
      evalDigits (2 ^ 32) dv / ((2:Nat) ^ 32) ^ (n - 1) % 2 ^ 32 :=
    getFromRight_val dv hdvb (n - 1) hn1dv
  have hv1lt : evalDigits (2 ^ 32) dv / ((2:Nat) ^ 32) ^ (n - 1) < 2 ^ 32 := by
    rw [Nat.div_lt_iff_lt_mul (by positivity : (0:Nat) < ((2:Nat) ^ 32) ^ (n - 1))]
    calc evalDigits (2 ^ 32) dv < ((2:Nat) ^ 32) ^ n := hDn
      _ = 2 ^ 32 * ((2:Nat) ^ 32) ^ (n - 1) := by
        rw [← pow_succ']
        congr 1
        omega
  have hnorm : 2 ^ 31 ≤ getFromRight dv (n - 1) := by
    rw [hv1g, Nat.mod_eq_of_lt hv1lt,
      Nat.le_div_iff_mul_le (by positivity : (0:Nat) < ((2:Nat) ^ 32) ^ (n - 1)), hdvval]
    have h1 : getFromRight b (n - 1) * ((2:Nat) ^ 32) ^ (n - 1) ≤
        evalDigits (2 ^ 32) b := by
      rw [htg']
      exact Nat.div_mul_le_self _ _
    have h2 : (getFromRight b (n - 1) * ((2:Nat) ^ 32) ^ (n - 1)) * 2 ^ nsh ≤
        evalDigits (2 ^ 32) b * 2 ^ nsh := Nat.mul_le_mul_right _ h1
    have h3 : (getFromRight b (n - 1) * ((2:Nat) ^ 32) ^ (n - 1)) * 2 ^ nsh =
        (getFromRight b (n - 1) * 2 ^ nsh) * ((2:Nat) ^ 32) ^ (n - 1) := by ring
    have h4 : 2 ^ 31 * ((2:Nat) ^ 32) ^ (n - 1) ≤
        (getFromRight b (n - 1) * 2 ^ nsh) * ((2:Nat) ^ 32) ^ (n - 1) :=
      Nat.mul_le_mul_right _ hts_lo
    omega
  set mExtra := mP - n with hmE
  have hinv : evalDigits (2 ^ 32) dividend <
      evalDigits (2 ^ 32) dv * ((2:Nat) ^ 32) ^ (mExtra + 1) := by
    rw [hddval, hdvval]
    have h1 : evalDigits (2 ^ 32) a <
        evalDigits (2 ^ 32) b * ((2:Nat) ^ 32) ^ (mExtra + 1) := by
      have h2 : ((2:Nat) ^ 32) ^ mP =
          ((2:Nat) ^ 32) ^ (n - 1) * ((2:Nat) ^ 32) ^ (mExtra + 1) := by
        rw [← pow_add]
        congr 1
        omega
      have h3 : ((2:Nat) ^ 32) ^ (n - 1) * ((2:Nat) ^ 32) ^ (mExtra + 1) ≤
          evalDigits (2 ^ 32) b * ((2:Nat) ^ 32) ^ (mExtra + 1) :=
        Nat.mul_le_mul_right _ hBn1
      omega
    calc evalDigits (2 ^ 32) a * 2 ^ nsh <
        (evalDigits (2 ^ 32) b * ((2:Nat) ^ 32) ^ (mExtra + 1)) * 2 ^ nsh :=
        (Nat.mul_lt_mul_right (by positivity)).mpr h1
      _ = evalDigits (2 ^ 32) b * 2 ^ nsh * ((2:Nat) ^ 32) ^ (mExtra + 1) := by ring
  have hloopargs : mExtra + n + 1 ≤ a.length + 1 := by omega
  have hD'0 : 0 < evalDigits (2 ^ 32) dv := by
    rw [hdvval]
    have h := Nat.mul_le_mul hB1 h2nsh1
    omega
  obtain ⟨hl1, hl2, hl3, hl4, hl5, hl6⟩ := knuthLoop_spec dv (getFromRight dv (n - 1))
    (getFromRight dv (n - 2)) n (a.length + 1) hdvlenM hdvb hn2 hDn hD'0 rfl rfl hnorm
    mExtra dividend (List.replicate a.length 0)
    hddlen hddb hloopargs hinv
    (by rw [List.length_replicate])
    (fun x hx => by rw [List.eq_of_mem_replicate hx]; norm_num)
    (fun i _ => getFromRight_replicate _ _)
  have heq := remAssignWithQuotientKnuth_eq a b n mExtra nsh dv dividend hn
    (by rw [hmE, hmP]) hnsh hdv hdd
  set dq := knuthLoop dv (getFromRight dv (n - 1)) (getFromRight dv (n - 2)) n
    (a.length + 1) mExtra dividend (List.replicate a.length 0) with hdq
  obtain ⟨hsr1, hsr2, hsr3⟩ := shiftRightLimbs_spec dq.1 nsh hnsh32 hl2
  have hrem : evalDigits (2 ^ 32) (shiftRightLimbs dq.1 nsh) =
      evalDigits (2 ^ 32) a % evalDigits (2 ^ 32) b := by
    rw [hsr3, hl3, hddval, hdvval, Nat.mul_mod_mul_right,
      Nat.mul_div_cancel _ (by positivity : (0:Nat) < 2 ^ nsh)]
  have hremlt : evalDigits (2 ^ 32) (shiftRightLimbs dq.1 nsh) <
      ((2:Nat) ^ 32) ^ a.length := by
    rw [hrem]
    have h1 : evalDigits (2 ^ 32) a % evalDigits (2 ^ 32) b < evalDigits (2 ^ 32) b :=
      Nat.mod_lt _ (by omega)
    have h2 : ((2:Nat) ^ 32) ^ n ≤ ((2:Nat) ^ 32) ^ a.length :=
      Nat.pow_le_pow_right (by norm_num) (by omega)
    omega
  have hdrop : evalDigits (2 ^ 32) ((shiftRightLimbs dq.1 nsh).drop 1) =
      evalDigits (2 ^ 32) (shiftRightLimbs dq.1 nsh) := by
    apply evalDigits_drop_of_lt _ hsr2
    have hlen1 : (shiftRightLimbs dq.1 nsh).length - 1 = a.length := by
      rw [hsr1, hl1]
      omega
    rw [hlen1]
    exact hremlt
  have hquot : evalDigits (2 ^ 32) dq.2 =
      evalDigits (2 ^ 32) a / evalDigits (2 ^ 32) b := by
    rw [hl6, evalDigits_replicate_zero, hddval, hdvval,
      Nat.mul_div_mul_right _ _ (by positivity : (0:Nat) < 2 ^ nsh), Nat.zero_add]
  rw [heq]
  refine ⟨?_, ?_, ?_, ?_, ?_, ?_⟩
  · show ((shiftRightLimbs dq.1 nsh).drop 1).length = a.length
    rw [List.length_drop, hsr1, hl1]
    omega
  · show dq.2.length = a.length
    rw [hl4, List.length_replicate]
  · show ∀ x ∈ (shiftRightLimbs dq.1 nsh).drop 1, x < 2 ^ 32
    exact fun x hx => hsr2 x (List.mem_of_mem_drop hx)
  · show ∀ x ∈ dq.2, x < 2 ^ 32
    exact hl5
  · show evalDigits (2 ^ 32) ((shiftRightLimbs dq.1 nsh).drop 1) =
      evalDigits (2 ^ 32) a % evalDigits (2 ^ 32) b
    rw [hdrop, hrem]
  · show evalDigits (2 ^ 32) dq.2 = evalDigits (2 ^ 32) a / evalDigits (2 ^ 32) b
    exact hquot

theorem remAssignWithQuotientU32_eq (a : List Nat) (d : Nat) :
    remAssignWithQuotientU32 a d =
      (List.replicate (a.length - 1) 0 ++ [(divRemU32 d a 0).2],
        (divRemU32 d a 0).1) := rfl

theorem evalDigits_one_limb (B m r : Nat) :
    evalDigits B (List.replicate m 0 ++ [r]) = r := by
  rw [evalDigits_append, evalDigits_replicate_zero]
  show 0 * B ^ ([r] : List Nat).length + (0 * B + r) = r
  ring

theorem remAssignWithQuotientU32_spec (a : List Nat) (d : Nat) (hd : 0 < d)
    (hdX : d ≤ 2 ^ 32) (ha : ∀ x ∈ a, x < 2 ^ 32) (hlen1 : 1 ≤ a.length) :
    (remAssignWithQuotientU32 a d).1.length = a.length ∧
    (remAssignWithQuotientU32 a d).2.length = a.length ∧
    (∀ x ∈ (remAssignWithQuotientU32 a d).1, x < 2 ^ 32) ∧
    (∀ x ∈ (remAssignWithQuotientU32 a d).2, x < 2 ^ 32) ∧
    evalDigits (2 ^ 32) (remAssignWithQuotientU32 a d).1 = evalDigits (2 ^ 32) a % d ∧
    evalDigits (2 ^ 32) (remAssignWithQuotientU32 a d).2 = evalDigits (2 ^ 32) a / d := by
  have hd64 : d ≤ 2 ^ 64 := by omega
  obtain ⟨hq1, hq2, hq3, hq4⟩ := divRemU32_spec d hd a 0 (by omega) ha hd64
  rw [Nat.zero_mul, Nat.zero_add] at hq3
  rw [remAssignWithQuotientU32_eq]
  have hdiv : evalDigits (2 ^ 32) (divRemU32 d a 0).1 = evalDigits (2 ^ 32) a / d := by
    rw [← hq3, Nat.add_comm, Nat.add_mul_div_right _ _ hd, Nat.div_eq_of_lt hq4,
      Nat.zero_add]
  have hmod : (divRemU32 d a 0).2 = evalDigits (2 ^ 32) a % d := by
    rw [← hq3, Nat.add_comm, Nat.add_mul_mod_self_right, Nat.mod_eq_of_lt hq4]
  refine ⟨?_, ?_, ?_, ?_, ?_, ?_⟩
  · show (List.replicate (a.length - 1) 0 ++ [(divRemU32 d a 0).2]).length = a.length
    rw [List.length_append, List.length_replicate, List.length_singleton]
    omega
  · show (divRemU32 d a 0).1.length = a.length
    exact hq1
  · show ∀ x ∈ List.replicate (a.length - 1) 0 ++ [(divRemU32 d a 0).2], x < 2 ^ 32
    intro x hx
    rcases List.mem_append.mp hx with h | h
    · rw [List.eq_of_mem_replicate h]
      norm_num
    · rw [List.mem_singleton.mp h]
      omega
  · show ∀ x ∈ (divRemU32 d a 0).1, x < 2 ^ 32
    exact hq2 ha hdX
  · show evalDigits (2 ^ 32) (List.replicate (a.length - 1) 0 ++ [(divRemU32 d a 0).2]) =
      evalDigits (2 ^ 32) a % d
    rw [evalDigits_one_limb, hmod]
  · show evalDigits (2 ^ 32) (divRemU32 d a 0).1 = evalDigits (2 ^ 32) a / d
    exact hdiv

theorem remAssignWithQuotient_lt_eq (a b : List Nat) (h : cmpLimbs a b = .lt) :
    remAssignWithQuotient a b = (a, List.replicate a.length 0) := by
  unfold remAssignWithQuotient
  rw [h]

theorem remAssignWithQuotient_eq_eq (a b : List Nat) (h : cmpLimbs a b = .eq) :
    remAssignWithQuotient a b =
      (List.replicate a.length 0, List.replicate (a.length - 1) 0 ++ [1]) := by
  unfold remAssignWithQuotient
  rw [h]

theorem remAssignWithQuotient_gt_some (a b : List Nat) (d : Nat)
    (h : cmpLimbs a b = .gt) (ht : tryIntoU32 b = some d) :
    remAssignWithQuotient a b = remAssignWithQuotientU32 a d := by
  unfold remAssignWithQuotient
  rw [h, ht]

theorem remAssignWithQuotient_gt_none (a b : List Nat)
    (h : cmpLimbs a b = .gt) (ht : tryIntoU32 b = none) :
    remAssignWithQuotient a b = remAssignWithQuotientKnuth a b := by
  unfold remAssignWithQuotient
  rw [h, ht]

theorem remAssignWithQuotient_ok (a b : List Nat) (hlen : b.length = a.length)
    (h1 : 1 ≤ a.length)
    (ha : ∀ x ∈ a, x < 2 ^ 32) (hb : ∀ x ∈ b, x < 2 ^ 32)
    (hb0 : 0 < evalDigits (2 ^ 32) b) :
    evalDigits (2 ^ 32) (remAssignWithQuotient a b).2 * evalDigits (2 ^ 32) b +
      evalDigits (2 ^ 32) (remAssignWithQuotient a b).1 = evalDigits (2 ^ 32) a ∧
    evalDigits (2 ^ 32) (remAssignWithQuotient a b).1 < evalDigits (2 ^ 32) b := by
  obtain ⟨hc1, hc2, hc3⟩ := cmpLimbs_spec a b (by omega) ha hb
  cases hcmp : cmpLimbs a b with
  | lt =>
    have hab := hc1.mp hcmp
    rw [remAssignWithQuotient_lt_eq a b hcmp]
    constructor
    · show evalDigits (2 ^ 32) (List.replicate a.length 0) * evalDigits (2 ^ 32) b +
        evalDigits (2 ^ 32) a = evalDigits (2 ^ 32) a
      rw [evalDigits_replicate_zero]
      ring
    · exact hab
  | eq =>
    have hab := hc2.mp hcmp
    rw [remAssignWithQuotient_eq_eq a b hcmp]
    constructor
    · show evalDigits (2 ^ 32) (List.replicate (a.length - 1) 0 ++ [1]) *
        evalDigits (2 ^ 32) b + evalDigits (2 ^ 32) (List.replicate a.length 0) =
        evalDigits (2 ^ 32) a
      rw [evalDigits_one_limb, evalDigits_replicate_zero, hab]
      ring
    · show evalDigits (2 ^ 32) (List.replicate a.length 0) < evalDigits (2 ^ 32) b
      rw [evalDigits_replicate_zero]
      exact hb0
  | gt =>
    have hab := hc3.mp hcmp
    cases htry : tryIntoU32 b with
    | some d =>
      obtain ⟨hbd, hdX⟩ := tryIntoU32_some b hb d htry
      rw [remAssignWithQuotient_gt_some a b d hcmp htry]
      obtain ⟨_, _, _, _, hu5, hu6⟩ := remAssignWithQuotientU32_spec a d (by omega)
        (by omega) ha h1
      rw [hu5, hu6, ← hbd]
      exact ⟨Nat.div_add_mod' _ _, Nat.mod_lt _ hb0⟩
    | none =>
      have hbne : b ≠ [] := by
        intro hnil
        rw [hnil] at hlen
        simp at hlen
        omega
      have hbX := tryIntoU32_none b hbne htry
      rw [remAssignWithQuotient_gt_none a b hcmp htry]
      obtain ⟨_, _, _, _, hk5, hk6⟩ :=
        remAssignWithQuotientKnuth_spec a b hlen ha hb hbX hab
      rw [hk5, hk6]
      exact ⟨Nat.div_add_mod' _ _, Nat.mod_lt _ hb0⟩

/-- C5: `rem_assign_with_quotient` on 5-limb `ArbitraryBytes`: for every pair
of 160-bit unsigned integers `A` and `B` (each given as five big-endian `u32`
limbs) with `B ≠ 0`, the returned quotient `Q` and the remainder `R` left in
place satisfy `Q * B + R = A` and `R < B`. -/
theorem remAssignWithQuotient_spec (a b : List Nat)
    (hal : a.length = 5) (hbl : b.length = 5)
    (ha : ∀ x ∈ a, x < 2 ^ 32) (hb : ∀ x ∈ b, x < 2 ^ 32)
    (hb0 : 0 < evalDigits (2 ^ 32) b) :
    evalDigits (2 ^ 32) (remAssignWithQuotient a b).2 * evalDigits (2 ^ 32) b +
      evalDigits (2 ^ 32) (remAssignWithQuotient a b).1 = evalDigits (2 ^ 32) a ∧
    evalDigits (2 ^ 32) (remAssignWithQuotient a b).1 < evalDigits (2 ^ 32) b :=
  remAssignWithQuotient_ok a b (by omega) (by omega) ha hb hb0

theorem remAssignWithQuotient_spec_witness :
    evalDigits (2 ^ 32) (remAssignWithQuotient [1, 2, 3, 4, 5] [0, 0, 1, 0, 0]).2 *
        evalDigits (2 ^ 32) [0, 0, 1, 0, 0] +
      evalDigits (2 ^ 32) (remAssignWithQuotient [1, 2, 3, 4, 5] [0, 0, 1, 0, 0]).1 =
        evalDigits (2 ^ 32) [1, 2, 3, 4, 5] ∧
    evalDigits (2 ^ 32) (remAssignWithQuotient [1, 2, 3, 4, 5] [0, 0, 1, 0, 0]).1 <
      evalDigits (2 ^ 32) [0, 0, 1, 0, 0] :=
  remAssignWithQuotient_spec [1, 2, 3, 4, 5] [0, 0, 1, 0, 0] rfl rfl (by decide)
    (by decide) (by decide)

end PasswordMakerRs
